import Mathlib

/-!
# Verification of the blaze sort-based shuffle repartitioner

A shallow embedding of
`src/native-engine/datafusion-ext-plans/src/shuffle/sort_repartitioner.rs`
(`SortShuffleRepartitioner`), together with models of the external
collaborators that the file uses but whose sources are not part of the
repository snapshot (the framed batch serializer `write_one_batch`, the
spill tiers `Spill::{new_l1,to_l2,to_l3,offheap_mem_size,into_reader}`, the
loser tree, and the metrics gauge).  Those models are documented inline and
follow the repository specification.

Conventions of the embedding:
* a record-batch row is a `Row` carrying the `u32` hash that
  `evaluate_hashes` computes for it plus an opaque payload tag;
* the serialized byte stream of a spill is a `List Sym`, where one `Sym`
  is one abstract byte: `write_one_batch` (external, with length prefix)
  is modelled as emitting a self-delimiting frame
  `mark n :: (row cells)`;
* `usize` arithmetic is `Nat` (with saturating subtraction where the
  source subtracts), `isize` is `Int`.
-/

namespace BlazeShuffle

/-- One input row: `hash` is the `u32` produced for it by the external
`evaluate_hashes` (so `hash < 2^32`); `tag` stands for the remaining column
payload and serves only to distinguish rows. -/
structure Row where
  hash : Nat
  tag : Nat
deriving DecidableEq, Repr

instance : Inhabited Row := ⟨⟨0, 0⟩⟩

/-- One abstract byte of a framed stream.  Modelled from the spec: the
external serializer `write_one_batch(batch, w, true)` writes a framed,
self-delimiting block; we model one block as a length mark followed by one
cell per row. -/
inductive Sym where
  | mark (n : Nat)
  | cell (r : Row)
deriving DecidableEq, Repr

/-- The framed bytes of one sub-batch (`write_one_batch` with length
prefix). -/
def encodeFrame (f : List Row) : List Sym :=
  Sym.mark f.length :: f.map Sym.cell

/-- Concatenation of framed sub-batches. -/
def encodeFrames (fs : List (List Row)) : List Sym :=
  (fs.map encodeFrame).flatten

theorem encodeFrames_nil : encodeFrames [] = [] := rfl

theorem encodeFrames_append (fs gs : List (List Row)) :
    encodeFrames (fs ++ gs) = encodeFrames fs ++ encodeFrames gs := by
  simp [encodeFrames]

theorem encodeFrame_ne_nil (f : List Row) : encodeFrame f ≠ [] := by
  simp [encodeFrame]

/-- Read `n` row cells from the head of a stream. -/
def takeCells : Nat → List Sym → Option (List Row × List Sym)
  | 0, s => some ([], s)
  | n + 1, Sym.cell r :: s =>
      (takeCells n s).map (fun p => (r :: p.1, p.2))
  | _ + 1, _ => none

/-- Decode a stream as a sequence of framed sub-batches (fuelled by the
stream length). -/
def decodeFramesAux : Nat → List Sym → Option (List (List Row))
  | _, [] => some []
  | 0, _ :: _ => none
  | fu + 1, Sym.mark n :: s =>
      match takeCells n s with
      | some (f, s') => (decodeFramesAux fu s').map (f :: ·)
      | none => none
  | _ + 1, Sym.cell _ :: _ => none

/-- Decode a byte stream as framed sub-batches. -/
def decodeFrames (s : List Sym) : Option (List (List Row)) :=
  decodeFramesAux s.length s

theorem takeCells_encode (f : List Row) (s : List Sym) :
    takeCells f.length (f.map Sym.cell ++ s) = some (f, s) := by
  induction f with
  | nil => rfl
  | cons r f ih => simp [takeCells, ih]

theorem takeCells_length_le :
    ∀ (n : Nat) (s : List Sym) (f : List Row) (s' : List Sym),
      takeCells n s = some (f, s') → s'.length ≤ s.length := by
  intro n
  induction n with
  | zero =>
      intro s f s' h
      simp only [takeCells, Option.some.injEq, Prod.mk.injEq] at h
      rw [← h.2]
  | succ n ih =>
      intro s f s' h
      match s with
      | [] => simp [takeCells] at h
      | Sym.mark _ :: _ => simp [takeCells] at h
      | Sym.cell r :: t =>
          simp only [takeCells, Option.map_eq_some'] at h
          obtain ⟨⟨f0, s0⟩, h0, h1⟩ := h
          cases h1
          exact Nat.le_succ_of_le (ih t f0 s0 h0)

theorem decodeFramesAux_encode (fs : List (List Row)) :
    ∀ fu, (encodeFrames fs).length ≤ fu →
      decodeFramesAux fu (encodeFrames fs) = some fs := by
  induction fs with
  | nil => intro fu _; cases fu <;> rfl
  | cons f fs ih =>
      intro fu hfu
      have hshape : encodeFrames (f :: fs)
          = Sym.mark f.length :: (f.map Sym.cell ++ encodeFrames fs) := by
        simp [encodeFrames, encodeFrame]
      rw [hshape] at hfu ⊢
      match fu with
      | 0 => exact absurd hfu (by simp)
      | fu + 1 =>
          have : decodeFramesAux (fu + 1)
              (Sym.mark f.length :: (f.map Sym.cell ++ encodeFrames fs))
              = match takeCells f.length (f.map Sym.cell ++ encodeFrames fs) with
                | some (g, s') => (decodeFramesAux fu s').map (g :: ·)
                | none => none := rfl
          rw [this, takeCells_encode]
          have hlen : (encodeFrames fs).length ≤ fu := by
            simp only [List.length_cons, List.length_append] at hfu
            omega
          show (decodeFramesAux fu (encodeFrames fs)).map (f :: ·) = some (f :: fs)
          rw [ih fu hlen]
          rfl

/-- Decoding is a left inverse of framing. -/
theorem decodeFrames_encodeFrames (fs : List (List Row)) :
    decodeFrames (encodeFrames fs) = some fs :=
  decodeFramesAux_encode fs _ (Nat.le_refl _)

/-- Little-endian bytes of `(n as i64).to_le_bytes()` (two's complement,
i.e. the 8 base-256 digits of `n mod 2^64`). -/
def le64 (n : Nat) : List Nat :=
  (List.range 8).map (fun k => n / 256 ^ k % 256)

/-- The index file produced from an offset vector: each offset written as a
signed little-endian 64-bit integer. -/
def indexFileOf (offsets : List Nat) : List Nat :=
  (offsets.map le64).flatten

theorem le64_length (n : Nat) : (le64 n).length = 8 := by
  simp [le64]

theorem indexFileOf_length (offsets : List Nat) :
    (indexFileOf offsets).length = 8 * offsets.length := by
  induction offsets with
  | nil => rfl
  | cons o os ih =>
      simp [indexFileOf, le64_length] at ih ⊢
      omega

/-! ### Fixed-size chunking

`chunks bs l` splits `l` into consecutive pieces of size `bs` (the last
piece may be shorter).  This is the shape in which the freeze pipeline
emits the rows of one partition. -/

def chunksAux (bs : Nat) : Nat → List α → List (List α)
  | 0, _ => []
  | _, [] => []
  | fu + 1, a :: t => (a :: t).take bs :: chunksAux bs fu ((a :: t).drop bs)

def chunks (bs : Nat) (l : List α) : List (List α) :=
  chunksAux bs l.length l

theorem chunksAux_eq (bs : Nat) (hbs : 1 ≤ bs) :
    ∀ (fu : Nat) (l : List α), l.length ≤ fu → chunksAux bs fu l = chunks bs l := by
  intro fu
  induction fu using Nat.strong_induction_on with
  | _ fu ih =>
      intro l hl
      match fu, l with
      | 0, l =>
          have : l = [] := List.length_eq_zero.mp (Nat.le_zero.mp hl)
          subst this; rfl
      | fu + 1, [] => rfl
      | fu + 1, a :: t =>
          have hlt : t.length + 1 ≤ fu + 1 := hl
          have hdl : ((a :: t).drop bs).length ≤ t.length := by
            simp only [List.length_drop, List.length_cons]; omega
          show (a :: t).take bs :: chunksAux bs fu ((a :: t).drop bs) = chunks bs (a :: t)
          have h1 : chunksAux bs fu ((a :: t).drop bs) = chunks bs ((a :: t).drop bs) :=
            ih fu (Nat.lt_succ_self fu) _ (hdl.trans (by omega))
          have h2 : chunks bs (a :: t)
              = (a :: t).take bs :: chunksAux bs t.length ((a :: t).drop bs) := rfl
          have h3 : chunksAux bs t.length ((a :: t).drop bs)
              = chunks bs ((a :: t).drop bs) :=
            ih t.length (by omega) _ hdl
          rw [h1, h2, h3]

theorem chunks_nil (bs : Nat) : chunks bs ([] : List α) = [] := rfl

theorem chunks_cons (bs : Nat) (hbs : 1 ≤ bs) (a : α) (t : List α) :
    chunks bs (a :: t) = (a :: t).take bs :: chunks bs ((a :: t).drop bs) := by
  have h2 : chunks bs (a :: t)
      = (a :: t).take bs :: chunksAux bs t.length ((a :: t).drop bs) := rfl
  rw [h2, chunksAux_eq bs hbs t.length _
    (by simp only [List.length_drop, List.length_cons]; omega)]

theorem chunks_mem_aux (bs : Nat) (hbs : 1 ≤ bs) :
    ∀ (n : Nat) (l : List α), l.length ≤ n →
      ∀ f ∈ chunks bs l, f ≠ [] ∧ f.length ≤ bs := by
  intro n
  induction n with
  | zero =>
      intro l hl f hf
      have : l = [] := List.length_eq_zero.mp (Nat.le_zero.mp hl)
      subst this; simp [chunks_nil] at hf
  | succ n ih =>
      intro l hl f hf
      match l with
      | [] => simp [chunks_nil] at hf
      | a :: t =>
          rw [chunks_cons bs hbs] at hf
          rcases List.mem_cons.mp hf with h | h
          · subst h
            have hbs' : ∃ m, bs = m + 1 := ⟨bs - 1, by omega⟩
            obtain ⟨m, rfl⟩ := hbs'
            refine ⟨by simp [List.take_succ_cons], ?_⟩
            · exact List.length_take_le (m + 1) (a :: t)
          · refine ih ((a :: t).drop bs) ?_ f h
            simp only [List.length_drop, List.length_cons]
            simp only [List.length_cons] at hl
            omega

/-- Every chunk is non-empty and no longer than `bs`. -/
theorem chunks_mem (bs : Nat) (hbs : 1 ≤ bs) (l : List α) :
    ∀ f ∈ chunks bs l, f ≠ [] ∧ f.length ≤ bs :=
  chunks_mem_aux bs hbs l.length l (Nat.le_refl _)

theorem chunks_flatten_aux (bs : Nat) (hbs : 1 ≤ bs) :
    ∀ (n : Nat) (l : List α), l.length ≤ n → (chunks bs l).flatten = l := by
  intro n
  induction n with
  | zero =>
      intro l hl
      have : l = [] := List.length_eq_zero.mp (Nat.le_zero.mp hl)
      subst this; rfl
  | succ n ih =>
      intro l hl
      match l with
      | [] => rfl
      | a :: t =>
          rw [chunks_cons bs hbs]
          simp only [List.flatten_cons]
          have hdl : ((a :: t).drop bs).length ≤ n := by
            simp only [List.length_drop, List.length_cons]
            simp only [List.length_cons] at hl
            omega
          rw [ih ((a :: t).drop bs) hdl]
          exact List.take_append_drop bs (a :: t)

/-- Chunking then flattening restores the list. -/
theorem chunks_flatten (bs : Nat) (hbs : 1 ≤ bs) (l : List α) :
    (chunks bs l).flatten = l :=
  chunks_flatten_aux bs hbs l.length l (Nat.le_refl _)

theorem chunks_count_aux (bs : Nat) (hbs : 1 ≤ bs) :
    ∀ (n : Nat) (l : List α), l.length ≤ n →
      (chunks bs l).length = (l.length + bs - 1) / bs := by
  intro n
  induction n with
  | zero =>
      intro l hl
      have : l = [] := List.length_eq_zero.mp (Nat.le_zero.mp hl)
      subst this
      rw [chunks_nil]
      simp only [List.length_nil, Nat.zero_add]
      rw [Nat.div_eq_of_lt (by omega)]
  | succ n ih =>
      intro l hl
      match l with
      | [] =>
          rw [chunks_nil]
          simp only [List.length_nil, Nat.zero_add]
          rw [Nat.div_eq_of_lt (by omega)]
      | a :: t =>
          rw [chunks_cons bs hbs]
          simp only [List.length_cons]
          have hdl : ((a :: t).drop bs).length ≤ n := by
            simp only [List.length_drop, List.length_cons]
            simp only [List.length_cons] at hl
            omega
          rw [ih ((a :: t).drop bs) hdl]
          simp only [List.length_drop, List.length_cons]
          have hR : t.length + 1 + bs - 1 = t.length + bs := by omega
          have hR2 : (t.length + bs) / bs = t.length / bs + 1 :=
            Nat.add_div_right _ (by omega)
          rcases Nat.lt_or_ge (t.length + 1) bs with h | h
          · have h0 : t.length + 1 - bs = 0 := by omega
            rw [h0, hR, hR2, Nat.div_eq_of_lt (by omega), Nat.div_eq_of_lt (by omega)]
          · have h1 : t.length + 1 - bs + bs - 1 = t.length := by omega
            rw [h1, hR, hR2]

/-- The number of chunks is `⌈l.length / bs⌉`. -/
theorem chunks_count (bs : Nat) (hbs : 1 ≤ bs) (l : List α) :
    (chunks bs l).length = (l.length + bs - 1) / bs :=
  chunks_count_aux bs hbs l.length l (Nat.le_refl _)

/-- Chunking a list whose length is between 1 and `bs` yields a single
chunk. -/
theorem chunks_of_short (bs : Nat) (hbs : 1 ≤ bs) (l : List α)
    (h0 : l ≠ []) (h1 : l.length ≤ bs) : chunks bs l = [l] := by
  match l with
  | [] => exact absurd rfl h0
  | a :: t =>
      rw [chunks_cons bs hbs]
      have hd : (a :: t).drop bs = [] := by
        apply List.drop_eq_nil_of_le
        simpa using h1
      rw [hd, chunks_nil, List.take_of_length_le (by simpa using h1)]

/-- Chunking after a full-size prefix chunks the prefix separately. -/
theorem chunks_append_full (bs : Nat) (hbs : 1 ≤ bs) (l₁ l₂ : List α)
    (h : l₁.length = bs) : chunks bs (l₁ ++ l₂) = l₁ :: chunks bs l₂ := by
  match l₁ with
  | [] => simp at h; omega
  | a :: t =>
      have : (a :: t) ++ l₂ = a :: (t ++ l₂) := rfl
      rw [this, chunks_cons bs hbs]
      have ht : (a :: (t ++ l₂)).take bs = a :: t := by
        have : (a :: (t ++ l₂)) = (a :: t) ++ l₂ := rfl
        rw [this, List.take_append_of_le_length (by omega), List.take_of_length_le (by omega)]
      have hd : (a :: (t ++ l₂)).drop bs = l₂ := by
        have : (a :: (t ++ l₂)) = (a :: t) ++ l₂ := rfl
        rw [this, List.drop_append_of_le_length (by omega), List.drop_eq_nil_of_le (by omega),
          List.nil_append]
      rw [ht, hd]

/-- Chunking distributes over an append whose prefix length is a multiple
of `bs`. -/
theorem chunks_append_dvd (bs : Nat) (hbs : 1 ≤ bs) :
    ∀ (k : Nat) (l₁ l₂ : List α), l₁.length = k * bs →
      chunks bs (l₁ ++ l₂) = chunks bs l₁ ++ chunks bs l₂ := by
  intro k
  induction k with
  | zero =>
      intro l₁ l₂ h
      have : l₁ = [] := List.length_eq_zero.mp (by simpa using h)
      subst this; simp [chunks_nil]
  | succ k ih =>
      intro l₁ l₂ h
      have hlen : bs ≤ l₁.length := by rw [h, Nat.succ_mul]; omega
      have hfull : (l₁.take bs).length = bs := by
        rw [List.length_take]; omega
      have hsplit : l₁ = l₁.take bs ++ l₁.drop bs := (List.take_append_drop bs l₁).symm
      have hdl : (l₁.drop bs).length = k * bs := by
        rw [List.length_drop, h, Nat.succ_mul]; omega
      calc chunks bs (l₁ ++ l₂)
          = chunks bs (l₁.take bs ++ (l₁.drop bs ++ l₂)) := by
            rw [← List.append_assoc, ← hsplit]
        _ = l₁.take bs :: chunks bs (l₁.drop bs ++ l₂) := chunks_append_full bs hbs _ _ hfull
        _ = l₁.take bs :: (chunks bs (l₁.drop bs) ++ chunks bs l₂) := by rw [ih _ _ hdl]
        _ = chunks bs l₁ ++ chunks bs l₂ := by
            rw [hsplit, chunks_append_full bs hbs _ _ hfull]
            simp

/-! ### The sort tuple `PI` and the freeze-time sort

`PI { partition_id, hash, index }` with radix key
`(partition_id << 32) | hash`; the radix sort is modelled as any
key-sorted permutation (the source's `voracious_sort` is unstable), here
realised by insertion sort on the key. -/

structure PI where
  partition_id : Nat
  hash : Nat
  index : Nat
deriving DecidableEq, Repr

instance : Inhabited PI := ⟨⟨0, 0, 0⟩⟩

/-- `Radixable<u64>` key of a `PI`: `(partition_id as u64) << 32 | hash`. -/
def PI.key (x : PI) : Nat := x.partition_id * 2 ^ 32 + x.hash

/-- Comparison used to model the radix sort. -/
def piLe (a b : PI) : Prop := a.key ≤ b.key

instance : DecidableRel piLe := fun a b => inferInstanceAs (Decidable (a.key ≤ b.key))

instance : IsTotal PI piLe := ⟨fun a b => Nat.le_total a.key b.key⟩

instance : IsTrans PI piLe := ⟨fun _ _ _ hab hbc => Nat.le_trans hab hbc⟩

/-- The `pi_vec` built in `spill_buffered_to_l1`: for row `i` of the
concatenated batch, `hash` comes from `evaluate_hashes` (modelled as the
`Row.hash` field) and `partition_id` from `evaluate_partition_ids`, which
per the spec is `hash mod N`. -/
def buildPIs (N : Nat) (rows : List Row) : List PI :=
  rows.enum.map (fun p => { partition_id := p.2.hash % N, hash := p.2.hash, index := p.1 })

/-- `pi_vec.voracious_sort()`: a permutation of `pi_vec` sorted by the
radix key. -/
def sortPIs (N : Nat) (rows : List Row) : List PI :=
  List.insertionSort piLe (buildPIs N rows)

theorem sortPIs_perm (N : Nat) (rows : List Row) :
    (sortPIs N rows).Perm (buildPIs N rows) :=
  List.perm_insertionSort piLe (buildPIs N rows)

theorem sortPIs_sorted (N : Nat) (rows : List Row) :
    List.Sorted piLe (sortPIs N rows) :=
  List.sorted_insertionSort piLe (buildPIs N rows)

/-- Well-formedness of one `PI` of `buildPIs`. -/
def PIWF (N : Nat) (rows : List Row) (x : PI) : Prop :=
  x.index < rows.length ∧ x.hash = (rows.getD x.index default).hash ∧
    x.partition_id = x.hash % N

theorem buildPIs_wf (N : Nat) (rows : List Row) :
    ∀ x ∈ buildPIs N rows, PIWF N rows x := by
  intro x hx
  simp only [buildPIs, List.mem_map] at hx
  obtain ⟨⟨i, r⟩, hmem, rfl⟩ := hx
  have h2 : rows[i]? = some r := List.mk_mem_enum_iff_getElem?.mp hmem
  obtain ⟨h1, h4⟩ := List.getElem?_eq_some.mp h2
  have h3 : rows.getD i default = r := by
    rw [List.getD_eq_getElem?_getD, h2, Option.getD_some]
  exact ⟨h1, by rw [h3], rfl⟩

theorem buildPIs_length (N : Nat) (rows : List Row) :
    (buildPIs N rows).length = rows.length := by
  simp [buildPIs]

/-- Mapping each `PI` back to its row recovers the input rows (before
sorting). -/
theorem buildPIs_rows (N : Nat) (rows : List Row) :
    (buildPIs N rows).map (fun x => rows.getD x.index default) = rows := by
  simp only [buildPIs, List.map_map]
  have : ∀ (l : List Row) (k : Nat),
      (List.enumFrom k l).map ((fun x => rows.getD x.index default) ∘
        (fun p : Nat × Row =>
          ({ partition_id := p.2.hash % N, hash := p.2.hash, index := p.1 } : PI)))
      = (List.enumFrom k l).map (fun p => rows.getD p.1 default) := by
    intro l k
    simp [Function.comp]
  rw [List.enum]
  rw [this rows 0]
  have h2 : ∀ (l : List Row) (k : Nat),
      (∀ j, j < l.length → l.getD j default = rows.getD (k + j) default) →
      (List.enumFrom k l).map (fun p => rows.getD p.1 default) = l := by
    intro l
    induction l with
    | nil => intro k _; rfl
    | cons a t ih =>
        intro k hk
        simp only [List.enumFrom, List.map_cons]
        have h0 : rows.getD k default = a := by
          have := hk 0 (by simp)
          simpa using this.symm
        rw [h0, ih (k + 1) (fun j hj => by
          have := hk (j + 1) (by simp; omega)
          simpa [Nat.add_assoc, Nat.add_comm 1 j] using this)]
  exact h2 rows 0 (fun j hj => by simp)

/-- The key order determines the partition order when hashes are 32-bit. -/
theorem piLe_partition_mono {a b : PI} (ha : a.hash < 2 ^ 32)
    (hb : b.hash < 2 ^ 32) (h : piLe a b) :
    a.partition_id ≤ b.partition_id := by
  have key_div : ∀ x : PI, x.hash < 2 ^ 32 → x.key / 2 ^ 32 = x.partition_id := by
    intro x hx
    rw [PI.key, Nat.add_comm, Nat.add_mul_div_right _ _ (show 0 < 2 ^ 32 by norm_num),
      Nat.div_eq_of_lt hx, Nat.zero_add]
  rw [← key_div a ha, ← key_div b hb]
  exact Nat.div_le_div_right h

/-! ### The freeze pipeline (`spill_buffered_to_l1`)

State of the write loop (lines 137–187 of the source):
`cur_partition_id`, `cur_slice_start`, the frozen byte stream and the
offset vector.  `fzStep` is the body of
`for cur_offset in 0..pi_vec.len()`, `spillFreeze` runs the loop, the
final flush and the `resize` call. -/

structure Fz where
  pid : Nat
  start : Nat
  frozen : List Sym
  offsets : List Nat
deriving Repr

/-- The rows selected by `write_sub_batch!(start..stop)`: take-columns of
the concatenated batch at the window's `PI.index` values. -/
def sliceRows (rows : List Row) (l : List PI) (start stop : Nat) : List Row :=
  ((l.drop start).take (stop - start)).map (fun x => rows.getD x.index default)

/-- One iteration of the freeze write loop at `cur_offset = off`. -/
def fzStep (rows : List Row) (bs : Nat) (l : List PI) (st : Fz) (off : Nat) : Fz :=
  let p := (l.getD off default).partition_id
  if p > st.pid ∨ off - st.start ≥ bs then
    let st1 :=
      if st.start < off then
        { st with
            frozen := st.frozen ++ encodeFrame (sliceRows rows l st.start off),
            start := off }
      else st
    if p > st1.pid then
      { st1 with
          offsets := st1.offsets ++ List.replicate (p - st1.pid) st1.frozen.length,
          pid := p }
    else st1
  else st

/-- `Vec::resize(n, v)`. -/
def resize (l : List α) (n : Nat) (v : α) : List α :=
  if l.length ≤ n then l ++ List.replicate (n - l.length) v else l.take n

/-- Content of one `ShuffleSpill`: the frozen byte stream and the
`N + 1` partition offsets. -/
structure SpillBytes where
  frozen : List Sym
  offsets : List Nat
deriving DecidableEq, Repr

/-- `spill_buffered_to_l1` on the concatenation `rows` of the buffered
batches: build and sort `pi_vec`, run the write loop, flush the last
window, and resize `offsets` to `N + 1` entries padded with the stream
length. -/
def spillFreeze (N bs : Nat) (rows : List Row) : SpillBytes :=
  let l := sortPIs N rows
  let st := (List.range l.length).foldl (fzStep rows bs l) ⟨0, 0, [], [0]⟩
  let frozen :=
    if st.start < l.length then
      st.frozen ++ encodeFrame (sliceRows rows l st.start l.length)
    else st.frozen
  { frozen := frozen, offsets := resize st.offsets (N + 1) frozen.length }

/-- The rows of partition `p` in freeze order (sorted by hash within the
partition, ties in sort order). -/
def partRows (N : Nat) (rows : List Row) (p : Nat) : List Row :=
  ((sortPIs N rows).filter (fun x => x.partition_id = p)).map
    (fun x => rows.getD x.index default)

/-- The framed sub-batches that the freeze pipeline emits for partition
`p`: consecutive windows of at most `bs` rows. -/
def partFrames (N bs : Nat) (rows : List Row) (p : Nat) : List (List Row) :=
  chunks bs (partRows N rows p)

/-- The byte segment of partition `p` inside the frozen stream. -/
def partSeg (N bs : Nat) (rows : List Row) (p : Nat) : List Sym :=
  encodeFrames (partFrames N bs rows p)

/-! ### Helper notions for the freeze-loop invariant -/

/-- The `PI`s of partition `p` in a slice of `pi_vec`. -/
def filterP (p : Nat) (t : List PI) : List PI :=
  t.filter (fun x => x.partition_id = p)

/-- Map `PI`s back to their rows in the concatenated batch. -/
def piRows (rows : List Row) (t : List PI) : List Row :=
  t.map (fun x => rows.getD x.index default)

/-- Partition segment determined by a sorted `pi_vec` `l`. -/
def segOfL (bs : Nat) (rows : List Row) (l : List PI) (p : Nat) : List Sym :=
  encodeFrames (chunks bs (piRows rows (filterP p l)))

/-- Length of the stream up to (excluding) partition `q`. -/
def prefLen (f : Nat → List Sym) (q : Nat) : Nat :=
  (((List.range q).map f).flatten).length

theorem partSeg_eq_segOfL (N bs : Nat) (rows : List Row) (p : Nat) :
    partSeg N bs rows p = segOfL bs rows (sortPIs N rows) p := rfl

theorem filterP_append (p : Nat) (t₁ t₂ : List PI) :
    filterP p (t₁ ++ t₂) = filterP p t₁ ++ filterP p t₂ :=
  List.filter_append t₁ t₂

theorem piRows_append (rows : List Row) (t₁ t₂ : List PI) :
    piRows rows (t₁ ++ t₂) = piRows rows t₁ ++ piRows rows t₂ :=
  List.map_append _ t₁ t₂

theorem filterP_eq_self (p : Nat) (t : List PI)
    (h : ∀ x ∈ t, x.partition_id = p) : filterP p t = t := by
  rw [filterP, List.filter_eq_self]
  intro x hx
  simpa using h x hx

theorem filterP_eq_nil (p : Nat) (t : List PI)
    (h : ∀ x ∈ t, x.partition_id ≠ p) : filterP p t = [] := by
  rw [filterP, List.filter_eq_nil_iff]
  intro x hx
  simpa using h x hx

theorem flatten_range_succ (f : Nat → List α) (n : Nat) :
    ((List.range (n + 1)).map f).flatten = ((List.range n).map f).flatten ++ f n := by
  rw [List.range_succ]
  simp

/-- Dropping trailing empty segments does not change the flattening. -/
theorem flatten_range_of_empty_above (f : Nat → List α) (k K : Nat) (hk : k ≤ K)
    (h : ∀ q, k ≤ q → q < K → f q = []) :
    ((List.range K).map f).flatten = ((List.range k).map f).flatten := by
  obtain ⟨d, rfl⟩ : ∃ d, K = k + d := ⟨K - k, by omega⟩
  induction d with
  | zero => rfl
  | succ d ih =>
      rw [show k + (d + 1) = (k + d) + 1 by omega, flatten_range_succ,
        ih (by omega) (fun q h1 h2 => h q h1 (by omega)), h (k + d) (by omega) (by omega)]
      simp

theorem prefLen_congr (f : Nat → List α) (k q : Nat) (hk : k ≤ q)
    (h : ∀ p, k ≤ p → p < q → f p = []) :
    (((List.range q).map f).flatten).length = (((List.range k).map f).flatten).length := by
  rw [flatten_range_of_empty_above f k q hk h]

/-- Every element of a window `l[s .. s+w)` accessed through `take`/`drop`
is one of the `l.getD j default` with `s ≤ j < s + w`. -/
theorem mem_window (l : List PI) (s w : Nat) (x : PI)
    (hx : x ∈ (l.drop s).take w) :
    ∃ j, s ≤ j ∧ j < s + w ∧ j < l.length ∧ l.getD j default = x := by
  obtain ⟨i, hi, hgx⟩ := List.getElem_of_mem hx
  have hi1 : i < w := by
    have h0 := hi
    simp only [List.length_take] at h0
    omega
  have hid : i < (l.drop s).length := by
    have h0 := hi
    simp only [List.length_take, List.length_drop] at h0
    simp only [List.length_drop]
    omega
  have hi2 : s + i < l.length := by
    have h0 := hid
    simp only [List.length_drop] at h0
    omega
  refine ⟨s + i, by omega, by omega, hi2, ?_⟩
  have h1 : ((l.drop s).take w)[i] = (l.drop s)[i] := List.getElem_take _
  have h2 : (l.drop s)[i] = l[s + i] := by
    rw [List.getElem_drop]
  rw [List.getD_eq_getElem l default hi2, ← h2, ← h1, hgx]

/-- `if k = p then c else 0` summed over `p < N`. -/
theorem sum_map_ite (c k : Nat) :
    ∀ N, (((List.range N).map (fun p => if k = p then c else 0)).sum)
      = if k < N then c else 0 := by
  intro N
  induction N with
  | zero => simp
  | succ N ih =>
      rw [List.range_succ, List.map_append, List.sum_append, ih]
      have h1 : (List.map (fun p => if k = p then c else 0) [N]).sum
          = if k = N then c else 0 := by simp
      rw [h1]
      split_ifs <;> omega

/-- Splitting a list into its per-partition filters is a permutation. -/
theorem filterP_flatten_perm (N : Nat) (l : List PI)
    (h : ∀ x ∈ l, x.partition_id < N) :
    (((List.range N).map (fun p => filterP p l)).flatten).Perm l := by
  rw [List.perm_iff_count]
  intro x
  rw [List.count_flatten, List.map_map]
  have hcnt : ∀ p, List.count x (filterP p l)
      = if x.partition_id = p then List.count x l else 0 := by
    intro p
    by_cases hp : x.partition_id = p
    · rw [if_pos hp]
      exact List.count_filter (by simpa using hp)
    · rw [if_neg hp, List.count_eq_zero]
      intro hmem
      rw [filterP, List.mem_filter] at hmem
      exact hp (by simpa using hmem.2)
  have : (List.range N).map (List.count x ∘ fun p => filterP p l)
      = (List.range N).map (fun p => if x.partition_id = p then List.count x l else 0) := by
    apply List.map_congr_left
    intro p _
    exact hcnt p
  rw [this, sum_map_ite]
  by_cases hx : x ∈ l
  · rw [if_pos (h x hx)]
  · rw [List.count_eq_zero.mpr hx]
    simp

theorem sortPIs_wf (N : Nat) (rows : List Row) :
    ∀ x ∈ sortPIs N rows, PIWF N rows x := by
  intro x hx
  exact buildPIs_wf N rows x ((sortPIs_perm N rows).mem_iff.mp hx)

theorem sortPIs_hash_lt (N : Nat) (rows : List Row)
    (hh : ∀ r ∈ rows, r.hash < 2 ^ 32) :
    ∀ x ∈ sortPIs N rows, x.hash < 2 ^ 32 := by
  intro x hx
  obtain ⟨hidx, hhash, _⟩ := sortPIs_wf N rows x hx
  rw [hhash]
  exact hh _ (List.getD_eq_getElem rows default hidx ▸ List.getElem_mem hidx)

theorem sortPIs_pid_lt (N : Nat) (rows : List Row) (hN : 1 ≤ N) :
    ∀ x ∈ sortPIs N rows, x.partition_id < N := by
  intro x hx
  obtain ⟨_, _, hpid⟩ := sortPIs_wf N rows x hx
  rw [hpid]
  exact Nat.mod_lt _ (by omega)

/-- Partition ids along the sorted `pi_vec` are non-decreasing. -/
theorem sortPIs_pid_mono (N : Nat) (rows : List Row)
    (hh : ∀ r ∈ rows, r.hash < 2 ^ 32) :
    ∀ i j, i ≤ j → j < (sortPIs N rows).length →
      ((sortPIs N rows).getD i default).partition_id
        ≤ ((sortPIs N rows).getD j default).partition_id := by
  intro i j hij hj
  rcases Nat.eq_or_lt_of_le hij with rfl | hlt
  · exact Nat.le_refl _
  have hi : i < (sortPIs N rows).length := Nat.lt_trans hlt hj
  have hle : piLe ((sortPIs N rows).get ⟨i, hi⟩) ((sortPIs N rows).get ⟨j, hj⟩) := by
    have hs := sortPIs_sorted N rows
    exact List.pairwise_iff_get.mp hs ⟨i, hi⟩ ⟨j, hj⟩ hlt
  have hga : (sortPIs N rows).getD i default = (sortPIs N rows).get ⟨i, hi⟩ := by
    rw [List.getD_eq_getElem _ _ hi]; rfl
  have hgb : (sortPIs N rows).getD j default = (sortPIs N rows).get ⟨j, hj⟩ := by
    rw [List.getD_eq_getElem _ _ hj]; rfl
  rw [hga, hgb]
  exact piLe_partition_mono
    (sortPIs_hash_lt N rows hh _ (List.get_mem _ _ _))
    (sortPIs_hash_lt N rows hh _ (List.get_mem _ _ _)) hle

/-- Flattening the per-partition rows over all partitions is a permutation
of the input rows. -/
theorem partRows_flatten_perm (N : Nat) (rows : List Row) (hN : 1 ≤ N) :
    ((((List.range N).map (partRows N rows)).flatten)).Perm rows := by
  have hfun : ∀ p, partRows N rows p = piRows rows (filterP p (sortPIs N rows)) :=
    fun _ => rfl
  have h1 : ((List.range N).map (partRows N rows)).flatten
      = piRows rows (((List.range N).map (fun p => filterP p (sortPIs N rows))).flatten) := by
    calc ((List.range N).map (partRows N rows)).flatten
        = ((List.range N).map
            (fun p => piRows rows (filterP p (sortPIs N rows)))).flatten :=
          congrArg List.flatten (List.map_congr_left (fun p _ => hfun p))
      _ = piRows rows (((List.range N).map
            (fun p => filterP p (sortPIs N rows))).flatten) := by
          rw [piRows, List.map_flatten, List.map_map]
          rfl
  rw [h1]
  have h2 : (piRows rows (((List.range N).map
      (fun p => filterP p (sortPIs N rows))).flatten)).Perm
        (piRows rows (sortPIs N rows)) :=
    (filterP_flatten_perm N (sortPIs N rows) (sortPIs_pid_lt N rows hN)).map _
  refine h2.trans ?_
  have h3 : (piRows rows (sortPIs N rows)).Perm (piRows rows (buildPIs N rows)) :=
    (sortPIs_perm N rows).map _
  refine h3.trans ?_
  rw [piRows, buildPIs_rows]

/-- `x ∈ l.drop s` comes from a position `j ≥ s`. -/
theorem mem_drop_getD (l : List PI) (s : Nat) (x : PI) (hx : x ∈ l.drop s) :
    ∃ j, s ≤ j ∧ j < l.length ∧ l.getD j default = x := by
  have h1 : l.drop s = (l.drop s).take (l.length - s) := by
    rw [List.take_of_length_le (by simp [List.length_drop])]
  rw [h1] at hx
  obtain ⟨j, hj1, hj2, hj3, hj4⟩ := mem_window l s (l.length - s) x hx
  exact ⟨j, hj1, hj3, hj4⟩

theorem segOfL_nil (bs : Nat) (rows : List Row) (l : List PI) (q : Nat)
    (h : filterP q l = []) : segOfL bs rows l q = [] := by
  rw [segOfL, h]
  rfl

/-! ### Shape lemmas for one iteration of the freeze loop -/

theorem fzStep_noop (rows : List Row) (bs : Nat) (l : List PI) (st : Fz) (off : Nat)
    (h : ¬((l.getD off default).partition_id > st.pid ∨ off - st.start ≥ bs)) :
    fzStep rows bs l st off = st := by
  simp only [fzStep]
  rw [if_neg h]

theorem fzStep_emit_nobump (rows : List Row) (bs : Nat) (l : List PI) (st : Fz)
    (off : Nat)
    (hc : (l.getD off default).partition_id > st.pid ∨ off - st.start ≥ bs)
    (he : st.start < off)
    (hp : ¬ (l.getD off default).partition_id > st.pid) :
    fzStep rows bs l st off
      = { st with
            frozen := st.frozen ++ encodeFrame (sliceRows rows l st.start off),
            start := off } := by
  simp only [fzStep]
  rw [if_pos hc, if_pos he, if_neg hp]

theorem fzStep_noemit_bump (rows : List Row) (bs : Nat) (l : List PI) (st : Fz)
    (off : Nat)
    (hc : (l.getD off default).partition_id > st.pid ∨ off - st.start ≥ bs)
    (he : ¬ st.start < off)
    (hp : (l.getD off default).partition_id > st.pid) :
    fzStep rows bs l st off
      = { st with
            offsets := st.offsets ++ List.replicate
              ((l.getD off default).partition_id - st.pid) st.frozen.length,
            pid := (l.getD off default).partition_id } := by
  simp only [fzStep]
  rw [if_pos hc, if_neg he, if_pos hp]

theorem fzStep_emit_bump (rows : List Row) (bs : Nat) (l : List PI) (st : Fz)
    (off : Nat)
    (hc : (l.getD off default).partition_id > st.pid ∨ off - st.start ≥ bs)
    (he : st.start < off)
    (hp : (l.getD off default).partition_id > st.pid) :
    fzStep rows bs l st off
      = { pid := (l.getD off default).partition_id,
          start := off,
          frozen := st.frozen ++ encodeFrame (sliceRows rows l st.start off),
          offsets := st.offsets ++ List.replicate
            ((l.getD off default).partition_id - st.pid)
            (st.frozen ++ encodeFrame (sliceRows rows l st.start off)).length } := by
  simp only [fzStep]
  rw [if_pos hc, if_pos he, if_pos hp]

theorem encodeFrames_singleton (f : List Row) : encodeFrames [f] = encodeFrame f := by
  simp [encodeFrames]

/-- `x ∈ l.take off` comes from a position `j < off`. -/
theorem mem_take_getD (l : List PI) (off : Nat) (x : PI) (hx : x ∈ l.take off) :
    ∃ j, j < off ∧ j < l.length ∧ l.getD j default = x := by
  have h0 : l.take off = (l.drop 0).take off := by rw [List.drop_zero]
  rw [h0] at hx
  obtain ⟨j, _, hj2, hj3, hj4⟩ := mem_window l 0 off x hx
  exact ⟨j, by omega, hj3, hj4⟩

theorem filterP_take_split (l : List PI) (P s off : Nat) (hs : s ≤ off)
    (hwin : ∀ j, s ≤ j → j < off → (l.getD j default).partition_id = P) :
    filterP P (l.take off)
      = filterP P (l.take s) ++ (l.drop s).take (off - s) := by
  have h0 : off = s + (off - s) := by omega
  have h1 : l.take off = l.take s ++ (l.drop s).take (off - s) := by
    conv_lhs => rw [h0]
    rw [List.take_add]
  rw [h1, filterP_append]
  congr 1
  apply filterP_eq_self
  intro x hx
  obtain ⟨j, hj1, hj2, hj3, hj4⟩ := mem_window l s (off - s) x hx
  rw [← hj4]
  exact hwin j hj1 (by omega)

theorem filterP_full (l : List PI) (P off : Nat)
    (h : ∀ j, off ≤ j → j < l.length → (l.getD j default).partition_id ≠ P) :
    filterP P l = filterP P (l.take off) := by
  conv_lhs => rw [← List.take_append_drop off l]
  rw [filterP_append]
  have h2 : filterP P (l.drop off) = [] := by
    apply filterP_eq_nil
    intro x hx
    obtain ⟨j, hj1, hj2, hj3⟩ := mem_drop_getD l off x hx
    rw [← hj3]
    exact h j hj1 hj2
  rw [h2, List.append_nil]

/-- The invariant of the freeze write loop before processing
`cur_offset = off`. -/
structure FzInv (bs N : Nat) (rows : List Row) (l : List PI) (off : Nat)
    (st : Fz) : Prop where
  hso : st.start ≤ off
  hol : off ≤ l.length
  hwb : off - st.start ≤ bs
  hpN : st.pid < N
  hwin : ∀ j, st.start ≤ j → j < off → (l.getD j default).partition_id = st.pid
  hpast : ∀ j, j < off → (l.getD j default).partition_id ≤ st.pid
  hfut : ∀ j, off ≤ j → j < l.length → st.pid ≤ (l.getD j default).partition_id
  hdvd : ∃ k, (filterP st.pid (l.take st.start)).length = k * bs
  hfz : st.frozen = ((List.range st.pid).map (segOfL bs rows l)).flatten
      ++ encodeFrames (chunks bs (piRows rows (filterP st.pid (l.take st.start))))
  hoff : st.offsets = (List.range (st.pid + 1)).map (prefLen (segOfL bs rows l))

theorem fzInv_init (bs N : Nat) (rows : List Row) (l : List PI) (hN : 1 ≤ N) :
    FzInv bs N rows l 0 ⟨0, 0, [], [0]⟩ := by
  refine ⟨Nat.le_refl _, Nat.zero_le _, Nat.zero_le _, hN, ?_, ?_, ?_,
    ⟨0, by simp [filterP]⟩, rfl, rfl⟩
  · intro j h1 h2; omega
  · intro j h; omega
  · intro j _ _; exact Nat.zero_le _

theorem map_range_const (g : Nat → α) (n : Nat) (c : α)
    (h : ∀ x, x < n → g x = c) : (List.range n).map g = List.replicate n c := by
  induction n with
  | zero => rfl
  | succ n ih =>
      rw [List.range_succ, List.map_append, ih (fun x hx => h x (by omega)),
        List.replicate_succ']
      simp [h n (by omega)]

/-- Common part of the two cases in which the loop advances
`cur_partition_id` (and pushes offsets). -/
theorem fz_bump_inv (bs N : Nat) (rows : List Row) (l : List PI)
    (hbs : 1 ≤ bs)
    (hmono : ∀ i j, i ≤ j → j < l.length →
      (l.getD i default).partition_id ≤ (l.getD j default).partition_id)
    (hpidlt : ∀ j, j < l.length → (l.getD j default).partition_id < N)
    (off : Nat) (hoffl : off < l.length) (st : Fz)
    (inv : FzInv bs N rows l off st)
    (hP : (l.getD off default).partition_id > st.pid) (F : List Sym)
    (hF : F = ((List.range (st.pid + 1)).map (segOfL bs rows l)).flatten) :
    FzInv bs N rows l (off + 1)
      { pid := (l.getD off default).partition_id, start := off, frozen := F,
        offsets := st.offsets ++ List.replicate
          ((l.getD off default).partition_id - st.pid) F.length } := by
  set P := (l.getD off default).partition_id with hPdef
  -- partitions strictly between `st.pid` and `P` are empty
  have hEmpty : ∀ q, st.pid < q → q < P → filterP q l = [] := by
    intro q hq1 hq2
    have h1 : filterP q l = filterP q (l.take off) := by
      apply filterP_full
      intro j hj1 hj2
      have : P ≤ (l.getD j default).partition_id := hmono off j hj1 hj2
      omega
    rw [h1]
    apply filterP_eq_nil
    intro x hx
    obtain ⟨j, hj1, hj2, hj3⟩ := mem_take_getD l off x hx
    have := inv.hpast j hj1
    rw [hj3] at this
    omega
  have hSegEmpty : ∀ q, st.pid < q → q < P → segOfL bs rows l q = [] :=
    fun q h1 h2 => segOfL_nil bs rows l q (hEmpty q h1 h2)
  -- no rows of partition `P` lie before `off`
  have hPnil : filterP P (l.take off) = [] := by
    apply filterP_eq_nil
    intro x hx
    obtain ⟨j, hj1, hj2, hj3⟩ := mem_take_getD l off x hx
    have := inv.hpast j hj1
    rw [hj3] at this
    omega
  have hFlen : ∀ q, st.pid + 1 ≤ q → q ≤ P → prefLen (segOfL bs rows l) q = F.length := by
    intro q h1 h2
    rw [prefLen,
      prefLen_congr (segOfL bs rows l) (st.pid + 1) q h1
        (fun p hp1 hp2 => hSegEmpty p (by omega) (by omega)), hF]
  refine ⟨Nat.le_succ off, hoffl, by show off + 1 - off ≤ bs; omega,
    hpidlt off hoffl, ?_, ?_, ?_, ⟨0, ?_⟩, ?_, ?_⟩
  · intro j h1 h2
    have h1' : off ≤ j := h1
    have : j = off := by omega
    subst this; rfl
  · intro j hj
    show (l.getD j default).partition_id ≤ P
    rcases Nat.lt_or_ge j off with h | h
    · exact le_trans (inv.hpast j h) (by omega)
    · have : j = off := by omega
      subst this; exact Nat.le_refl _
  · intro j h1 h2
    show P ≤ (l.getD j default).partition_id
    exact hmono off j (by omega) h2
  · show (filterP P (l.take off)).length = 0 * bs
    rw [hPnil]; simp
  · show F = ((List.range P).map (segOfL bs rows l)).flatten
        ++ encodeFrames (chunks bs (piRows rows (filterP P (l.take off))))
    rw [hPnil]
    show F = ((List.range P).map (segOfL bs rows l)).flatten
        ++ encodeFrames (chunks bs (piRows rows []))
    rw [show piRows rows [] = [] from rfl, chunks_nil, encodeFrames_nil,
      List.append_nil,
      flatten_range_of_empty_above (segOfL bs rows l) (st.pid + 1) P (by omega)
        (fun q h1 h2 => hSegEmpty q (by omega) h2), hF]
  · show st.offsets ++ List.replicate (P - st.pid) F.length
        = (List.range (P + 1)).map (prefLen (segOfL bs rows l))
    have hsplit : List.range (P + 1)
        = List.range (st.pid + 1) ++ (List.range (P - st.pid)).map ((st.pid + 1) + ·) := by
      have : P + 1 = (st.pid + 1) + (P - st.pid) := by omega
      rw [this, List.range_add]
    rw [hsplit, List.map_append, ← inv.hoff, List.map_map]
    congr 1
    symm
    apply map_range_const
    intro x hx
    show prefLen (segOfL bs rows l) (st.pid + 1 + x) = F.length
    exact hFlen (st.pid + 1 + x) (by omega) (by omega)

/-- One iteration of the freeze write loop preserves the invariant. -/
theorem fzStep_inv (bs N : Nat) (rows : List Row) (l : List PI)
    (hbs : 1 ≤ bs)
    (hmono : ∀ i j, i ≤ j → j < l.length →
      (l.getD i default).partition_id ≤ (l.getD j default).partition_id)
    (hpidlt : ∀ j, j < l.length → (l.getD j default).partition_id < N)
    (off : Nat) (hoffl : off < l.length) (st : Fz)
    (inv : FzInv bs N rows l off st) :
    FzInv bs N rows l (off + 1) (fzStep rows bs l st off) := by
  set P := (l.getD off default).partition_id with hPdef
  have hPfut : st.pid ≤ P := inv.hfut off (Nat.le_refl off) hoffl
  have hWlen : (sliceRows rows l st.start off).length = off - st.start := by
    have h1 := inv.hso
    have h2 := inv.hol
    simp only [sliceRows, List.length_map, List.length_take, List.length_drop]
    omega
  by_cases hcond : P > st.pid ∨ off - st.start ≥ bs
  · by_cases hbump : P > st.pid
    · -- the partition id advances
      have hfull : filterP st.pid l = filterP st.pid (l.take off) := by
        apply filterP_full
        intro j h1 h2
        have := hmono off j h1 h2
        omega
      have hsplit := filterP_take_split l st.pid st.start off inv.hso inv.hwin
      obtain ⟨k, hk⟩ := inv.hdvd
      by_cases hemit : st.start < off
      · -- close the pending window, then advance
        rw [fzStep_emit_bump rows bs l st off hcond hemit hbump]
        have hchunks : chunks bs (piRows rows (filterP st.pid l))
            = chunks bs (piRows rows (filterP st.pid (l.take st.start)))
              ++ [sliceRows rows l st.start off] := by
          rw [hfull, hsplit, piRows_append]
          rw [chunks_append_dvd bs hbs k _ _ (by rw [piRows, List.length_map]; exact hk)]
          congr 1
          apply chunks_of_short bs hbs
          · intro hnil
            have hnil' : sliceRows rows l st.start off = [] := hnil
            rw [hnil'] at hWlen
            simp at hWlen
            omega
          · show (sliceRows rows l st.start off).length ≤ bs
            rw [hWlen]
            exact inv.hwb
        have hF : st.frozen ++ encodeFrame (sliceRows rows l st.start off)
            = ((List.range (st.pid + 1)).map (segOfL bs rows l)).flatten := by
          rw [inv.hfz, flatten_range_succ, List.append_assoc]
          congr 1
          rw [segOfL, hchunks, encodeFrames_append, encodeFrames_singleton]
        exact fz_bump_inv bs N rows l hbs hmono hpidlt off hoffl st inv hbump _ hF
      · -- empty window, just advance
        rw [fzStep_noemit_bump rows bs l st off hcond hemit hbump]
        have hstart : st.start = off := by
          have := inv.hso
          omega
        have hF : st.frozen = ((List.range (st.pid + 1)).map (segOfL bs rows l)).flatten := by
          rw [inv.hfz, flatten_range_succ]
          congr 1
          rw [segOfL, hstart, ← hfull]
        have hrec : ({ st with
              offsets := st.offsets ++ List.replicate (P - st.pid) st.frozen.length,
              pid := P } : Fz)
            = { pid := P, start := off, frozen := st.frozen,
                offsets := st.offsets ++ List.replicate (P - st.pid) st.frozen.length } := by
          cases st
          simp only at hstart
          rw [hstart]
        rw [hrec]
        exact fz_bump_inv bs N rows l hbs hmono hpidlt off hoffl st inv hbump _ hF
    · -- partition unchanged: the window reached `batch_size`
      have hPe : P = st.pid := Nat.le_antisymm (by omega) hPfut
      have hsz : off - st.start ≥ bs := hcond.resolve_left hbump
      have hemit : st.start < off := by
        have := inv.hso
        omega
      rw [fzStep_emit_nobump rows bs l st off hcond hemit hbump]
      obtain ⟨k, hk⟩ := inv.hdvd
      have hw : off - st.start = bs := by
        have := inv.hwb
        omega
      have hsplit := filterP_take_split l st.pid st.start off inv.hso inv.hwin
      refine ⟨Nat.le_succ off, hoffl, by show off + 1 - off ≤ bs; omega, inv.hpN,
        ?_, ?_, ?_, ?_, ?_, inv.hoff⟩
      · intro j h1 h2
        have h1' : off ≤ j := h1
        have : j = off := by omega
        subst this
        exact hPe
      · intro j hj
        show (l.getD j default).partition_id ≤ st.pid
        rcases Nat.lt_or_ge j off with h | h
        · exact inv.hpast j h
        · have : j = off := by omega
          subst this
          exact Nat.le_of_eq hPe
      · intro j h1 h2
        show st.pid ≤ (l.getD j default).partition_id
        rw [← hPe]
        exact hmono off j (by omega) h2
      · refine ⟨k + 1, ?_⟩
        show (filterP st.pid (l.take off)).length = (k + 1) * bs
        rw [hsplit, List.length_append, hk]
        have : ((l.drop st.start).take (off - st.start)).length = bs := by
          have h2 := inv.hol
          simp only [List.length_take, List.length_drop]
          omega
        rw [this, Nat.succ_mul]
      · show st.frozen ++ encodeFrame (sliceRows rows l st.start off)
            = ((List.range st.pid).map (segOfL bs rows l)).flatten
              ++ encodeFrames (chunks bs (piRows rows (filterP st.pid (l.take off))))
        rw [inv.hfz, List.append_assoc]
        congr 1
        have hW : piRows rows ((l.drop st.start).take (off - st.start))
            = sliceRows rows l st.start off := rfl
        rw [hsplit, piRows_append, hW,
          chunks_append_dvd bs hbs k _ _ (by rw [piRows, List.length_map]; exact hk),
          chunks_of_short bs hbs (sliceRows rows l st.start off)
            (by
              intro hnil
              rw [hnil] at hWlen
              simp at hWlen
              omega)
            (by
              rw [hWlen]
              exact inv.hwb),
          encodeFrames_append, encodeFrames_singleton]
  · -- no window boundary: nothing happens
    rw [fzStep_noop rows bs l st off hcond]
    push_neg at hcond
    obtain ⟨hc1, hc2⟩ := hcond
    have hPe : P = st.pid := Nat.le_antisymm (by omega) hPfut
    refine ⟨inv.hso.trans (Nat.le_succ off), hoffl, by
        have := inv.hso
        omega, inv.hpN, ?_, ?_, ?_, inv.hdvd, inv.hfz, inv.hoff⟩
    · intro j h1 h2
      rcases Nat.lt_or_ge j off with h | h
      · exact inv.hwin j h1 h
      · have : j = off := by omega
        subst this
        exact hPe
    · intro j hj
      rcases Nat.lt_or_ge j off with h | h
      · exact inv.hpast j h
      · have : j = off := by omega
        subst this
        exact Nat.le_of_eq hPe
    · intro j h1 h2
      rw [← hPe]
      exact hmono off j (by omega) h2

/-- The freeze loop maintains its invariant from the initial state. -/
theorem fzLoop_inv (bs N : Nat) (rows : List Row) (l : List PI)
    (hbs : 1 ≤ bs) (hN : 1 ≤ N)
    (hmono : ∀ i j, i ≤ j → j < l.length →
      (l.getD i default).partition_id ≤ (l.getD j default).partition_id)
    (hpidlt : ∀ j, j < l.length → (l.getD j default).partition_id < N) :
    ∀ n, n ≤ l.length →
      FzInv bs N rows l n ((List.range n).foldl (fzStep rows bs l) ⟨0, 0, [], [0]⟩) := by
  intro n
  induction n with
  | zero => intro _; exact fzInv_init bs N rows l hN
  | succ n ih =>
      intro h
      rw [List.range_succ, List.foldl_append]
      simp only [List.foldl_cons, List.foldl_nil]
      exact fzStep_inv bs N rows l hbs hmono hpidlt n (by omega) _ (ih (by omega))

/-- Full characterisation of `spill_buffered_to_l1`: the frozen stream is
the concatenation over partitions of that partition's framed sub-batches,
and the offsets are the `N + 1` partition-boundary positions. -/
theorem spillFreeze_spec (N bs : Nat) (rows : List Row) (hN : 1 ≤ N)
    (hbs : 1 ≤ bs) (hh : ∀ r ∈ rows, r.hash < 2 ^ 32) :
    spillFreeze N bs rows
      = { frozen := ((List.range N).map (partSeg N bs rows)).flatten,
          offsets := (List.range (N + 1)).map (prefLen (partSeg N bs rows)) } := by
  have hmono := sortPIs_pid_mono N rows hh
  have hpidlt : ∀ j, j < (sortPIs N rows).length →
      ((sortPIs N rows).getD j default).partition_id < N := by
    intro j hj
    apply sortPIs_pid_lt N rows hN
    rw [List.getD_eq_getElem _ _ hj]
    exact List.getElem_mem hj
  have inv := fzLoop_inv bs N rows (sortPIs N rows) hbs hN hmono hpidlt
    (sortPIs N rows).length (Nat.le_refl _)
  set l := sortPIs N rows with hl
  set st := (List.range l.length).foldl (fzStep rows bs l) ⟨0, 0, [], [0]⟩ with hst
  have hdef : spillFreeze N bs rows
      = { frozen := (if st.start < l.length then
              st.frozen ++ encodeFrame (sliceRows rows l st.start l.length)
            else st.frozen),
          offsets := resize st.offsets (N + 1)
            (if st.start < l.length then
              st.frozen ++ encodeFrame (sliceRows rows l st.start l.length)
            else st.frozen).length } := rfl
  have hWlen : (sliceRows rows l st.start l.length).length = l.length - st.start := by
    simp only [sliceRows, List.length_map, List.length_take, List.length_drop,
      Nat.min_self]
  have hfull : filterP st.pid l = filterP st.pid (l.take l.length) := by
    rw [List.take_length]
  have hFfull : (if st.start < l.length then
        st.frozen ++ encodeFrame (sliceRows rows l st.start l.length)
      else st.frozen)
      = ((List.range (st.pid + 1)).map (segOfL bs rows l)).flatten := by
    by_cases hemit : st.start < l.length
    · rw [if_pos hemit]
      obtain ⟨k, hk⟩ := inv.hdvd
      have hsplit := filterP_take_split l st.pid st.start l.length inv.hso inv.hwin
      have hchunks : chunks bs (piRows rows (filterP st.pid l))
          = chunks bs (piRows rows (filterP st.pid (l.take st.start)))
            ++ [sliceRows rows l st.start l.length] := by
        rw [hfull, hsplit, piRows_append,
          show piRows rows ((l.drop st.start).take (l.length - st.start))
            = sliceRows rows l st.start l.length from rfl,
          chunks_append_dvd bs hbs k _ _ (by rw [piRows, List.length_map]; exact hk),
          chunks_of_short bs hbs (sliceRows rows l st.start l.length)
            (by
              intro hnil
              rw [hnil] at hWlen
              simp at hWlen
              omega)
            (by
              rw [hWlen]
              exact inv.hwb)]
      rw [inv.hfz, flatten_range_succ, List.append_assoc]
      congr 1
      rw [segOfL, hchunks, encodeFrames_append, encodeFrames_singleton]
    · rw [if_neg hemit]
      have hstart : st.start = l.length := by
        have := inv.hso
        omega
      rw [inv.hfz, flatten_range_succ]
      congr 1
      rw [segOfL, hstart, List.take_length]
  have hEmptyTop : ∀ q, st.pid < q → filterP q l = [] := by
    intro q hq
    apply filterP_eq_nil
    intro x hx
    have hx' : x ∈ l.take l.length := by rw [List.take_length]; exact hx
    obtain ⟨j, hj1, hj2, hj3⟩ := mem_take_getD l l.length x hx'
    have := inv.hpast j hj1
    rw [hj3] at this
    omega
  have hSegTop : ∀ q, st.pid < q → segOfL bs rows l q = [] :=
    fun q hq => segOfL_nil _ _ _ _ (hEmptyTop q hq)
  rw [hdef, hFfull]
  show SpillBytes.mk _ _
      = { frozen := ((List.range N).map (segOfL bs rows l)).flatten,
          offsets := (List.range (N + 1)).map (prefLen (segOfL bs rows l)) }
  have hfrozen : ((List.range (st.pid + 1)).map (segOfL bs rows l)).flatten
      = ((List.range N).map (segOfL bs rows l)).flatten := by
    rw [flatten_range_of_empty_above (segOfL bs rows l) (st.pid + 1) N
      (by have := inv.hpN; omega) (fun q h1 h2 => hSegTop q (by omega))]
  have hoffsets : resize st.offsets (N + 1)
        (((List.range (st.pid + 1)).map (segOfL bs rows l)).flatten).length
      = (List.range (N + 1)).map (prefLen (segOfL bs rows l)) := by
    rw [inv.hoff, resize,
      if_pos (by
        simp only [List.length_map, List.length_range]
        have := inv.hpN
        omega)]
    have hsplit2 : List.range (N + 1)
        = List.range (st.pid + 1) ++ (List.range (N - st.pid)).map ((st.pid + 1) + ·) := by
      have h2 : N + 1 = (st.pid + 1) + (N - st.pid) := by
        have := inv.hpN
        omega
      rw [h2, List.range_add]
    rw [hsplit2, List.map_append, List.map_map]
    congr 1
    · simp only [List.length_map, List.length_range]
      have h3 : N + 1 - (st.pid + 1) = N - st.pid := by omega
      rw [h3]
      symm
      apply map_range_const
      intro x hx
      show prefLen (segOfL bs rows l) (st.pid + 1 + x)
          = (((List.range (st.pid + 1)).map (segOfL bs rows l)).flatten).length
      rw [prefLen, flatten_range_of_empty_above (segOfL bs rows l) (st.pid + 1)
        (st.pid + 1 + x) (by omega) (fun p h1 h2 => hSegTop p (by omega))]
  rw [hoffsets, hfrozen]

theorem prefLen_succ (f : Nat → List Sym) (q : Nat) :
    prefLen f (q + 1) = prefLen f q + (f q).length := by
  rw [prefLen, prefLen, flatten_range_succ, List.length_append]

theorem prefLen_zero (f : Nat → List Sym) : prefLen f 0 = 0 := rfl

theorem prefLen_mono (f : Nat → List Sym) (q : Nat) :
    prefLen f q ≤ prefLen f (q + 1) := by
  rw [prefLen_succ]
  omega

theorem getD_map_range (f : Nat → α) (n q : Nat) (d : α) (hq : q < n) :
    ((List.range n).map f).getD q d = f q := by
  rw [List.getD_eq_getElem _ _ (by simpa using hq)]
  simp

theorem flatten_flatten_eq (L : List (List (List α))) :
    L.flatten.flatten = (L.map List.flatten).flatten := by
  induction L with
  | nil => rfl
  | cons a t ih => simp [List.flatten_append, ih]

theorem encodeFrames_flatten (L : List (List (List Row))) :
    (L.map encodeFrames).flatten = encodeFrames L.flatten := by
  induction L with
  | nil => rfl
  | cons a t ih => simp [encodeFrames_append, ih]

/-- Every row of partition `p`'s freeze-time row list hashes to `p`. -/
theorem partRows_hash (N : Nat) (rows : List Row) (p : Nat) :
    ∀ r ∈ partRows N rows p, r.hash % N = p := by
  intro r hr
  simp only [partRows, List.mem_map] at hr
  obtain ⟨x, hx, rfl⟩ := hr
  rw [List.mem_filter] at hx
  obtain ⟨hxl, hxp⟩ := hx
  obtain ⟨hidx, hhash, hpid⟩ := sortPIs_wf N rows x hxl
  rw [← hhash, ← hpid]
  simpa using hxp

theorem partRows_empty_of_ge (N : Nat) (rows : List Row) (hN : 1 ≤ N) (p : Nat)
    (hp : N ≤ p) : partRows N rows p = [] := by
  rw [partRows]
  have h : (sortPIs N rows).filter (fun x => x.partition_id = p) = [] := by
    apply List.filter_eq_nil_iff.mpr
    intro x hx
    have := sortPIs_pid_lt N rows hN x hx
    simp only [decide_eq_true_eq]
    omega
  rw [h]
  rfl

/-- Well-formedness of a frozen spill: the stream splits into per-partition
runs of framed sub-batches with the offsets marking the boundaries, every
row in partition `p`'s frames hashes to `p`, and partitions `≥ N` are
empty. -/
def SpillWF (N : Nat) (s : SpillBytes) : Prop :=
  ∃ frames : Nat → List (List Row),
    s.frozen = ((List.range N).map (fun p => encodeFrames (frames p))).flatten ∧
    s.offsets = (List.range (N + 1)).map (prefLen (fun p => encodeFrames (frames p))) ∧
    (∀ p, ∀ f ∈ frames p, ∀ r ∈ f, r.hash % N = p) ∧
    (∀ p, N ≤ p → frames p = [])

theorem spillFreeze_wf (N bs : Nat) (rows : List Row) (hN : 1 ≤ N)
    (hbs : 1 ≤ bs) (hh : ∀ r ∈ rows, r.hash < 2 ^ 32) :
    SpillWF N (spillFreeze N bs rows) := by
  refine ⟨partFrames N bs rows, ?_, ?_, ?_, ?_⟩
  · rw [spillFreeze_spec N bs rows hN hbs hh]
    rfl
  · rw [spillFreeze_spec N bs rows hN hbs hh]
    rfl
  · intro p f hf r hr
    apply partRows_hash N rows p
    rw [← chunks_flatten bs hbs (partRows N rows p)]
    exact List.mem_flatten.mpr ⟨f, hf, hr⟩
  · intro p hp
    rw [partFrames, partRows_empty_of_ge N rows hN p hp, chunks_nil]

/-- The rows stored in a frozen spill, recovered by decoding the framed
stream. -/
def spillRows (s : SpillBytes) : List Row :=
  ((decodeFrames s.frozen).getD []).flatten

theorem spillWF_frozen_encode (N : Nat) (s : SpillBytes)
    (frames : Nat → List (List Row))
    (hfz : s.frozen = ((List.range N).map (fun p => encodeFrames (frames p))).flatten) :
    s.frozen = encodeFrames (((List.range N).map frames).flatten) := by
  rw [hfz, ← encodeFrames_flatten, List.map_map]
  rfl

theorem spillRows_of_wf (N : Nat) (s : SpillBytes) (hwf : SpillWF N s) :
    ∃ frames : Nat → List (List Row),
      s.frozen = ((List.range N).map (fun p => encodeFrames (frames p))).flatten ∧
      s.offsets = (List.range (N + 1)).map (prefLen (fun p => encodeFrames (frames p))) ∧
      (∀ p, ∀ f ∈ frames p, ∀ r ∈ f, r.hash % N = p) ∧
      (∀ p, N ≤ p → frames p = []) ∧
      spillRows s = (((List.range N).map frames).flatten).flatten := by
  obtain ⟨frames, h1, h2, h3, h4⟩ := hwf
  refine ⟨frames, h1, h2, h3, h4, ?_⟩
  rw [spillRows, spillWF_frozen_encode N s frames h1, decodeFrames_encodeFrames]
  rfl

/-- Row conservation at the freeze step: decoding the frozen stream yields
exactly the input rows (as a multiset). -/
theorem spillRows_freeze_perm (N bs : Nat) (rows : List Row) (hN : 1 ≤ N)
    (hbs : 1 ≤ bs) (hh : ∀ r ∈ rows, r.hash < 2 ^ 32) :
    (spillRows (spillFreeze N bs rows)).Perm rows := by
  obtain ⟨frames, h1, h2, h3, h4, h5⟩ :=
    spillRows_of_wf N _ (spillFreeze_wf N bs rows hN hbs hh)
  -- the frames of `spillFreeze` are `partFrames` definitionally, but the
  -- existential may hide this; recompute directly instead
  have hdec : spillRows (spillFreeze N bs rows)
      = (((List.range N).map (partFrames N bs rows)).flatten).flatten := by
    rw [spillRows, spillWF_frozen_encode N _ (partFrames N bs rows)
      (by rw [spillFreeze_spec N bs rows hN hbs hh]; rfl),
      decodeFrames_encodeFrames]
    rfl
  rw [hdec, flatten_flatten_eq, List.map_map]
  have hmapeq : ((List.range N).map (List.flatten ∘ partFrames N bs rows))
      = (List.range N).map (partRows N rows) := by
    apply List.map_congr_left
    intro p _
    show (partFrames N bs rows p).flatten = partRows N rows p
    rw [partFrames, chunks_flatten bs hbs]
  rw [hmapeq]
  exact partRows_flatten_perm N rows hN

/-! ### `shuffle_write`: spill cursors, the merge loop and the output -/

/-- A `SpillCursor` (source lines 334–360) together with its reader,
modelled as a position into the spill's byte stream. -/
structure WCursor where
  cur : Nat
  pos : Nat
  stream : List Sym
  offsets : List Nat
deriving Repr

instance : Inhabited WCursor := ⟨⟨0, 0, [], []⟩⟩

/-- `fn finished(&self) -> bool { self.cur + 1 >= self.offsets.len() }`. -/
def WCursor.finished (c : WCursor) : Bool := decide (c.offsets.length ≤ c.cur + 1)

/-- `skip_empty_partitions` (source lines 350–355), fuelled by the offset
count. -/
def skipEmptyAux : Nat → WCursor → WCursor
  | 0, c => c
  | fu + 1, c =>
      if c.finished = false ∧ c.offsets.getD (c.cur + 1) 0 = c.offsets.getD c.cur 0 then
        skipEmptyAux fu { c with cur := c.cur + 1 }
      else c

def WCursor.skipEmptyPartitions (c : WCursor) : WCursor :=
  skipEmptyAux c.offsets.length c

/-- The comparator handed to `LoserTree::new_by` (source lines 377–381):
finished cursors sort last, otherwise order by the current partition id. -/
def cursorLT (c1 c2 : WCursor) : Bool :=
  if c1.finished then false
  else if c2.finished then true
  else decide (c1.cur < c2.cur)

/-- Modelled from the spec: the loser tree (`datafusion_ext_commons`,
not in the snapshot) yields a minimum cursor under the comparator via
`peek_mut()`; ties resolve to the earlier cursor, realising the
spill-iteration order of spec §6. -/
def minIdx (cs : List WCursor) : Nat :=
  (List.range cs.length).foldl
    (fun best i =>
      if cursorLT (cs.getD i default) (cs.getD best default) then i else best) 0

/-- The merge loop of `shuffle_write` (source lines 397–424): repeatedly
take the minimum cursor; if finished, stop; otherwise emit index entries
up to its partition, copy that partition's byte range from its reader, and
advance it. -/
def mergeLoopAux (cs : List WCursor) (out : List Sym) (offs : List Nat)
    (pid : Nat) : Nat → Option (List Sym × List Nat)
  | 0 => none
  | fu + 1 =>
      let i := minIdx cs
      let c := cs.getD i default
      if c.finished then some (out, offs)
      else
        let offs' := offs ++ List.replicate (c.cur - pid) out.length
        let pid' := max pid c.cur
        let a := c.offsets.getD pid' 0
        let b := c.offsets.getD (pid' + 1) 0
        let chunk := (c.stream.drop c.pos).take (b - a)
        let c' := WCursor.skipEmptyPartitions
          { c with cur := c.cur + 1, pos := c.pos + (b - a) }
        mergeLoopAux (cs.set i c') (out ++ chunk) offs' pid' fu

/-- Spill storage tier.  Modelled from the spec §4.3 (`crate::spill::Spill`
is not in the snapshot): a spill is born as an L1 heap blob, may be
promoted to an L2 managed buffer or an L3 disk file; every tier holds the
same bytes and `offheap_mem_size()` is the blob length for L1, the exact
buffer size for L2 and 0 for L3. -/
inductive Tier where
  | l1
  | l2
  | l3
deriving DecidableEq, Repr

/-- A `ShuffleSpill`: a tiered `Spill` plus its offset table. -/
structure SSpill where
  tier : Tier
  bytes : SpillBytes
deriving DecidableEq, Repr

def SSpill.offheapMemSize (s : SSpill) : Nat :=
  match s.tier with
  | Tier.l1 => s.bytes.frozen.length
  | Tier.l2 => s.bytes.frozen.length
  | Tier.l3 => 0

/-- Repartitioner state: the buffered batches, `buffered_mem_size`, the
spill list and the accounted `metrics.mem_used`. -/
structure RPState where
  bufferedBatches : List (List Row)
  bufferedMemSize : Nat
  spills : List SSpill
  memUsed : Nat
deriving DecidableEq, Repr

/-- The opening of `shuffle_write` (source lines 326–331): if the buffer
has content, freeze it into a final L1 spill. -/
def freezeStep (N bs : Nat) (st : RPState) : RPState :=
  if 0 < st.bufferedMemSize then
    { st with
        spills := st.spills
          ++ [⟨Tier.l1, spillFreeze N bs st.bufferedBatches.flatten⟩],
        bufferedBatches := [], bufferedMemSize := 0 }
  else st

/-- `SpillCursor::try_from_spill` (source lines 334–360): a cursor starts
at partition 0 with its reader at byte 0 and immediately skips empty
partitions. -/
def spillCursor (s : SSpill) : WCursor :=
  WCursor.skipEmptyPartitions ⟨0, 0, s.bytes.frozen, s.bytes.offsets⟩

/-- The cursor list handed to the loser tree (source lines 363–374):
one cursor per spill, already-finished (fully empty) cursors dropped. -/
def shuffleCursors (sp : List SSpill) : List WCursor :=
  (sp.map spillCursor).filter (fun c => c.finished = false)

/-- `shuffle_write` (source lines 324–439).  Returns the data file bytes,
the offset vector written to the index file, and the post-call state; the
merge loop is fuelled and `none` means the fuel ran out. -/
def shuffleWrite (N bs fuel : Nat) (st : RPState) :
    Option (List Sym × List Nat × RPState) :=
  let st1 := freezeStep N bs st
  let cursors := shuffleCursors st1.spills
  let res :=
    if 0 < cursors.length then mergeLoopAux cursors [] [0] 0 fuel
    else some ([], [0])
  res.map (fun r =>
    (r.1, resize r.2 (N + 1) r.1.length,
      { bufferedBatches := st1.bufferedBatches,
        bufferedMemSize := st1.bufferedMemSize,
        spills := [], memUsed := 0 }))

theorem getD_set_eq (l : List α) (i : Nat) (a d : α) (h : i < l.length) :
    (l.set i a).getD i d = a := by
  rw [List.getD_eq_getElem _ _ (by simpa using h)]
  exact List.getElem_set_self _

theorem getD_set_ne (l : List α) (i j : Nat) (a d : α) (hne : i ≠ j) :
    (l.set i a).getD j d = l.getD j d := by
  rcases Nat.lt_or_ge j l.length with h | h
  · rw [List.getD_eq_getElem _ _ (by simpa using h),
      List.getD_eq_getElem _ _ h]
    exact List.getElem_set_ne hne _
  · rw [List.getD_eq_default _ _ (by simpa using h),
      List.getD_eq_default _ _ h]

/-! ### Properties of `skip_empty_partitions` -/

theorem skipEmptyAux_fields :
    ∀ (fu : Nat) (c : WCursor),
      (skipEmptyAux fu c).stream = c.stream ∧
      (skipEmptyAux fu c).pos = c.pos ∧
      (skipEmptyAux fu c).offsets = c.offsets ∧
      c.cur ≤ (skipEmptyAux fu c).cur := by
  intro fu
  induction fu with
  | zero => intro c; exact ⟨rfl, rfl, rfl, Nat.le_refl _⟩
  | succ fu ih =>
      intro c
      rw [skipEmptyAux]
      split
      · obtain ⟨h1, h2, h3, h4⟩ := ih { c with cur := c.cur + 1 }
        exact ⟨h1, h2, h3, Nat.le_trans (Nat.le_succ _) h4⟩
      · exact ⟨rfl, rfl, rfl, Nat.le_refl _⟩

theorem skipEmptyAux_skipped :
    ∀ (fu : Nat) (c : WCursor), ∀ p, c.cur ≤ p → p < (skipEmptyAux fu c).cur →
      c.offsets.getD (p + 1) 0 = c.offsets.getD p 0 := by
  intro fu
  induction fu with
  | zero =>
      intro c p h1 h2
      have h2' : p < c.cur := h2
      omega
  | succ fu ih =>
      intro c p h1 h2
      rw [skipEmptyAux] at h2
      by_cases hc : c.finished = false ∧ c.offsets.getD (c.cur + 1) 0 = c.offsets.getD c.cur 0
      · rw [if_pos hc] at h2
        rcases Nat.eq_or_lt_of_le h1 with rfl | hlt
        · exact hc.2
        · exact ih { c with cur := c.cur + 1 } p hlt h2
      · rw [if_neg hc] at h2
        exact absurd h2 (by omega)

theorem skipEmptyAux_normal :
    ∀ (fu : Nat) (c : WCursor), c.offsets.length ≤ fu + c.cur + 1 →
      (skipEmptyAux fu c).finished = true ∨
        (skipEmptyAux fu c).offsets.getD ((skipEmptyAux fu c).cur + 1) 0
          ≠ (skipEmptyAux fu c).offsets.getD ((skipEmptyAux fu c).cur) 0 := by
  intro fu
  induction fu with
  | zero =>
      intro c hfu
      left
      simp only [skipEmptyAux, WCursor.finished, decide_eq_true_eq]
      omega
  | succ fu ih =>
      intro c hfu
      rw [skipEmptyAux]
      by_cases hc : c.finished = false ∧ c.offsets.getD (c.cur + 1) 0 = c.offsets.getD c.cur 0
      · rw [if_pos hc]
        exact ih { c with cur := c.cur + 1 }
          (by show c.offsets.length ≤ fu + (c.cur + 1) + 1; omega)
      · rw [if_neg hc]
        rcases Decidable.em (c.finished = true) with h | h
        · exact Or.inl h
        · right
          intro heq
          exact hc ⟨by simpa using h, heq⟩

theorem skipEmptyAux_cur_le :
    ∀ (fu : Nat) (c : WCursor),
      (skipEmptyAux fu c).cur ≤ max c.cur (c.offsets.length - 1) := by
  intro fu
  induction fu with
  | zero => intro c; exact Nat.le_max_left _ _
  | succ fu ih =>
      intro c
      rw [skipEmptyAux]
      split
      · rename_i hc
        have h1 := ih { c with cur := c.cur + 1 }
        have h2 : c.cur + 1 ≤ c.offsets.length - 1 := by
          have := hc.1
          simp only [WCursor.finished, decide_eq_false_iff_not] at this
          omega
        calc (skipEmptyAux fu { c with cur := c.cur + 1 }).cur
            ≤ max (c.cur + 1) (c.offsets.length - 1) := h1
          _ = c.offsets.length - 1 := Nat.max_eq_right h2
          _ ≤ max c.cur (c.offsets.length - 1) := Nat.le_max_right _ _
      · exact Nat.le_max_left _ _

theorem skipEmptyPartitions_fields (c : WCursor) :
    (c.skipEmptyPartitions).stream = c.stream ∧
    (c.skipEmptyPartitions).pos = c.pos ∧
    (c.skipEmptyPartitions).offsets = c.offsets ∧
    c.cur ≤ (c.skipEmptyPartitions).cur :=
  skipEmptyAux_fields c.offsets.length c

theorem skipEmptyPartitions_normal (c : WCursor) :
    (c.skipEmptyPartitions).finished = true ∨
      (c.skipEmptyPartitions).offsets.getD ((c.skipEmptyPartitions).cur + 1) 0
        ≠ (c.skipEmptyPartitions).offsets.getD ((c.skipEmptyPartitions).cur) 0 :=
  skipEmptyAux_normal c.offsets.length c (by omega)

theorem skipEmptyPartitions_skipped (c : WCursor) :
    ∀ p, c.cur ≤ p → p < (c.skipEmptyPartitions).cur →
      c.offsets.getD (p + 1) 0 = c.offsets.getD p 0 :=
  skipEmptyAux_skipped c.offsets.length c

theorem skipEmptyPartitions_cur_le (c : WCursor) :
    (c.skipEmptyPartitions).cur ≤ max c.cur (c.offsets.length - 1) :=
  skipEmptyAux_cur_le c.offsets.length c

/-! ### Properties of the minimum selection -/

theorem cursorLT_irrefl (c : WCursor) : cursorLT c c = false := by
  rw [cursorLT]
  split
  · rfl
  · simp

theorem cursorLT_trans (a b c : WCursor) (h1 : cursorLT a b = true)
    (h2 : cursorLT b c = true) : cursorLT a c = true := by
  rw [cursorLT] at h1 h2 ⊢
  by_cases ha : a.finished = true
  · rw [if_pos ha] at h1
    exact absurd h1 (by simp)
  · rw [if_neg ha] at h1 ⊢
    by_cases hb : b.finished = true
    · rw [if_pos hb] at h2
      exact absurd h2 (by simp)
    · rw [if_neg hb] at h1 h2
      by_cases hc : c.finished = true
      · rw [if_pos hc]
      · rw [if_neg hc] at h2 ⊢
        simp only [decide_eq_true_eq] at h1 h2 ⊢
        omega

theorem minIdx_lt (cs : List WCursor) (h : 0 < cs.length) : minIdx cs < cs.length := by
  rw [minIdx]
  have : ∀ n, n ≤ cs.length → ∀ best, best < cs.length →
      (List.range n).foldl
        (fun best i =>
          if cursorLT (cs.getD i default) (cs.getD best default) then i else best) best
        < cs.length := by
    intro n
    induction n with
    | zero => intro _ best hb; exact hb
    | succ n ih =>
        intro hn best hb
        rw [List.range_succ, List.foldl_append]
        simp only [List.foldl_cons, List.foldl_nil]
        split
        · omega
        · exact ih (by omega) best hb
  exact this cs.length (Nat.le_refl _) 0 h

theorem minIdx_min (cs : List WCursor) :
    ∀ j, j < cs.length →
      cursorLT (cs.getD j default) (cs.getD (minIdx cs) default) = false := by
  have key : ∀ n best j, (j < n ∨ j = best) →
      cursorLT (cs.getD j default)
        (cs.getD ((List.range n).foldl
          (fun b i =>
            if cursorLT (cs.getD i default) (cs.getD b default) then i else b)
          best) default) = false := by
    intro n
    induction n with
    | zero =>
        intro best j hj
        rcases hj with hj | hj
        · omega
        · subst hj
          simp only [List.range_zero, List.foldl_nil]
          exact cursorLT_irrefl _
    | succ n ih =>
        intro best j hj
        rw [List.range_succ, List.foldl_append]
        simp only [List.foldl_cons, List.foldl_nil]
        by_cases hlt : cursorLT (cs.getD n default)
            (cs.getD ((List.range n).foldl
              (fun b i =>
                if cursorLT (cs.getD i default) (cs.getD b default) then i else b)
              best) default) = true
        · rw [if_pos hlt]
          have htrans : ∀ k, (k < n ∨ k = best) →
              cursorLT (cs.getD k default) (cs.getD n default) = false := by
            intro k hk
            rcases Bool.eq_false_or_eq_true
              (cursorLT (cs.getD k default) (cs.getD n default)) with hbo | hbo
            swap
            · exact hbo
            · have h2 := cursorLT_trans _ _ _ hbo hlt
              have h3 := ih best k hk
              rw [h3] at h2
              exact absurd h2 (by simp)
          rcases hj with hj | hj
          · rcases Nat.lt_or_ge j n with h | h
            · exact htrans j (Or.inl h)
            · have : j = n := by omega
              subst this
              exact cursorLT_irrefl _
          · exact htrans j (Or.inr hj)
        · rw [if_neg hlt]
          rcases hj with hj | hj
          · rcases Nat.lt_or_ge j n with h | h
            · exact ih best j (Or.inl h)
            · have : j = n := by omega
              subst this
              simpa using hlt
          · exact ih best j (Or.inr hj)
  intro j hj
  exact key cs.length 0 j (Or.inl hj)

/-! ### Supporting lemmas for the merge invariant -/

/-- Per-partition total byte length over `M` spills. -/
def blockLen (segs : Nat → Nat → List Sym) (M p : Nat) : Nat :=
  ((List.range M).map (fun i => (segs i p).length)).sum

/-- Output-stream position where partition `q` begins. -/
def mpfx (segs : Nat → Nat → List Sym) (M q : Nat) : Nat :=
  ((List.range q).map (blockLen segs M)).sum

theorem mpfx_succ (segs : Nat → Nat → List Sym) (M q : Nat) :
    mpfx segs M (q + 1) = mpfx segs M q + blockLen segs M q := by
  rw [mpfx, mpfx, List.range_succ, List.map_append, List.sum_append]
  simp

theorem mpfx_congr (segs : Nat → Nat → List Sym) (M a b : Nat) (hab : a ≤ b)
    (h : ∀ p, a ≤ p → p < b → blockLen segs M p = 0) :
    mpfx segs M b = mpfx segs M a := by
  obtain ⟨d, rfl⟩ : ∃ d, b = a + d := ⟨b - a, by omega⟩
  induction d with
  | zero => rfl
  | succ d ih =>
      rw [show a + (d + 1) = (a + d) + 1 by omega, mpfx_succ,
        ih (by omega) (fun p h1 h2 => h p h1 (by omega)), h (a + d) (by omega) (by omega)]
      omega

/-- Extract partition `k`'s byte segment from a partition-concatenated
stream. -/
theorem stream_extract (N : Nat) (seg : Nat → List Sym) (k : Nat) (hk : k < N) :
    ((((List.range N).map seg).flatten).drop (prefLen seg k)).take (seg k).length
      = seg k := by
  have hsplit : List.range N = List.range (k + 1) ++ (List.range (N - (k + 1))).map ((k + 1) + ·) := by
    have h2 : N = (k + 1) + (N - (k + 1)) := by omega
    conv_lhs => rw [h2]
    rw [List.range_add]
  rw [hsplit, List.map_append, List.flatten_append, flatten_range_succ,
    List.append_assoc]
  have hlen : (((List.range k).map seg).flatten).length = prefLen seg k := rfl
  rw [← hlen, List.drop_left, List.take_left]

/-- Flattening a list of segment lists in which only index `i` is
non-empty yields index `i`'s segment. -/
theorem flatten_map_single (L : List Nat) (f : Nat → List α) (i : Nat)
    (hL : ∀ j ∈ L, j ≠ i → f j = []) (hcount : L.count i = 1) :
    (L.map f).flatten = f i := by
  induction L with
  | nil => simp at hcount
  | cons a t ih =>
      by_cases ha : a = i
      · subst ha
        rw [List.count_cons_self] at hcount
        have hz : t.count a = 0 := by omega
        have hnot : a ∉ t := by
          intro hmem
          rw [List.count_eq_zero] at hz
          exact hz hmem
        simp only [List.map_cons, List.flatten_cons]
        have hrest : (t.map f).flatten = [] := by
          rw [List.flatten_eq_nil_iff]
          intro l hl
          rw [List.mem_map] at hl
          obtain ⟨j, hj, rfl⟩ := hl
          exact hL j (List.mem_cons_of_mem _ hj) (fun h => hnot (h ▸ hj))
        rw [hrest, List.append_nil]
      · rw [List.count_cons_of_ne (fun h => ha h.symm)] at hcount
        simp only [List.map_cons, List.flatten_cons]
        rw [hL a (List.mem_cons_self _ _) ha, List.nil_append]
        exact ih (fun j hj hne => hL j (List.mem_cons_of_mem _ hj) hne) hcount

/-- Changing a predicate at exactly one list member, from false to true,
prepends that member to the filtration (up to permutation). -/
theorem filter_update_perm (M i : Nat) (hi : i < M) (p q : Nat → Bool)
    (hq : ∀ j, j < M → j ≠ i → q j = p j) (hpi : p i = false) (hqi : q i = true) :
    ((List.range M).filter q).Perm (i :: (List.range M).filter p) := by
  induction M with
  | zero => omega
  | succ M ih =>
      rw [List.range_succ, List.filter_append, List.filter_append]
      by_cases hiM : i = M
      · subst hiM
        have hpq : (List.range i).filter q = (List.range i).filter p := by
          apply List.filter_congr
          intro j hj
          exact hq j (by simp at hj; omega) (by simp at hj; omega)
        have h1 : List.filter q [i] = [i] := by simp [hqi]
        have h2 : List.filter p [i] = [] := by simp [hpi]
        rw [hpq, h1, h2, List.append_nil]
        exact List.perm_append_singleton i _
      · have hiM' : i < M := by omega
        have h3 : List.filter q [M] = List.filter p [M] := by
          simp only [List.filter]
          rw [hq M (by omega) (fun h => hiM h.symm)]
        rw [h3, ← List.cons_append]
        exact (ih hiM' (fun j hj hne => hq j (by omega) hne)).append_right _

theorem flatten_length_of_perm (σ L : List (List α)) (h : σ.Perm L) :
    σ.flatten.length = L.flatten.length := by
  rw [h.flatten.length_eq]

/-- Shape of a merge cursor over the segments of its spill. -/
def CursorShape (N : Nat) (seg : Nat → List Sym) (c : WCursor) : Prop :=
  c.stream = ((List.range N).map seg).flatten ∧
  c.offsets = (List.range (N + 1)).map (prefLen seg) ∧
  c.pos = prefLen seg c.cur ∧
  c.cur ≤ N ∧
  (c.finished = false → seg c.cur ≠ [])

theorem cursorShape_finished_iff (N : Nat) (seg : Nat → List Sym) (c : WCursor)
    (h : CursorShape N seg c) : c.finished = true ↔ N ≤ c.cur := by
  obtain ⟨_, hoff, _, _, _⟩ := h
  rw [WCursor.finished, hoff]
  simp

/-- The done set of partition `pid`: cursors already advanced past it. -/
def doneList (cs : List WCursor) (pid : Nat) : List Nat :=
  (List.range cs.length).filter (fun i => decide (pid < (cs.getD i default).cur))

/-- Invariant of the merge loop of `shuffle_write`. -/
def MInv (N M : Nat) (segs : Nat → Nat → List Sym)
    (cs : List WCursor) (out : List Sym) (offs : List Nat) (pid : Nat) : Prop :=
  cs.length = M ∧
  pid < N ∧
  (∀ i, i < M → CursorShape N (segs i) (cs.getD i default)) ∧
  (∀ i, i < M → pid ≤ (cs.getD i default).cur) ∧
  (∀ i, i < M → ∀ p, pid < p → p < (cs.getD i default).cur → segs i p = []) ∧
  (∃ σ : Nat → List (List Sym),
    (∀ p, p < pid → (σ p).Perm ((List.range M).map (fun i => segs i p))) ∧
    (σ pid).Perm ((doneList cs pid).map (fun i => segs i pid)) ∧
    out = ((List.range (pid + 1)).map (fun p => (σ p).flatten)).flatten) ∧
  offs = (List.range (pid + 1)).map (mpfx segs M)

/-- Result shape of the merge loop: the data stream splits into
per-partition blocks, each a permutation of the spills' segments for that
partition; the emitted offsets are block boundaries and the missing tail
boundaries all equal the stream length. -/
def MergeOut (N M : Nat) (segs : Nat → Nat → List Sym) (out : List Sym)
    (offs : List Nat) : Prop :=
  (∃ σ : Nat → List (List Sym),
    (∀ p, p < N → (σ p).Perm ((List.range M).map (fun i => segs i p))) ∧
    out = ((List.range N).map (fun p => (σ p).flatten)).flatten) ∧
  ∃ e, e ≤ N + 1 ∧ offs = (List.range e).map (mpfx segs M) ∧
    (∀ q, e ≤ q → q ≤ N → mpfx segs M q = out.length)

/-- Total remaining partitions over all cursors, the loop's termination
measure. -/
def msr (N : Nat) (cs : List WCursor) : Nat :=
  ((List.range cs.length).map (fun i => N - (cs.getD i default).cur)).sum

theorem chain_congr (f : Nat → Nat) (a b : Nat) (hab : a ≤ b)
    (h : ∀ p, a ≤ p → p < b → f (p + 1) = f p) : f b = f a := by
  obtain ⟨d, rfl⟩ : ∃ d, b = a + d := ⟨b - a, by omega⟩
  induction d with
  | zero => rfl
  | succ d ih =>
      rw [show a + (d + 1) = (a + d) + 1 by omega, h (a + d) (by omega) (by omega),
        ih (by omega) (fun p h1 h2 => h p h1 (by omega))]

theorem sum_lt_of_lt_at (M i : Nat) (hi : i < M) (f g : Nat → Nat)
    (hfg : ∀ j, j < M → j ≠ i → f j = g j) (hlt : f i < g i) :
    ((List.range M).map f).sum < ((List.range M).map g).sum := by
  induction M with
  | zero => omega
  | succ M ih =>
      rw [List.range_succ, List.map_append, List.map_append, List.sum_append,
        List.sum_append]
      by_cases hiM : i = M
      · subst hiM
        have hpre : (List.range i).map f = (List.range i).map g := by
          apply List.map_congr_left
          intro j hj
          rw [List.mem_range] at hj
          exact hfg j (by omega) (by omega)
        rw [hpre]
        simp only [List.map_cons, List.map_nil, List.sum_cons, List.sum_nil]
        omega
      · have hltM : i < M := by omega
        have hlast : List.map f [M] = List.map g [M] := by
          simp [hfg M (by omega) (fun h => hiM h.symm)]
        rw [hlast]
        have := ih hltM (fun j hj hne => hfg j (by omega) hne)
        omega

/-- One iteration of the merge loop, as a state transformer (matching the
body of `mergeLoopAux`). -/
def mergeStepState (pid : Nat) (cs : List WCursor) (out : List Sym)
    (offs : List Nat) : List WCursor × List Sym × List Nat × Nat :=
  let i := minIdx cs
  let c := cs.getD i default
  let offs' := offs ++ List.replicate (c.cur - pid) out.length
  let pid' := max pid c.cur
  let a := c.offsets.getD pid' 0
  let b := c.offsets.getD (pid' + 1) 0
  let chunk := (c.stream.drop c.pos).take (b - a)
  let c' := WCursor.skipEmptyPartitions
    { c with cur := c.cur + 1, pos := c.pos + (b - a) }
  (cs.set i c', out ++ chunk, offs', pid')

theorem mergeLoopAux_step (cs : List WCursor) (out : List Sym)
    (offs : List Nat) (pid fu : Nat)
    (hfin : (cs.getD (minIdx cs) default).finished = false) :
    mergeLoopAux cs out offs pid (fu + 1)
      = mergeLoopAux (mergeStepState pid cs out offs).1
          (mergeStepState pid cs out offs).2.1
          (mergeStepState pid cs out offs).2.2.1
          (mergeStepState pid cs out offs).2.2.2 fu := by
  rw [mergeLoopAux, mergeStepState]
  simp only [hfin]
  rfl

theorem mergeLoopAux_stop (cs : List WCursor) (out : List Sym)
    (offs : List Nat) (pid fu : Nat)
    (hfin : (cs.getD (minIdx cs) default).finished = true) :
    mergeLoopAux cs out offs pid (fu + 1) = some (out, offs) := by
  rw [mergeLoopAux]
  simp only [hfin]
  rfl

theorem block_flatten_len (segs : Nat → Nat → List Sym) (M p : Nat) :
    (((List.range M).map (fun i => segs i p)).flatten).length = blockLen segs M p := by
  rw [List.length_flatten, List.map_map]
  rfl

/-- The block arrangement after the merge loop advances to partition `k`. -/
def sigmaBump (σ : Nat → List (List Sym)) (segs : Nat → Nat → List Sym)
    (M pid k : Nat) (dl : List Nat) : Nat → List (List Sym) :=
  fun p =>
    if p < pid then σ p
    else if p = pid then σ pid
    else if p < k then (List.range M).map (fun j => segs j p)
    else dl.map (fun j => segs j k)

theorem mergeStep_inv (N M : Nat) (segs : Nat → Nat → List Sym)
    (cs : List WCursor) (out : List Sym) (offs : List Nat) (pid : Nat)
    (hM : 0 < M)
    (inv : MInv N M segs cs out offs pid)
    (hfin : (cs.getD (minIdx cs) default).finished = false) :
    MInv N M segs (mergeStepState pid cs out offs).1
      (mergeStepState pid cs out offs).2.1
      (mergeStepState pid cs out offs).2.2.1
      (mergeStepState pid cs out offs).2.2.2 ∧
    msr N (mergeStepState pid cs out offs).1 < msr N cs := by
  obtain ⟨hlen, hpidN, hshape, hple, hpassed, ⟨σ, hσlt, hσcur, hout⟩, hoffs⟩ := inv
  set i := minIdx cs with hidef
  have hiM : i < cs.length := minIdx_lt cs (by omega)
  set c := cs.getD i default with hcdef
  have hcsh := hshape i (by omega)
  rw [← hcdef] at hcsh
  obtain ⟨hstream, hoffc, hposc, hcurle, hnemp⟩ := hcsh
  have hcurN : c.cur < N := by
    rcases Nat.lt_or_ge c.cur N with h | h
    · exact h
    · have hft := (cursorShape_finished_iff N (segs i) c
        ⟨hstream, hoffc, hposc, hcurle, hnemp⟩).mpr h
      rw [hft] at hfin
      cases hfin
  have hpc : pid ≤ c.cur := by
    have := hple i (by omega)
    rw [← hcdef] at this
    exact this
  have hpid' : max pid c.cur = c.cur := Nat.max_eq_right hpc
  have hofflenc : c.offsets.length = N + 1 := by rw [hoffc]; simp
  have ha : c.offsets.getD (max pid c.cur) 0 = prefLen (segs i) c.cur := by
    rw [hpid', hoffc, getD_map_range _ _ _ _ (by omega)]
  have hb : c.offsets.getD (max pid c.cur + 1) 0 = prefLen (segs i) (c.cur + 1) := by
    rw [hpid', hoffc, getD_map_range _ _ _ _ (by omega)]
  have hba : c.offsets.getD (max pid c.cur + 1) 0 - c.offsets.getD (max pid c.cur) 0
      = (segs i c.cur).length := by
    rw [ha, hb, prefLen_succ]
    omega
  have hchunk : (c.stream.drop c.pos).take
      (c.offsets.getD (max pid c.cur + 1) 0 - c.offsets.getD (max pid c.cur) 0)
      = segs i c.cur := by
    rw [hba, hstream, hposc]
    exact stream_extract N (segs i) c.cur hcurN
  -- the advanced cursor
  set cmid : WCursor := { c with cur := c.cur + 1, pos := c.pos + (c.offsets.getD (max pid c.cur + 1) 0 - c.offsets.getD (max pid c.cur) 0) } with hcmid
  set c' := WCursor.skipEmptyPartitions cmid with hc'def
  obtain ⟨hst', hpos', hoff', hcur'⟩ := skipEmptyPartitions_fields cmid
  rw [← hc'def] at hst' hpos' hoff' hcur'
  have hstc : c'.stream = c.stream := hst'
  have hoc : c'.offsets = c.offsets := hoff'
  have hcur'ge : c.cur + 1 ≤ c'.cur := hcur'
  have hcur'le : c'.cur ≤ N := by
    have h1 : c'.cur ≤ max (c.cur + 1) (c.offsets.length - 1) :=
      skipEmptyPartitions_cur_le cmid
    rw [hofflenc] at h1
    have h2 : N + 1 - 1 = N := by omega
    rw [h2, Nat.max_eq_right (by omega : c.cur + 1 ≤ N)] at h1
    exact h1
  have hskip : ∀ p, c.cur + 1 ≤ p → p < c'.cur → segs i p = [] := by
    intro p h1 h2
    have h3 : c.offsets.getD (p + 1) 0 = c.offsets.getD p 0 :=
      skipEmptyPartitions_skipped cmid p h1 h2
    rw [hoffc, getD_map_range _ _ _ _ (by omega),
      getD_map_range _ _ _ _ (by omega)] at h3
    have h4 := prefLen_succ (segs i) p
    have h5 : (segs i p).length = 0 := by omega
    exact List.length_eq_zero.mp h5
  have hpos'' : c'.pos = prefLen (segs i) c'.cur := by
    have hc2 : prefLen (segs i) c'.cur = prefLen (segs i) (c.cur + 1) := by
      apply chain_congr _ _ _ hcur'ge
      intro p h1 h2
      rw [prefLen_succ, hskip p h1 h2]
      simp
    have hc3 : c'.pos = c.pos + (segs i c.cur).length := by
      rw [hpos']
      show c.pos + (c.offsets.getD (max pid c.cur + 1) 0
        - c.offsets.getD (max pid c.cur) 0) = c.pos + (segs i c.cur).length
      rw [hba]
    rw [hc3, hposc, hc2, prefLen_succ]
  have hlenc' : c'.offsets.length = N + 1 := by rw [hoc, hofflenc]
  have hnorm' : c'.finished = false → segs i c'.cur ≠ [] := by
    intro hf
    rcases skipEmptyPartitions_normal cmid with h | h
    · rw [← hc'def] at h
      rw [h] at hf
      cases hf
    · rw [← hc'def] at h
      have hflt : c'.cur < N := by
        rw [WCursor.finished, hlenc'] at hf
        simp at hf
        omega
      intro hnil
      apply h
      rw [hoc, hoffc, getD_map_range _ _ _ _ (by omega),
        getD_map_range _ _ _ _ (by omega), prefLen_succ, hnil]
      simp
  have hcsh' : CursorShape N (segs i) c' := by
    refine ⟨?_, ?_, hpos'', hcur'le, hnorm'⟩
    · rw [hstc, hstream]
    · rw [hoc, hoffc]
  have hcurmin : ∀ j, j < M → c.cur ≤ (cs.getD j default).cur := by
    intro j hj
    have hml := minIdx_min cs j (by omega)
    by_cases hjf : (cs.getD j default).finished = true
    · have hcj := hshape j hj
      have hNle : N ≤ (cs.getD j default).cur :=
        (cursorShape_finished_iff N (segs j) _ hcj).mp hjf
      omega
    · rw [cursorLT, if_neg hjf, if_neg (by rw [← hcdef, hfin]; simp)] at hml
      simp only [decide_eq_false_iff_not, Nat.not_lt] at hml
      exact hml
  -- facts about the updated cursor list
  have hget_eq : ((cs.set i c').getD i default) = c' :=
    getD_set_eq cs i c' default hiM
  have hget_ne : ∀ j, j ≠ i → ((cs.set i c').getD j default) = cs.getD j default :=
    fun j hj => getD_set_ne cs i j c' default (fun h => hj h.symm)
  have hlens : (cs.set i c').length = M := by rw [List.length_set, hlen]
  have hmeasure : msr N (cs.set i c') < msr N cs := by
    rw [msr, msr, hlens, hlen]
    apply sum_lt_of_lt_at M i (by omega)
    · intro j hj hne
      rw [hget_ne j hne]
    · rw [hget_eq, ← hcdef]
      omega
  refine ⟨?_, hmeasure⟩
  show MInv N M segs (cs.set i c')
    (out ++ (c.stream.drop c.pos).take
      (c.offsets.getD (max pid c.cur + 1) 0 - c.offsets.getD (max pid c.cur) 0))
    (offs ++ List.replicate (c.cur - pid) out.length) (max pid c.cur)
  rw [hchunk, hpid']
  rcases Nat.eq_or_lt_of_le hpc with hcase | hcase
  · -- no partition advance: `c.cur = pid`
    subst hcase
    have hrep : List.replicate (c.cur - c.cur) out.length = [] := by
      rw [Nat.sub_self]
      rfl
    rw [hrep, List.append_nil]
    refine ⟨hlens, by omega, ?_, ?_, ?_, ?_, ?_⟩
    · intro j hj
      by_cases hji : j = i
      · subst hji
        rw [hget_eq]
        exact hcsh'
      · rw [hget_ne j hji]
        exact hshape j hj
    · intro j hj
      by_cases hji : j = i
      · subst hji
        rw [hget_eq]
        omega
      · rw [hget_ne j hji]
        have := hple j hj
        omega
    · intro j hj p hp1 hp2
      by_cases hji : j = i
      · subst hji
        rw [hget_eq] at hp2
        exact hskip p (by omega) hp2
      · rw [hget_ne j hji] at hp2
        exact hpassed j hj p (by omega) hp2
    · refine ⟨fun p => if p = c.cur then σ c.cur ++ [segs i c.cur] else σ p, ?_, ?_, ?_⟩
      · intro p hp
        show (if p = c.cur then σ c.cur ++ [segs i c.cur] else σ p).Perm
          ((List.range M).map (fun j => segs j p))
        rw [if_neg (by omega)]
        exact hσlt p hp
      · show (if c.cur = c.cur then σ c.cur ++ [segs i c.cur] else σ c.cur).Perm
          ((doneList (cs.set i c') c.cur).map (fun j => segs j c.cur))
        rw [if_pos rfl]
        have hdperm : (doneList (cs.set i c') c.cur).Perm (i :: doneList cs c.cur) := by
          rw [doneList, doneList, hlens, hlen]
          apply filter_update_perm M i (by omega)
          · intro j hj hji
            rw [hget_ne j hji]
          · rw [← hcdef]
            simp only [decide_eq_false_iff_not, Nat.not_lt]
            omega
          · rw [hget_eq]
            simp only [decide_eq_true_eq]
            omega
        refine (List.perm_append_singleton _ _).trans ?_
        refine List.Perm.trans ?_ (hdperm.map (fun j => segs j c.cur)).symm
        rw [List.map_cons]
        exact hσcur.cons _
      · show out ++ segs i c.cur
          = ((List.range (c.cur + 1)).map
              (fun p => (if p = c.cur then σ c.cur ++ [segs i c.cur] else σ p).flatten)).flatten
        rw [flatten_range_succ]
        have hcongr : (List.range c.cur).map
            (fun p => (if p = c.cur then σ c.cur ++ [segs i c.cur] else σ p).flatten)
            = (List.range c.cur).map (fun p => (σ p).flatten) := by
          apply List.map_congr_left
          intro p hp
          rw [List.mem_range] at hp
          rw [if_neg (by omega)]
        rw [hcongr, if_pos rfl, List.flatten_append, hout, flatten_range_succ]
        simp [List.append_assoc]
    · rw [hoffs]
  · -- partition advances to `c.cur`
    have hdoneAll : doneList cs pid = List.range M := by
      rw [doneList, hlen]
      apply List.filter_eq_self.mpr
      intro a haa
      rw [List.mem_range] at haa
      simp only [decide_eq_true_eq]
      exact lt_of_lt_of_le hcase (hcurmin a haa)
    have hσcur' : (σ pid).Perm ((List.range M).map (fun j => segs j pid)) := by
      rw [← hdoneAll]
      exact hσcur
    have hmid : ∀ p, pid < p → p < c.cur → ∀ j, j < M → segs j p = [] := by
      intro p h1 h2 j hj
      exact hpassed j hj p h1 (lt_of_lt_of_le h2 (hcurmin j hj))
    have hblock0 : ∀ p, pid < p → p < c.cur → blockLen segs M p = 0 := by
      intro p h1 h2
      rw [blockLen]
      apply List.sum_eq_zero
      intro x hx
      rw [List.mem_map] at hx
      obtain ⟨j, hj, rfl⟩ := hx
      rw [List.mem_range] at hj
      rw [hmid p h1 h2 j hj]
      rfl
    have houtlen : out.length = mpfx segs M (pid + 1) := by
      rw [hout, List.length_flatten, List.map_map, mpfx]
      congr 1
      apply List.map_congr_left
      intro p hp
      rw [List.mem_range] at hp
      show ((σ p).flatten).length = blockLen segs M p
      rcases Nat.lt_or_ge p pid with h | h
      · rw [flatten_length_of_perm _ _ (hσlt p h), block_flatten_len]
      · have hppid : p = pid := by omega
        subst hppid
        rw [flatten_length_of_perm _ _ hσcur', block_flatten_len]
    refine ⟨hlens, by omega, ?_, ?_, ?_, ?_, ?_⟩
    · intro j hj
      by_cases hji : j = i
      · subst hji
        rw [hget_eq]
        exact hcsh'
      · rw [hget_ne j hji]
        exact hshape j hj
    · intro j hj
      by_cases hji : j = i
      · subst hji
        rw [hget_eq]
        omega
      · rw [hget_ne j hji]
        exact hcurmin j hj
    · intro j hj p hp1 hp2
      by_cases hji : j = i
      · subst hji
        rw [hget_eq] at hp2
        exact hskip p (by omega) hp2
      · rw [hget_ne j hji] at hp2
        exact hpassed j hj p (by omega) hp2
    · have hsingle : ((doneList (cs.set i c') c.cur).map
          (fun j => segs j c.cur)).flatten = segs i c.cur := by
        apply flatten_map_single
        · intro j hj hji
          rw [doneList, List.mem_filter] at hj
          obtain ⟨hj1, hj2⟩ := hj
          rw [List.mem_range, hlens] at hj1
          rw [hget_ne j hji] at hj2
          simp only [decide_eq_true_eq] at hj2
          exact hpassed j hj1 c.cur hcase hj2
        · apply List.count_eq_one_of_mem
          · exact (List.nodup_range _).filter _
          · rw [doneList, List.mem_filter, List.mem_range, hlens]
            refine ⟨by omega, ?_⟩
            rw [hget_eq]
            simp only [decide_eq_true_eq]
            omega
      refine ⟨sigmaBump σ segs M pid c.cur (doneList (cs.set i c') c.cur), ?_, ?_, ?_⟩
      · intro p hp
        rcases Nat.lt_trichotomy p pid with h | h | h
        · show (sigmaBump σ segs M pid c.cur (doneList (cs.set i c') c.cur) p).Perm _
          rw [sigmaBump]
          rw [if_pos h]
          exact hσlt p h
        · subst h
          show (sigmaBump σ segs M p c.cur (doneList (cs.set i c') c.cur) p).Perm _
          rw [sigmaBump]
          rw [if_neg (by omega), if_pos rfl]
          exact hσcur'
        · show (sigmaBump σ segs M pid c.cur (doneList (cs.set i c') c.cur) p).Perm _
          rw [sigmaBump]
          rw [if_neg (by omega), if_neg (by omega), if_pos hp]
      · show (sigmaBump σ segs M pid c.cur (doneList (cs.set i c') c.cur) c.cur).Perm _
        rw [sigmaBump]
        rw [if_neg (by omega), if_neg (by omega), if_neg (by omega)]
      · show out ++ segs i c.cur
          = ((List.range (c.cur + 1)).map
              (fun p => (sigmaBump σ segs M pid c.cur
                (doneList (cs.set i c') c.cur) p).flatten)).flatten
        rw [flatten_range_succ]
        have hgcur : (sigmaBump σ segs M pid c.cur
            (doneList (cs.set i c') c.cur) c.cur).flatten = segs i c.cur := by
          rw [sigmaBump]
          rw [if_neg (by omega), if_neg (by omega), if_neg (by omega)]
          exact hsingle
        have hmid0 : ∀ q, pid + 1 ≤ q → q < c.cur →
            (fun p => (sigmaBump σ segs M pid c.cur
              (doneList (cs.set i c') c.cur) p).flatten) q = [] := by
          intro q h1 h2
          show (sigmaBump σ segs M pid c.cur (doneList (cs.set i c') c.cur) q).flatten = []
          rw [sigmaBump]
          rw [if_neg (by omega), if_neg (by omega), if_pos h2]
          rw [List.flatten_eq_nil_iff]
          intro l hl
          rw [List.mem_map] at hl
          obtain ⟨j, hj, rfl⟩ := hl
          rw [List.mem_range] at hj
          exact hmid q (by omega) h2 j hj
        rw [flatten_range_of_empty_above _ (pid + 1) c.cur (by omega) hmid0]
        have hinit : (List.range (pid + 1)).map
            (fun p => (sigmaBump σ segs M pid c.cur
              (doneList (cs.set i c') c.cur) p).flatten)
            = (List.range (pid + 1)).map (fun p => (σ p).flatten) := by
          apply List.map_congr_left
          intro p hp
          rw [List.mem_range] at hp
          show (sigmaBump σ segs M pid c.cur (doneList (cs.set i c') c.cur) p).flatten
            = (σ p).flatten
          rw [sigmaBump]
          rcases Nat.lt_or_ge p pid with h | h
          · rw [if_pos h]
          · have hpp : p = pid := by omega
            subst hpp
            rw [if_neg (by omega), if_pos rfl]
        rw [hinit, ← hout, hgcur]
    · show offs ++ List.replicate (c.cur - pid) out.length
        = (List.range (c.cur + 1)).map (mpfx segs M)
      rw [hoffs, houtlen]
      have hsplit2 : List.range (c.cur + 1)
          = List.range (pid + 1) ++ (List.range (c.cur - pid)).map ((pid + 1) + ·) := by
        have h2 : c.cur + 1 = (pid + 1) + (c.cur - pid) := by omega
        rw [h2, List.range_add]
      rw [hsplit2, List.map_append, List.map_map]
      congr 1
      symm
      apply map_range_const
      intro x hx
      show mpfx segs M (pid + 1 + x) = mpfx segs M (pid + 1)
      apply mpfx_congr segs M (pid + 1) (pid + 1 + x) (by omega)
      intro p h1 h2
      exact hblock0 p (by omega) (by omega)

/-- At loop exit (minimum cursor finished) the invariant yields the full
output characterisation. -/
theorem merge_exit (N M : Nat) (segs : Nat → Nat → List Sym)
    (cs : List WCursor) (out : List Sym) (offs : List Nat) (pid : Nat)
    (hM : 0 < M)
    (inv : MInv N M segs cs out offs pid)
    (hfin : (cs.getD (minIdx cs) default).finished = true) :
    MergeOut N M segs out offs := by
  obtain ⟨hlen, hpidN, hshape, hple, hpassed, ⟨σ, hσlt, hσcur, hout⟩, hoffs⟩ := inv
  have hallfin : ∀ j, j < M → (cs.getD j default).finished = true := by
    intro j hj
    rcases Bool.eq_false_or_eq_true ((cs.getD j default).finished) with hb | hb
    · exact hb
    · have hml := minIdx_min cs j (by omega)
      rw [cursorLT, if_neg (by rw [hb]; simp), if_pos hfin] at hml
      cases hml
  have hallcur : ∀ j, j < M → N ≤ (cs.getD j default).cur := by
    intro j hj
    exact (cursorShape_finished_iff N (segs j) _ (hshape j hj)).mp (hallfin j hj)
  have hdoneAll : doneList cs pid = List.range M := by
    rw [doneList, hlen]
    apply List.filter_eq_self.mpr
    intro a haa
    rw [List.mem_range] at haa
    simp only [decide_eq_true_eq]
    have := hallcur a haa
    omega
  have hσcur' : (σ pid).Perm ((List.range M).map (fun i => segs i pid)) := by
    rw [← hdoneAll]
    exact hσcur
  have hempty : ∀ p, pid < p → p < N → ∀ j, j < M → segs j p = [] := by
    intro p h1 h2 j hj
    exact hpassed j hj p h1 (by have := hallcur j hj; omega)
  have hblock0 : ∀ p, pid < p → p < N → blockLen segs M p = 0 := by
    intro p h1 h2
    rw [blockLen]
    apply List.sum_eq_zero
    intro x hx
    rw [List.mem_map] at hx
    obtain ⟨j, hj, rfl⟩ := hx
    rw [List.mem_range] at hj
    rw [hempty p h1 h2 j hj]
    rfl
  have houtlen : out.length = mpfx segs M (pid + 1) := by
    rw [hout, List.length_flatten, List.map_map, mpfx]
    congr 1
    apply List.map_congr_left
    intro p hp
    rw [List.mem_range] at hp
    show ((σ p).flatten).length = blockLen segs M p
    rcases Nat.lt_or_ge p pid with h | h
    · rw [flatten_length_of_perm _ _ (hσlt p h), block_flatten_len]
    · have hppid : p = pid := by omega
      subst hppid
      rw [flatten_length_of_perm _ _ hσcur', block_flatten_len]
  constructor
  · refine ⟨fun p => if p ≤ pid then σ p else (List.range M).map (fun i => segs i p),
      ?_, ?_⟩
    · intro p hp
      show (if p ≤ pid then σ p else (List.range M).map (fun i => segs i p)).Perm
        ((List.range M).map (fun i => segs i p))
      rcases Nat.lt_or_ge pid p with h | h
      · rw [if_neg (by omega)]
      · rw [if_pos h]
        rcases Nat.eq_or_lt_of_le h with h2 | h2
        · rw [← h2] at hσcur'
          exact hσcur'
        · exact hσlt p h2
    · show out = ((List.range N).map
        (fun p => (if p ≤ pid then σ p else (List.range M).map (fun i => segs i p)).flatten)).flatten
      rw [flatten_range_of_empty_above _ (pid + 1) N (by omega) ?later]
      case later =>
        intro q h1 h2
        show (if q ≤ pid then σ q else (List.range M).map (fun i => segs i q)).flatten = []
        rw [if_neg (by omega), List.flatten_eq_nil_iff]
        intro l hl
        rw [List.mem_map] at hl
        obtain ⟨j, hj, rfl⟩ := hl
        rw [List.mem_range] at hj
        exact hempty q (by omega) h2 j hj
      rw [hout]
      congr 1
      apply List.map_congr_left
      intro p hp
      rw [List.mem_range] at hp
      rw [if_pos (by omega)]
  · refine ⟨pid + 1, by omega, hoffs, ?_⟩
    intro q h1 h2
    rw [houtlen]
    apply mpfx_congr segs M (pid + 1) q h1
    intro p hp1 hp2
    exact hblock0 p (by omega) (by omega)

/-- Main merge-loop theorem: with enough fuel the loop returns, and the
result satisfies `MergeOut`. -/
theorem mergeLoopAux_spec (N M : Nat) (segs : Nat → Nat → List Sym) :
    ∀ (fu : Nat) (cs : List WCursor) (out : List Sym) (offs : List Nat) (pid : Nat),
      0 < M → MInv N M segs cs out offs pid → msr N cs < fu →
      ∃ r, mergeLoopAux cs out offs pid fu = some r ∧ MergeOut N M segs r.1 r.2 := by
  intro fu
  induction fu with
  | zero =>
      intro cs out offs pid hM inv hms
      omega
  | succ fu ih =>
      intro cs out offs pid hM inv hms
      rcases Bool.eq_false_or_eq_true ((cs.getD (minIdx cs) default).finished)
        with hfin | hfin
      · exact ⟨(out, offs), mergeLoopAux_stop cs out offs pid fu hfin,
          merge_exit N M segs cs out offs pid hM inv hfin⟩
      · obtain ⟨inv', hlt⟩ := mergeStep_inv N M segs cs out offs pid hM inv hfin
        rw [mergeLoopAux_step cs out offs pid fu hfin]
        exact ih _ _ _ _ hM inv' (by omega)

/-- The freshly built cursor list of `shuffle_write` (each spill wrapped in
a `SpillCursor` at partition 0 and empty-skipped) satisfies the merge
invariant with empty output and offsets `[0]`. -/
theorem mInv_init (N M : Nat) (segs : Nat → Nat → List Sym) (cs : List WCursor)
    (hN : 1 ≤ N) (hM : cs.length = M)
    (hmk : ∀ i, i < M → cs.getD i default
      = WCursor.skipEmptyPartitions
          ⟨0, 0, ((List.range N).map (segs i)).flatten,
            (List.range (N + 1)).map (prefLen (segs i))⟩) :
    MInv N M segs cs [] [0] 0 := by
  have hbase : ∀ i, i < M →
      (cs.getD i default).stream = ((List.range N).map (segs i)).flatten ∧
      (cs.getD i default).pos = 0 ∧
      (cs.getD i default).offsets = (List.range (N + 1)).map (prefLen (segs i)) ∧
      (cs.getD i default).cur ≤ N ∧
      (∀ p, p < (cs.getD i default).cur → segs i p = []) := by
    intro i hi
    obtain ⟨h1, h2, h3, _⟩ := skipEmptyPartitions_fields
      ⟨0, 0, ((List.range N).map (segs i)).flatten,
        (List.range (N + 1)).map (prefLen (segs i))⟩
    rw [← hmk i hi] at h1 h2 h3
    have hcurle : (cs.getD i default).cur ≤ N := by
      have h4 := skipEmptyPartitions_cur_le
        ⟨0, 0, ((List.range N).map (segs i)).flatten,
          (List.range (N + 1)).map (prefLen (segs i))⟩
      rw [← hmk i hi] at h4
      have h5 : ((List.range (N + 1)).map (prefLen (segs i))).length - 1 = N := by
        simp
      rw [h5] at h4
      have h6 := Nat.max_eq_right (Nat.zero_le N)
      rw [show (max (0 : Nat) N) = N by omega] at h4
      exact h4
    refine ⟨h1, h2, h3, hcurle, ?_⟩
    intro p hp
    have hsk := skipEmptyPartitions_skipped
      ⟨0, 0, ((List.range N).map (segs i)).flatten,
        (List.range (N + 1)).map (prefLen (segs i))⟩ p (Nat.zero_le p)
      (by rw [← hmk i hi]; exact hp)
    have hpN : p < N := by omega
    rw [getD_map_range _ _ _ _ (by omega), getD_map_range _ _ _ _ (by omega)] at hsk
    have h4 := prefLen_succ (segs i) p
    have h5 : (segs i p).length = 0 := by
      show (segs i p).length = 0
      omega
    exact List.length_eq_zero.mp h5
  refine ⟨hM, by omega, ?_, ?_, ?_, ?_, ?_⟩
  · intro i hi
    obtain ⟨h1, h2, h3, h4, h5⟩ := hbase i hi
    refine ⟨h1, h3, ?_, h4, ?_⟩
    · rw [h2]
      symm
      have := chain_congr (prefLen (segs i)) 0 (cs.getD i default).cur
        (Nat.zero_le _) ?steps
      case steps =>
        intro p hp1 hp2
        rw [prefLen_succ, h5 p hp2]
        simp
      rw [this]
      rfl
    · intro hf
      rcases skipEmptyPartitions_normal
          ⟨0, 0, ((List.range N).map (segs i)).flatten,
            (List.range (N + 1)).map (prefLen (segs i))⟩ with h | h
      · rw [← hmk i hi] at h
        rw [h] at hf
        cases hf
      · rw [← hmk i hi] at h
        have hflt : (cs.getD i default).cur < N := by
          rw [WCursor.finished, h3] at hf
          simp only [List.length_map, List.length_range,
            decide_eq_false_iff_not, Nat.not_le] at hf
          omega
        intro hnil
        apply h
        rw [h3, getD_map_range _ _ _ _ (by omega),
          getD_map_range _ _ _ _ (by omega), prefLen_succ, hnil]
        simp
  · intro i hi
    exact Nat.zero_le _
  · intro i hi p hp1 hp2
    exact (hbase i hi).2.2.2.2 p hp2
  · refine ⟨fun p => if p = 0 then (doneList cs 0).map (fun i => segs i 0) else [],
      ?_, ?_, ?_⟩
    · intro p hp
      omega
    · show ((if (0 : Nat) = 0 then (doneList cs 0).map (fun i => segs i 0) else [])).Perm
        ((doneList cs 0).map (fun i => segs i 0))
      rw [if_pos rfl]
    · show ([] : List Sym) = ((List.range 1).map
        (fun p => (if p = 0 then (doneList cs 0).map (fun i => segs i 0) else []).flatten)).flatten
      have h1 : ((doneList cs 0).map (fun i => segs i 0)).flatten = [] := by
        rw [List.flatten_eq_nil_iff]
        intro l hl
        rw [List.mem_map] at hl
        obtain ⟨j, hj, rfl⟩ := hl
        rw [doneList, List.mem_filter, List.mem_range] at hj
        obtain ⟨hj1, hj2⟩ := hj
        simp only [decide_eq_true_eq] at hj2
        exact (hbase j (by omega)).2.2.2.2 0 hj2
      have h2 : (List.range 1).map
          (fun p => (if p = 0 then (doneList cs 0).map (fun i => segs i 0) else []).flatten)
          = [((doneList cs 0).map (fun i => segs i 0)).flatten] := rfl
      rw [h2, h1]
      rfl
  · show ([0] : List Nat) = (List.range 1).map (mpfx segs M)
    rfl

/-! ### Reading the output: per-partition slices and row extraction -/

instance : Inhabited SpillBytes := ⟨⟨[], []⟩⟩

instance : Inhabited SSpill := ⟨⟨Tier.l1, default⟩⟩

/-- The byte range of partition `p` in the data file, as delimited by
index entries `p` and `p + 1`. -/
def partitionSlice (data : List Sym) (offs : List Nat) (p : Nat) : List Sym :=
  (data.drop (offs.getD p 0)).take (offs.getD (p + 1) 0 - offs.getD p 0)

/-- The row cells of a byte stream, in order. -/
def cellsOf (s : List Sym) : List Row :=
  s.filterMap (fun x => match x with | Sym.mark _ => none | Sym.cell r => some r)

/-- Partition `p`'s byte segment of a frozen spill, as delimited by its
offsets. -/
def spillSeg (s : SpillBytes) (p : Nat) : List Sym :=
  (s.frozen.drop (s.offsets.getD p 0)).take
    (s.offsets.getD (p + 1) 0 - s.offsets.getD p 0)

/-- All rows held in a spill list. -/
def spillsRows (sp : List SSpill) : List Row :=
  (sp.map (fun s => spillRows s.bytes)).flatten

/-- All rows held in a repartitioner state: the buffered rows plus the
rows of every spill. -/
def allRows (st : RPState) : List Row :=
  st.bufferedBatches.flatten ++ spillsRows st.spills

theorem cellsOf_mark_cons (n : Nat) (s : List Sym) :
    cellsOf (Sym.mark n :: s) = cellsOf s := rfl

theorem cellsOf_cell_cons (r : Row) (s : List Sym) :
    cellsOf (Sym.cell r :: s) = r :: cellsOf s := rfl

theorem cellsOf_append (a b : List Sym) :
    cellsOf (a ++ b) = cellsOf a ++ cellsOf b := by
  simp [cellsOf]

theorem cellsOf_map_cell (f : List Row) : cellsOf (f.map Sym.cell) = f := by
  induction f with
  | nil => rfl
  | cons r t ih => rw [List.map_cons, cellsOf_cell_cons, ih]

theorem cellsOf_encodeFrame (f : List Row) : cellsOf (encodeFrame f) = f := by
  rw [encodeFrame, cellsOf_mark_cons, cellsOf_map_cell]

theorem cellsOf_encodeFrames (fs : List (List Row)) :
    cellsOf (encodeFrames fs) = fs.flatten := by
  induction fs with
  | nil => rfl
  | cons f t ih =>
      rw [show encodeFrames (f :: t) = encodeFrame f ++ encodeFrames t from rfl,
        cellsOf_append, cellsOf_encodeFrame, List.flatten_cons, ih]

theorem cellsOf_flatten (L : List (List Sym)) :
    cellsOf L.flatten = (L.map cellsOf).flatten := by
  induction L with
  | nil => rfl
  | cons a t ih => rw [List.flatten_cons, cellsOf_append, List.map_cons,
      List.flatten_cons, ih]

theorem encodeFrames_eq_nil (fs : List (List Row))
    (h : encodeFrames fs = []) : fs = [] := by
  cases fs with
  | nil => rfl
  | cons f t =>
      rw [show encodeFrames (f :: t) = encodeFrame f ++ encodeFrames t from rfl,
        List.append_eq_nil] at h
      exact absurd h.1 (encodeFrame_ne_nil f)

/-- A concatenation of framed streams is a framed stream. -/
theorem flatten_frames (L : List (List Sym))
    (h : ∀ l ∈ L, ∃ fs, l = encodeFrames fs) :
    ∃ FS, L.flatten = encodeFrames FS := by
  induction L with
  | nil => exact ⟨[], rfl⟩
  | cons a t ih =>
      obtain ⟨fs, hfs⟩ := h a (by simp)
      obtain ⟨FS, hFS⟩ := ih (fun l hl => h l (by simp [hl]))
      exact ⟨fs ++ FS, by rw [List.flatten_cons, hfs, hFS, encodeFrames_append]⟩

theorem perm_flatten (l₁ l₂ : List (List α)) (h : l₁.Perm l₂) :
    (l₁.flatten).Perm (l₂.flatten) := by
  induction h with
  | nil => exact List.Perm.refl _
  | cons x _ ih =>
      simp only [List.flatten_cons]
      exact ih.append_left x
  | swap x y l =>
      simp only [List.flatten_cons]
      rw [← List.append_assoc, ← List.append_assoc]
      exact (List.perm_append_comm).append_right _
  | trans _ _ ih1 ih2 => exact ih1.trans ih2

theorem flatten_map_perm (l : List α) (f g : α → List β)
    (h : ∀ x ∈ l, (f x).Perm (g x)) :
    ((l.map f).flatten).Perm ((l.map g).flatten) := by
  induction l with
  | nil => exact List.Perm.refl _
  | cons a t ih =>
      simp only [List.map_cons, List.flatten_cons]
      exact (h a (by simp)).append (ih (fun x hx => h x (by simp [hx])))

theorem filter_flatten (p : α → Bool) (L : List (List α)) :
    (L.flatten).filter p = (L.map (fun l => l.filter p)).flatten := by
  induction L with
  | nil => rfl
  | cons a t ih => simp [List.filter_append, ih]

theorem filter_not_perm (p : α → Bool) (l : List α) :
    (l.filter p ++ l.filter (fun x => !(p x))).Perm l := by
  induction l with
  | nil => exact List.Perm.refl _
  | cons a t ih =>
      by_cases hp : p a = true
      · rw [List.filter_cons_of_pos hp, List.filter_cons_of_neg (by simp [hp]),
          List.cons_append]
        exact ih.cons a
      · rw [List.filter_cons_of_neg (by simpa using hp),
          List.filter_cons_of_pos (by simpa using hp)]
        exact List.perm_middle.trans (ih.cons a)

/-- Splitting a row list into its `N` hash classes is a permutation. -/
theorem classRows_flatten_perm (N : Nat) (l : List Row) (hN : 1 ≤ N) :
    (((List.range N).map
      (fun p => l.filter (fun r => decide (r.hash % N = p)))).flatten).Perm l := by
  rw [List.perm_iff_count]
  intro x
  rw [List.count_flatten, List.map_map]
  have hcnt : ∀ p, List.count x (l.filter (fun r => decide (r.hash % N = p)))
      = if x.hash % N = p then List.count x l else 0 := by
    intro p
    by_cases hp : x.hash % N = p
    · rw [if_pos hp]
      exact List.count_filter (by simpa using hp)
    · rw [if_neg hp, List.count_eq_zero]
      intro hmem
      rw [List.mem_filter] at hmem
      exact hp (by simpa using hmem.2)
  have hmap : (List.range N).map
      (List.count x ∘ fun p => l.filter (fun r => decide (r.hash % N = p)))
      = (List.range N).map (fun p => if x.hash % N = p then List.count x l else 0) := by
    apply List.map_congr_left
    intro p _
    exact hcnt p
  rw [hmap, sum_map_ite]
  rw [if_pos (Nat.mod_lt _ (by omega))]

theorem getD_replicate (n i : Nat) (a : α) :
    (List.replicate n a).getD i a = a := by
  rcases Nat.lt_or_ge i n with h | h
  · rw [List.getD_eq_getElem _ _ (by simpa using h)]
    exact List.getElem_replicate _ _
  · exact List.getD_eq_default _ _ (by simpa using h)

theorem map_range_getD [Inhabited α] (l : List α) (g : α → β) :
    (List.range l.length).map (fun i => g (l.getD i default)) = l.map g := by
  apply List.ext_getElem
  · simp
  · intro i h1 h2
    simp only [List.getElem_map, List.getElem_range]
    rw [List.getD_eq_getElem _ _ (by simpa using h2)]

theorem sum_range_le (f : Nat → Nat) (c : Nat) :
    ∀ n, (∀ i, i < n → f i ≤ c) → ((List.range n).map f).sum ≤ n * c := by
  intro n
  induction n with
  | zero => intro _; simp
  | succ n ih =>
      intro h
      rw [List.range_succ, List.map_append, List.sum_append]
      have h1 := ih (fun i hi => h i (by omega))
      have h2 : (List.map f [n]).sum = f n := by simp
      have h3 := h n (by omega)
      rw [h2, Nat.succ_mul]
      omega

/-- The merge measure is at most `N` per cursor. -/
theorem msr_le (N : Nat) (cs : List WCursor) : msr N cs ≤ N * cs.length := by
  rw [msr, Nat.mul_comm]
  exact sum_range_le _ N cs.length (fun i _ => by omega)

/-- For a well-formed spill, the offset-delimited segment of partition `p`
is exactly the framed stream of partition `p`'s sub-batches. -/
theorem spillSeg_of_wf (N : Nat) (s : SpillBytes)
    (frames : Nat → List (List Row))
    (h1 : s.frozen = ((List.range N).map (fun p => encodeFrames (frames p))).flatten)
    (h2 : s.offsets
      = (List.range (N + 1)).map (prefLen (fun p => encodeFrames (frames p))))
    (h4 : ∀ p, N ≤ p → frames p = []) :
    ∀ p, spillSeg s p = encodeFrames (frames p) := by
  intro p
  rcases Nat.lt_or_ge p N with hp | hp
  · rw [spillSeg, h1, h2, getD_map_range _ _ _ _ (by omega),
      getD_map_range _ _ _ _ (by omega), prefLen_succ]
    have hba : prefLen (fun p => encodeFrames (frames p)) p
        + (encodeFrames (frames p)).length
        - prefLen (fun p => encodeFrames (frames p)) p
        = (encodeFrames (frames p)).length := by omega
    rw [hba]
    exact stream_extract N (fun q => encodeFrames (frames q)) p hp
  · rw [spillSeg, h2]
    have hget : ((List.range (N + 1)).map
        (prefLen (fun q => encodeFrames (frames q)))).getD (p + 1) 0 = 0 := by
      apply List.getD_eq_default
      simp only [List.length_map, List.length_range]
      omega
    rw [hget, h4 p hp]
    rw [show (0 : Nat)
      - ((List.range (N + 1)).map
          (prefLen (fun q => encodeFrames (frames q)))).getD p 0 = 0 by omega]
    rfl

/-- For a well-formed spill, decoding recovers exactly the cell rows of
the stream. -/
theorem spillRows_eq_cellsOf (N : Nat) (s : SpillBytes) (hwf : SpillWF N s) :
    spillRows s = cellsOf s.frozen := by
  obtain ⟨frames, h1, h2, h3, h4⟩ := hwf
  have henc := spillWF_frozen_encode N s frames h1
  rw [spillRows, henc, decodeFrames_encodeFrames, cellsOf_encodeFrames]
  rfl

/-- In a well-formed spill, filtering all rows down to hash class `p`
yields exactly the rows of partition `p`'s segment. -/
theorem spill_class_filter (N : Nat) (s : SpillBytes) (hN : 1 ≤ N)
    (hwf : SpillWF N s) (p : Nat) (hp : p < N) :
    (cellsOf s.frozen).filter (fun r => decide (r.hash % N = p))
      = cellsOf (spillSeg s p) := by
  obtain ⟨frames, h1, h2, h3, h4⟩ := hwf
  rw [spillSeg_of_wf N s frames h1 h2 h4 p, cellsOf_encodeFrames, h1,
    cellsOf_flatten, List.map_map, filter_flatten, List.map_map]
  have hone : ∀ q, q < N → q ≠ p →
      ((fun l => l.filter (fun r => decide (r.hash % N = p)))
        ∘ (cellsOf ∘ fun q => encodeFrames (frames q))) q = [] := by
    intro q hq hqp
    show ((cellsOf (encodeFrames (frames q))).filter
      (fun r => decide (r.hash % N = p))) = []
    rw [cellsOf_encodeFrames, List.filter_eq_nil_iff]
    intro r hr
    rw [List.mem_flatten] at hr
    obtain ⟨f, hf, hrf⟩ := hr
    have := h3 q f hf r hrf
    simp only [decide_eq_true_eq]
    omega
  rw [flatten_map_single (List.range N) _ p]
  · show ((cellsOf (encodeFrames (frames p))).filter
      (fun r => decide (r.hash % N = p))) = (frames p).flatten
    rw [cellsOf_encodeFrames, List.filter_eq_self.mpr]
    intro r hr
    rw [List.mem_flatten] at hr
    obtain ⟨f, hf, hrf⟩ := hr
    have := h3 p f hf r hrf
    simpa using this
  · intro j hj hjp
    rw [List.mem_range] at hj
    exact hone j hj hjp
  · apply List.count_eq_one_of_mem (List.nodup_range N)
    rw [List.mem_range]
    exact hp

/-- A spill whose cursor is born finished is entirely empty. -/
theorem finished_spill_frozen_nil (N : Nat) (s : SSpill) (hN : 1 ≤ N)
    (hwf : SpillWF N s.bytes)
    (hfin : (spillCursor s).finished = true) : s.bytes.frozen = [] := by
  obtain ⟨frames, h1, h2, h3, h4⟩ := hwf
  have hoffpres := (skipEmptyPartitions_fields
    ⟨0, 0, s.bytes.frozen, s.bytes.offsets⟩).2.2.1
  have hofflen : s.bytes.offsets.length = N + 1 := by
    rw [h2]
    simp
  have hcur : N ≤ (spillCursor s).cur := by
    rw [WCursor.finished] at hfin
    simp only [decide_eq_true_eq] at hfin
    rw [spillCursor] at hfin
    rw [hoffpres] at hfin
    have hfin' : s.bytes.offsets.length
        ≤ (WCursor.skipEmptyPartitions
            ⟨0, 0, s.bytes.frozen, s.bytes.offsets⟩).cur + 1 := hfin
    rw [spillCursor]
    omega
  have hskip : ∀ p, p < N → encodeFrames (frames p) = [] := by
    intro p hpN
    have hs := skipEmptyPartitions_skipped
      ⟨0, 0, s.bytes.frozen, s.bytes.offsets⟩ p (Nat.zero_le p)
      (by
        show p < (spillCursor s).cur
        omega)
    rw [show (⟨0, 0, s.bytes.frozen, s.bytes.offsets⟩ : WCursor).offsets
      = s.bytes.offsets from rfl, h2, getD_map_range _ _ _ _ (by omega),
      getD_map_range _ _ _ _ (by omega), prefLen_succ] at hs
    have hlen0 : (encodeFrames (frames p)).length = 0 := by omega
    exact List.length_eq_zero.mp hlen0
  rw [h1, List.flatten_eq_nil_iff]
  intro l hl
  rw [List.mem_map] at hl
  obtain ⟨p, hpmem, rfl⟩ := hl
  rw [List.mem_range] at hpmem
  exact hskip p hpmem

theorem spillRows_nil_of_frozen_nil (s : SpillBytes) (h : s.frozen = []) :
    spillRows s = [] := by
  rw [spillRows, h]
  rfl

theorem cellsOf_perm (a b : List Sym) (h : a.Perm b) :
    (cellsOf a).Perm (cellsOf b) :=
  h.filterMap _

theorem spillsRows_append (a b : List SSpill) :
    spillsRows (a ++ b) = spillsRows a ++ spillsRows b := by
  rw [spillsRows, spillsRows, spillsRows, List.map_append, List.flatten_append]

theorem spillsRows_perm (a b : List SSpill) (h : a.Perm b) :
    (spillsRows a).Perm (spillsRows b) :=
  perm_flatten _ _ (h.map _)

/-- `shuffle_write`'s opening freeze keeps every spill well-formed. -/
theorem freezeStep_wf (N bs : Nat) (st : RPState) (hN : 1 ≤ N) (hbs : 1 ≤ bs)
    (hwf : ∀ s ∈ st.spills, SpillWF N s.bytes)
    (hh : ∀ r ∈ st.bufferedBatches.flatten, r.hash < 2 ^ 32) :
    ∀ s ∈ (freezeStep N bs st).spills, SpillWF N s.bytes := by
  intro s hs
  rw [freezeStep] at hs
  split at hs
  · have hs' : s ∈ st.spills
        ++ [(⟨Tier.l1, spillFreeze N bs st.bufferedBatches.flatten⟩ : SSpill)] := hs
    rw [List.mem_append] at hs'
    rcases hs' with h | h
    · exact hwf s h
    · rw [List.mem_singleton] at h
      subst h
      exact spillFreeze_wf N bs _ hN hbs hh
  · exact hwf s hs

theorem freezeStep_buffered (N bs : Nat) (st : RPState)
    (hb0 : st.bufferedMemSize = 0 → st.bufferedBatches = []) :
    (freezeStep N bs st).bufferedBatches = []
      ∧ (freezeStep N bs st).bufferedMemSize = 0 := by
  rw [freezeStep]
  split
  · exact ⟨rfl, rfl⟩
  · rename_i h
    have h0 : st.bufferedMemSize = 0 := by omega
    exact ⟨hb0 h0, h0⟩

/-- The freeze step conserves the rows as a multiset. -/
theorem freezeStep_rows (N bs : Nat) (st : RPState) (hN : 1 ≤ N) (hbs : 1 ≤ bs)
    (hh : ∀ r ∈ st.bufferedBatches.flatten, r.hash < 2 ^ 32)
    (hb0 : st.bufferedMemSize = 0 → st.bufferedBatches = []) :
    (spillsRows (freezeStep N bs st).spills).Perm (allRows st) := by
  rw [freezeStep]
  split
  · have hsp : ({ st with
          spills := st.spills
            ++ [⟨Tier.l1, spillFreeze N bs st.bufferedBatches.flatten⟩],
          bufferedBatches := [], bufferedMemSize := 0 } : RPState).spills
        = st.spills
          ++ [⟨Tier.l1, spillFreeze N bs st.bufferedBatches.flatten⟩] := rfl
    rw [hsp, spillsRows_append, allRows]
    have hnew : spillsRows
        [(⟨Tier.l1, spillFreeze N bs st.bufferedBatches.flatten⟩ : SSpill)]
        = spillRows (spillFreeze N bs st.bufferedBatches.flatten) := by
      rw [spillsRows]
      simp
    rw [hnew]
    exact (List.Perm.append_left _
      (spillRows_freeze_perm N bs _ hN hbs hh)).trans List.perm_append_comm
  · rename_i h
    have h0 := hb0 (by omega)
    rw [allRows, h0]
    rw [show ([] : List (List Row)).flatten = [] from rfl, List.nil_append]
  -- the kept spills are the else-branch spills unchanged

theorem shuffleCursors_eq (sp : List SSpill) :
    shuffleCursors sp
      = (sp.filter (fun s => decide ((spillCursor s).finished = false))).map
          spillCursor := by
  rw [shuffleCursors, List.filter_map]
  rfl

/-- Dropping born-finished cursors loses no rows: such spills are empty. -/
theorem spillsRows_filter_perm (N : Nat) (sp : List SSpill) (hN : 1 ≤ N)
    (hwf : ∀ s ∈ sp, SpillWF N s.bytes) :
    (spillsRows (sp.filter
        (fun s => decide ((spillCursor s).finished = false)))).Perm
      (spillsRows sp) := by
  have hdrop : spillsRows (sp.filter
      (fun s => !(decide ((spillCursor s).finished = false)))) = [] := by
    rw [spillsRows, List.flatten_eq_nil_iff]
    intro l hl
    rw [List.mem_map] at hl
    obtain ⟨s, hs, rfl⟩ := hl
    rw [List.mem_filter] at hs
    obtain ⟨hs1, hs2⟩ := hs
    have hfin : (spillCursor s).finished = true := by
      rcases Bool.eq_false_or_eq_true ((spillCursor s).finished) with hb | hb
      · exact hb
      · rw [hb] at hs2
        simp at hs2
    exact spillRows_nil_of_frozen_nil _
      (finished_spill_frozen_nil N s hN (hwf s hs1) hfin)
  have h1 : spillsRows (sp.filter
      (fun s => decide ((spillCursor s).finished = false)))
      = spillsRows (sp.filter (fun s => decide ((spillCursor s).finished = false))
          ++ sp.filter (fun s => !(decide ((spillCursor s).finished = false)))) := by
    rw [spillsRows_append, hdrop, List.append_nil]
  rw [h1]
  exact spillsRows_perm _ _
    (filter_not_perm (fun s => decide ((spillCursor s).finished = false)) sp)

/-- Per-partition block lengths of the merged output agree with the byte
positions `mpfx`. -/
theorem prefLen_eq_mpfx (segs : Nat → Nat → List Sym) (M N : Nat)
    (σ : Nat → List (List Sym))
    (hσ : ∀ p, p < N → (σ p).Perm ((List.range M).map (fun i => segs i p))) :
    ∀ q, q ≤ N → prefLen (fun p => (σ p).flatten) q = mpfx segs M q := by
  intro q hq
  rw [prefLen, mpfx, List.length_flatten, List.map_map]
  congr 1
  apply List.map_congr_left
  intro p hp
  rw [List.mem_range] at hp
  show ((σ p).flatten).length = blockLen segs M p
  rw [flatten_length_of_perm _ _ (hσ p (by omega)), block_flatten_len]

/-- Resizing the emitted offsets to `N + 1` entries recovers the complete
boundary vector. -/
theorem resize_offsets (segs : Nat → Nat → List Sym) (M N e L : Nat)
    (he : e ≤ N + 1)
    (htail : ∀ q, e ≤ q → q ≤ N → mpfx segs M q = L) :
    resize ((List.range e).map (mpfx segs M)) (N + 1) L
      = (List.range (N + 1)).map (mpfx segs M) := by
  rw [resize, if_pos (by simp only [List.length_map, List.length_range]; omega)]
  have hlen : ((List.range e).map (mpfx segs M)).length = e := by simp
  rw [hlen]
  have h2 : N + 1 = e + (N + 1 - e) := by omega
  have hsplit : List.range (N + 1)
      = List.range e ++ (List.range (N + 1 - e)).map (e + ·) := by
    conv_lhs => rw [h2]
    rw [List.range_add]
  rw [hsplit, List.map_append]
  congr 1
  rw [List.map_map]
  symm
  apply map_range_const
  intro x hx
  show mpfx segs M (e + x) = L
  exact htail (e + x) (by omega) (by omega)

/-- The per-cursor, per-partition byte segments of a spill list, read off
each spill's offset table. -/
def keptSegs (kept : List SSpill) : Nat → Nat → List Sym :=
  fun i p => spillSeg ((kept.getD i default).bytes) p

/-- Full characterisation of a successful `shuffle_write`: the data file
is a framed stream whose rows are exactly (as a multiset) the rows held in
the state; the offset vector has `N + 1` entries starting at `0`,
non-decreasing, ending at the data length; and the byte range of each
partition `p` decodes to exactly the state's rows of hash class `p`.  The
post-call state is empty. -/
theorem shuffleWrite_spec (N bs fuel : Nat) (st : RPState) (hN : 1 ≤ N)
    (hbs : 1 ≤ bs)
    (hwf : ∀ s ∈ st.spills, SpillWF N s.bytes)
    (hh : ∀ r ∈ st.bufferedBatches.flatten, r.hash < 2 ^ 32)
    (hb0 : st.bufferedMemSize = 0 → st.bufferedBatches = [])
    (hfuel : N * (st.spills.length + 1) < fuel) :
    ∃ data offs,
      shuffleWrite N bs fuel st = some (data, offs, ⟨[], 0, [], 0⟩) ∧
      (∃ FS, decodeFrames data = some FS ∧ (FS.flatten).Perm (allRows st)) ∧
      offs.length = N + 1 ∧
      offs.getD 0 0 = 0 ∧
      (∀ q, q < N → offs.getD q 0 ≤ offs.getD (q + 1) 0) ∧
      offs.getD N 0 = data.length ∧
      (∀ p, p < N →
        ∃ FS, decodeFrames (partitionSlice data offs p) = some FS ∧
          (FS.flatten).Perm
            ((allRows st).filter (fun r => decide (r.hash % N = p)))) := by
  obtain ⟨hbb, hbm⟩ := freezeStep_buffered N bs st hb0
  have hwf1 := freezeStep_wf N bs st hN hbs hwf hh
  have hrows1 := freezeStep_rows N bs st hN hbs hh hb0
  have hsplen : (freezeStep N bs st).spills.length ≤ st.spills.length + 1 := by
    rw [freezeStep]
    split
    · have hsp : ({ st with
          spills := st.spills
            ++ [⟨Tier.l1, spillFreeze N bs st.bufferedBatches.flatten⟩],
          bufferedBatches := [], bufferedMemSize := 0 } : RPState).spills
        = st.spills
          ++ [⟨Tier.l1, spillFreeze N bs st.bufferedBatches.flatten⟩] := rfl
      rw [hsp, List.length_append]
      simp
    · omega
  set kept := (freezeStep N bs st).spills.filter
    (fun s => decide ((spillCursor s).finished = false)) with hkeptd
  have hkwf : ∀ s ∈ kept, SpillWF N s.bytes :=
    fun s hs => hwf1 s (List.mem_of_mem_filter hs)
  have hkrows : (spillsRows kept).Perm (allRows st) :=
    (spillsRows_filter_perm N _ hN hwf1).trans hrows1
  have hklen : kept.length ≤ st.spills.length + 1 :=
    le_trans (List.length_filter_le _ _) hsplen
  have hcurs : shuffleCursors (freezeStep N bs st).spills = kept.map spillCursor :=
    shuffleCursors_eq _
  rcases Nat.eq_zero_or_pos kept.length with hM0 | hMpos
  · -- no usable cursor: every spill is empty, the output is empty
    have hknil : kept = [] := List.length_eq_zero.mp hM0
    have hallnil : allRows st = [] := by
      rw [hknil] at hkrows
      have h2 : ([] : List Row).Perm (allRows st) := hkrows
      exact List.Perm.eq_nil h2.symm
    have hsw : shuffleWrite N bs fuel st
        = some ([], resize [0] (N + 1) 0,
            ⟨(freezeStep N bs st).bufferedBatches,
              (freezeStep N bs st).bufferedMemSize, [], 0⟩) := by
      have h0 : shuffleWrite N bs fuel st
          = (if 0 < (shuffleCursors (freezeStep N bs st).spills).length
              then mergeLoopAux (shuffleCursors (freezeStep N bs st).spills)
                [] [0] 0 fuel
              else some ([], [0])).map
              (fun r => (r.1, resize r.2 (N + 1) r.1.length,
                ⟨(freezeStep N bs st).bufferedBatches,
                  (freezeStep N bs st).bufferedMemSize, [], 0⟩)) := rfl
      rw [h0, hcurs, hknil]
      rfl
    rw [hbb, hbm] at hsw
    have hoffs0 : resize [0] (N + 1) 0 = List.replicate (N + 1) 0 := by
      rw [resize, if_pos (by simp)]
      simp [List.replicate_succ]
    refine ⟨[], resize [0] (N + 1) 0, hsw, ?_, ?_, ?_, ?_, ?_, ?_⟩
    · refine ⟨[], rfl, ?_⟩
      rw [hallnil]
      exact List.Perm.refl _
    · rw [hoffs0]
      simp
    · rw [hoffs0]
      exact getD_replicate _ _ _
    · intro q hq
      simp [hoffs0, getD_replicate]
    · rw [hoffs0, getD_replicate]
      rfl
    · intro p hp
      have hps : partitionSlice [] (resize [0] (N + 1) 0) p = [] := by
        rw [partitionSlice]
        simp
      refine ⟨[], by rw [hps]; rfl, ?_⟩
      rw [hallnil]
      simp
  · -- at least one cursor: run the merge loop
    have hmemk : ∀ i, i < kept.length → kept.getD i default ∈ kept := by
      intro i hi
      rw [List.getD_eq_getElem _ _ hi]
      exact List.getElem_mem hi
    have hgetc : ∀ i, i < kept.length → (kept.map spillCursor).getD i default
        = spillCursor (kept.getD i default) := by
      intro i hi
      rw [List.getD_eq_getElem _ _ (by rw [List.length_map]; exact hi),
        List.getElem_map, List.getD_eq_getElem _ _ hi]
    have hmk : ∀ i, i < kept.length → (kept.map spillCursor).getD i default
        = WCursor.skipEmptyPartitions
            ⟨0, 0, ((List.range N).map (keptSegs kept i)).flatten,
              (List.range (N + 1)).map (prefLen (keptSegs kept i))⟩ := by
      intro i hi
      obtain ⟨frames, h1, h2, h3, h4⟩ := hkwf _ (hmemk i hi)
      have hfeq : (fun p => encodeFrames (frames p)) = keptSegs kept i :=
        funext (fun p => (spillSeg_of_wf N _ frames h1 h2 h4 p).symm)
      rw [hgetc i hi, spillCursor, h1, h2, hfeq]
    have hminv : MInv N kept.length (keptSegs kept) (kept.map spillCursor)
        [] [0] 0 :=
      mInv_init N kept.length (keptSegs kept) (kept.map spillCursor) hN
        (by rw [List.length_map]) hmk
    have hfuel2 : msr N (kept.map spillCursor) < fuel := by
      have h1 := msr_le N (kept.map spillCursor)
      rw [List.length_map] at h1
      have h2 : N * kept.length ≤ N * (st.spills.length + 1) :=
        Nat.mul_le_mul_left N hklen
      omega
    obtain ⟨r, hrun, hmo⟩ := mergeLoopAux_spec N kept.length (keptSegs kept)
      fuel (kept.map spillCursor) [] [0] 0 hMpos hminv hfuel2
    obtain ⟨⟨σ, hσ, hdata⟩, e, he, hoffs_pre, htail⟩ := hmo
    have hsw : shuffleWrite N bs fuel st
        = some (r.1, resize r.2 (N + 1) r.1.length,
            ⟨(freezeStep N bs st).bufferedBatches,
              (freezeStep N bs st).bufferedMemSize, [], 0⟩) := by
      have h0 : shuffleWrite N bs fuel st
          = (if 0 < (shuffleCursors (freezeStep N bs st).spills).length
              then mergeLoopAux (shuffleCursors (freezeStep N bs st).spills)
                [] [0] 0 fuel
              else some ([], [0])).map
              (fun r => (r.1, resize r.2 (N + 1) r.1.length,
                ⟨(freezeStep N bs st).bufferedBatches,
                  (freezeStep N bs st).bufferedMemSize, [], 0⟩)) := rfl
      rw [h0, hcurs, if_pos (by rw [List.length_map]; exact hMpos), hrun]
      rfl
    rw [hbb, hbm] at hsw
    have hdlen : r.1.length = mpfx (keptSegs kept) kept.length N := by
      rw [hdata]
      exact prefLen_eq_mpfx (keptSegs kept) kept.length N σ hσ N (Nat.le_refl N)
    have hoffsF : resize r.2 (N + 1) r.1.length
        = (List.range (N + 1)).map (mpfx (keptSegs kept) kept.length) := by
      rw [hoffs_pre]
      exact resize_offsets (keptSegs kept) kept.length N e r.1.length he htail
    have hframes : ∀ p, p < N → ∀ l ∈ σ p, ∃ fs, l = encodeFrames fs := by
      intro p hp l hl
      have hl2 := (hσ p hp).mem_iff.mp hl
      rw [List.mem_map] at hl2
      obtain ⟨i, hi, rfl⟩ := hl2
      rw [List.mem_range] at hi
      obtain ⟨frames, h1, h2, h3, h4⟩ := hkwf _ (hmemk i hi)
      exact ⟨frames p, spillSeg_of_wf N _ frames h1 h2 h4 p⟩
    have hcontent : ∀ p, p < N →
        (cellsOf ((σ p).flatten)).Perm
          ((allRows st).filter (fun r => decide (r.hash % N = p))) := by
      intro p hp
      have hstep1 : (cellsOf ((σ p).flatten)).Perm
          (cellsOf (((List.range kept.length).map
            (fun i => keptSegs kept i p)).flatten)) :=
        cellsOf_perm _ _ (perm_flatten _ _ (hσ p hp))
      have hstep2 : cellsOf (((List.range kept.length).map
            (fun i => keptSegs kept i p)).flatten)
          = (spillsRows kept).filter (fun r => decide (r.hash % N = p)) := by
        rw [cellsOf_flatten, List.map_map]
        have hmapeq : (List.range kept.length).map
            (cellsOf ∘ fun i => keptSegs kept i p)
            = kept.map (fun s => cellsOf (spillSeg s.bytes p)) :=
          map_range_getD kept (fun s => cellsOf (spillSeg s.bytes p))
        rw [hmapeq, spillsRows, filter_flatten, List.map_map]
        congr 1
        apply List.map_congr_left
        intro s hs
        show cellsOf (spillSeg s.bytes p)
          = (spillRows s.bytes).filter (fun r => decide (r.hash % N = p))
        rw [spillRows_eq_cellsOf N _ (hkwf s hs),
          spill_class_filter N _ hN (hkwf s hs) p hp]
      rw [hstep2] at hstep1
      exact hstep1.trans (hkrows.filter _)
    have hslice : ∀ p, p < N →
        partitionSlice r.1 (resize r.2 (N + 1) r.1.length) p = (σ p).flatten := by
      intro p hp
      rw [partitionSlice, hoffsF, getD_map_range _ _ _ _ (by omega),
        getD_map_range _ _ _ _ (by omega), mpfx_succ]
      have hd : mpfx (keptSegs kept) kept.length p
          + blockLen (keptSegs kept) kept.length p
          - mpfx (keptSegs kept) kept.length p
          = blockLen (keptSegs kept) kept.length p := by omega
      rw [hd]
      have hbl : blockLen (keptSegs kept) kept.length p
          = ((σ p).flatten).length :=
        ((flatten_length_of_perm _ _ (hσ p hp)).trans
          (block_flatten_len (keptSegs kept) kept.length p)).symm
      rw [hbl, hdata]
      have hpl : mpfx (keptSegs kept) kept.length p
          = prefLen (fun q => (σ q).flatten) p :=
        (prefLen_eq_mpfx (keptSegs kept) kept.length N σ hσ p (by omega)).symm
      rw [hpl]
      exact stream_extract N (fun q => (σ q).flatten) p hp
    refine ⟨r.1, resize r.2 (N + 1) r.1.length, hsw, ?_, ?_, ?_, ?_, ?_, ?_⟩
    · have hblocks : ∀ l ∈ (List.range N).map (fun p => (σ p).flatten),
          ∃ fs, l = encodeFrames fs := by
        intro l hl
        rw [List.mem_map] at hl
        obtain ⟨p, hpmem, rfl⟩ := hl
        rw [List.mem_range] at hpmem
        exact flatten_frames (σ p) (hframes p hpmem)
      obtain ⟨FS, hFS⟩ := flatten_frames _ hblocks
      refine ⟨FS, ?_, ?_⟩
      · rw [hdata, hFS, decodeFrames_encodeFrames]
      · have hcells : FS.flatten = cellsOf r.1 := by
          rw [hdata, hFS, cellsOf_encodeFrames]
        rw [hcells, hdata, cellsOf_flatten, List.map_map]
        have hperm1 : (((List.range N).map
              (cellsOf ∘ fun p => (σ p).flatten)).flatten).Perm
            (((List.range N).map (fun p =>
              (allRows st).filter (fun r => decide (r.hash % N = p)))).flatten) :=
          flatten_map_perm _ _ _ (fun p hp => by
            rw [List.mem_range] at hp
            exact hcontent p hp)
        exact hperm1.trans (classRows_flatten_perm N _ hN)
    · rw [hoffsF]
      simp
    · rw [hoffsF, getD_map_range _ _ _ _ (by omega)]
      rfl
    · intro q hq
      rw [hoffsF, getD_map_range _ _ _ _ (by omega),
        getD_map_range _ _ _ _ (by omega), mpfx_succ]
      omega
    · rw [hoffsF, getD_map_range _ _ _ _ (by omega), ← hdlen]
    · intro p hp
      obtain ⟨FSp, hFSp⟩ := flatten_frames (σ p) (hframes p hp)
      refine ⟨FSp, ?_, ?_⟩
      · rw [hslice p hp, hFSp, decodeFrames_encodeFrames]
      · have hcp : FSp.flatten = cellsOf ((σ p).flatten) := by
          rw [hFSp, cellsOf_encodeFrames]
        rw [hcp]
        exact hcontent p hp

/-! ### `insert_batch`, the external `spill()` entry point, and runs -/

/-- Outcome of `self.try_grow(..)` inside `insert_batch`.  Modelled from
the spec: the memory manager either grants the request or returns an
error. -/
inductive GrowResult where
  | ok
  | err
deriving DecidableEq, Repr

/-- `try_grow` itself performs no observable mutation of the
repartitioner. -/
def tryGrow (g : GrowResult) (st : RPState) : Option RPState :=
  match g with
  | GrowResult.ok => some st
  | GrowResult.err => none

/-- `insert_batch` (source lines 305–322): grow by twice the batch size
first; only after success add to `mem_used`, `buffered_mem_size` and push
the batch. -/
def insertBatch (g : GrowResult) (rows : List Row) (sz : Nat) (st : RPState) :
    Option RPState :=
  (tryGrow g st).map (fun st1 =>
    { st1 with
        memUsed := st1.memUsed + 2 * sz,
        bufferedMemSize := st1.bufferedMemSize + 2 * sz,
        bufferedBatches := st1.bufferedBatches ++ [rows] })

/-- The response of one `Spill::to_l2` attempt.  Modelled from the spec
§4.3/§4.7: promotion into the managed in-memory store either succeeds,
fails with resource exhaustion (the spill then goes to an L3 disk file),
or fails fatally; the L3 disk write itself is modelled as succeeding. -/
inductive TL2 where
  | ok
  | exhausted
  | fatal
deriving DecidableEq, Repr

/-- Promotion of a popped spill under one `to_l2` response.  The bytes
are never changed, only the tier. -/
def promote (t : TL2) (s : SSpill) : Option SSpill :=
  match t with
  | TL2.ok => some ⟨Tier.l2, s.bytes⟩
  | TL2.exhausted => some ⟨Tier.l3, s.bytes⟩
  | TL2.fatal => none

def offheapSum (sp : List SSpill) : Nat :=
  (sp.map SSpill.offheapMemSize).sum

/-- `spills.iter().enumerate().max_by_key(|(_, s)| s.offheap_mem_size())`:
Rust's `max_by_key` returns the last maximal element. -/
def lastArgmax (f : SSpill → Nat) (sp : List SSpill) : Nat :=
  (List.range sp.length).foldl
    (fun best i =>
      if f (sp.getD best default) ≤ f (sp.getD i default) then i else best) 0

/-- The tier-promotion loop of `spill()` (source lines 249–288), fuelled:
`none` means the fuel ran out, `some none` a fatal `to_l2` error
(propagated by `return Err(err)`), `some (some (freed, spills))` normal
exit.  `k` counts loop iterations for the oracle. -/
def spillLoop (cu : Nat) (oracle : Nat → TL2) :
    Nat → Int → List SSpill → Nat → Option (Option (Int × List SSpill))
  | 0, _, _, _ => none
  | fu + 1, freed, sp, k =>
      if freed < (cu : Int) / 2 then
        let i := lastArgmax SSpill.offheapMemSize sp
        let pop := sp.getD i default
        let rest := sp.eraseIdx i
        let freed' := freed + pop.offheapMemSize
        match promote (oracle k) pop with
        | some s' => spillLoop cu oracle fu freed' (rest ++ [s']) (k + 1)
        | none => some none
      else some (some (freed, sp))

/-- The external `spill()` entry point (source lines 226–292): freeze the
buffer into an L1 spill unconditionally, push it, then promote largest
spills until half the accounted memory is freed; finally subtract `freed`
from `metrics.mem_used`.  Modelled from the spec: the metrics gauge
subtraction is saturating at zero. -/
def spillCall (N bs : Nat) (oracle : Nat → TL2) (fuel : Nat) (st : RPState) :
    Option (Option (Nat × RPState)) :=
  let cu := st.memUsed
  let newSpill : SSpill := ⟨Tier.l1, spillFreeze N bs st.bufferedBatches.flatten⟩
  let freed0 : Int := (st.bufferedMemSize : Int) - newSpill.offheapMemSize
  let sp0 := st.spills ++ [newSpill]
  match spillLoop cu oracle fuel freed0 sp0 0 with
  | none => none
  | some none => some none
  | some (some (freed, sp)) =>
      some (some (freed.toNat,
        { bufferedBatches := [], bufferedMemSize := 0, spills := sp,
          memUsed := st.memUsed - freed.toNat }))

def RPState.init : RPState := ⟨[], 0, [], 0⟩

/-- Reachable repartitioner states, together with the multiset of rows
successfully inserted so far.  Only successful steps advance the state:
a failed `try_grow` or a fatal spill error aborts the plan.  Every real
Arrow batch has positive array memory size, and hashes are 32-bit. -/
inductive Reach (N bs : Nat) : RPState → List Row → Prop where
  | init : Reach N bs RPState.init []
  | insert (st : RPState) (rs rows : List Row) (sz : Nat) (st' : RPState)
      (h : Reach N bs st rs) (hh : ∀ r ∈ rows, r.hash < 2 ^ 32) (hsz : 0 < sz)
      (hstep : insertBatch GrowResult.ok rows sz st = some st') :
      Reach N bs st' (rs ++ rows)
  | spill (st : RPState) (rs : List Row) (oracle : Nat → TL2)
      (fuel freed : Nat) (st' : RPState)
      (h : Reach N bs st rs)
      (hstep : spillCall N bs oracle fuel st = some (some (freed, st'))) :
      Reach N bs st' rs

/-- State invariant of every reachable state: spills are well-formed, the
held rows are exactly the inserted rows, an empty buffer size means an
empty buffer, buffered hashes are 32-bit, and the accounted memory is
covered by the buffer plus the spills' offheap sizes. -/
def StInv (N : Nat) (st : RPState) (rs : List Row) : Prop :=
  (∀ s ∈ st.spills, SpillWF N s.bytes) ∧
  (allRows st).Perm rs ∧
  (st.bufferedMemSize = 0 → st.bufferedBatches = []) ∧
  (∀ r ∈ st.bufferedBatches.flatten, r.hash < 2 ^ 32) ∧
  st.memUsed ≤ st.bufferedMemSize + offheapSum st.spills

theorem getD_mem [Inhabited α] (l : List α) (i : Nat) (h : i < l.length) :
    l.getD i default ∈ l := by
  rw [List.getD_eq_getElem _ _ h]
  exact List.getElem_mem h

theorem lastArgmax_lt (f : SSpill → Nat) (sp : List SSpill) (h : sp ≠ []) :
    lastArgmax f sp < sp.length := by
  have hlen : 0 < sp.length := List.length_pos.mpr h
  rw [lastArgmax]
  have key : ∀ n, n ≤ sp.length → ∀ best, best < sp.length →
      (List.range n).foldl
        (fun best i =>
          if f (sp.getD best default) ≤ f (sp.getD i default) then i else best) best
        < sp.length := by
    intro n
    induction n with
    | zero => intro _ best hb; exact hb
    | succ n ih =>
        intro hn best hb
        rw [List.range_succ, List.foldl_append]
        simp only [List.foldl_cons, List.foldl_nil]
        split
        · omega
        · exact ih (by omega) best hb
  exact key sp.length (Nat.le_refl _) 0 hlen

theorem lastArgmax_max (f : SSpill → Nat) (sp : List SSpill) :
    ∀ j, j < sp.length →
      f (sp.getD j default) ≤ f (sp.getD (lastArgmax f sp) default) := by
  have key : ∀ n best j, (j < n ∨ j = best) →
      f (sp.getD j default)
        ≤ f (sp.getD ((List.range n).foldl
            (fun b i =>
              if f (sp.getD b default) ≤ f (sp.getD i default) then i else b)
            best) default) := by
    intro n
    induction n with
    | zero =>
        intro best j hj
        rcases hj with hj | hj
        · omega
        · subst hj
          simp only [List.range_zero, List.foldl_nil]
          exact Nat.le_refl _
    | succ n ih =>
        intro best j hj
        rw [List.range_succ, List.foldl_append]
        simp only [List.foldl_cons, List.foldl_nil]
        split
        · rename_i hle
          rcases hj with hj | hj
          · rcases Nat.lt_or_ge j n with h | h
            · exact le_trans (ih best j (Or.inl h)) hle
            · have : j = n := by omega
              subst this
              exact Nat.le_refl _
          · exact le_trans (ih best j (Or.inr hj)) hle
        · rename_i hle
          rcases hj with hj | hj
          · rcases Nat.lt_or_ge j n with h | h
            · exact ih best j (Or.inl h)
            · have : j = n := by omega
              subst this
              omega
          · exact ih best j (Or.inr hj)
  intro j hj
  exact key sp.length 0 j (Or.inl hj)

theorem offheapSum_append (a b : List SSpill) :
    offheapSum (a ++ b) = offheapSum a + offheapSum b := by
  rw [offheapSum, offheapSum, offheapSum, List.map_append, List.sum_append]

theorem take_getD_drop [Inhabited α] (l : List α) (i : Nat) (h : i < l.length) :
    l = l.take i ++ l.getD i default :: l.drop (i + 1) := by
  conv_lhs => rw [← List.take_append_drop i l]
  congr 1
  rw [List.getD_eq_getElem _ _ h]
  exact List.drop_eq_getElem_cons h

theorem offheapSum_eraseIdx (sp : List SSpill) (i : Nat) (h : i < sp.length) :
    offheapSum (sp.eraseIdx i) + (sp.getD i default).offheapMemSize
      = offheapSum sp := by
  rw [List.eraseIdx_eq_take_drop_succ, offheapSum_append]
  conv_rhs => rw [take_getD_drop sp i h]
  rw [offheapSum_append]
  have hcons : offheapSum (sp.getD i default :: sp.drop (i + 1))
      = (sp.getD i default).offheapMemSize + offheapSum (sp.drop (i + 1)) := by
    rw [offheapSum, List.map_cons, List.sum_cons]
    rfl
  rw [hcons]
  omega

theorem spillsRows_singleton (s : SSpill) :
    spillsRows [s] = spillRows s.bytes := by
  rw [spillsRows]
  simp

theorem spillsRows_eraseIdx_perm (sp : List SSpill) (i : Nat) (h : i < sp.length) :
    (spillsRows (sp.eraseIdx i) ++ spillRows (sp.getD i default).bytes).Perm
      (spillsRows sp) := by
  conv_rhs => rw [take_getD_drop sp i h]
  rw [List.eraseIdx_eq_take_drop_succ, spillsRows_append, spillsRows_append]
  have h2 : spillsRows (sp.getD i default :: sp.drop (i + 1))
      = spillRows (sp.getD i default).bytes ++ spillsRows (sp.drop (i + 1)) := by
    rw [spillsRows, List.map_cons, List.flatten_cons]
    rfl
  rw [h2, List.append_assoc]
  apply List.Perm.append_left
  exact List.perm_append_comm

theorem mem_eraseIdx_mem (l : List SSpill) (i : Nat) (a : SSpill)
    (h : a ∈ l.eraseIdx i) : a ∈ l := by
  rw [List.eraseIdx_eq_take_drop_succ, List.mem_append] at h
  rcases h with h | h
  · exact List.mem_of_mem_take h
  · exact List.mem_of_mem_drop h

/-- One-step unfolding of the promotion loop. -/
theorem spillLoop_succ (cu : Nat) (oracle : Nat → TL2) (fu : Nat) (freed : Int)
    (sp : List SSpill) (k : Nat) :
    spillLoop cu oracle (fu + 1) freed sp k
      = if freed < (cu : Int) / 2 then
          match promote (oracle k)
              (sp.getD (lastArgmax SSpill.offheapMemSize sp) default) with
          | some s' => spillLoop cu oracle fu
              (freed + ((sp.getD (lastArgmax SSpill.offheapMemSize sp)
                default).offheapMemSize : Int))
              (sp.eraseIdx (lastArgmax SSpill.offheapMemSize sp) ++ [s']) (k + 1)
          | none => some none
        else some (some (freed, sp)) := rfl

/-- Properties of a normal exit of the promotion loop: spills stay
well-formed, hold the same rows, keep their count; at exit at least half
the accounted memory is freed, and `freed` plus the remaining offheap
total never decreases. -/
theorem spillLoop_props (N cu : Nat) (oracle : Nat → TL2) :
    ∀ (fuel : Nat) (freed : Int) (sp : List SSpill) (k : Nat),
      sp ≠ [] → (∀ s ∈ sp, SpillWF N s.bytes) →
      ∀ (freed2 : Int) (sp2 : List SSpill),
      spillLoop cu oracle fuel freed sp k = some (some (freed2, sp2)) →
      (∀ s ∈ sp2, SpillWF N s.bytes) ∧
      (spillsRows sp2).Perm (spillsRows sp) ∧
      sp2.length = sp.length ∧
      (cu : Int) / 2 ≤ freed2 ∧
      freed + (offheapSum sp : Int) ≤ freed2 + (offheapSum sp2 : Int) := by
  intro fuel
  induction fuel with
  | zero =>
      intro freed sp k hne hwf freed2 sp2 heq
      rw [spillLoop] at heq
      cases heq
  | succ fu ih =>
      intro freed sp k hne hwf freed2 sp2 heq
      rw [spillLoop_succ] at heq
      by_cases hcond : freed < (cu : Int) / 2
      · rw [if_pos hcond] at heq
        have hilt : lastArgmax SSpill.offheapMemSize sp < sp.length :=
          lastArgmax_lt _ _ hne
        have hpopwf : SpillWF N
            ((sp.getD (lastArgmax SSpill.offheapMemSize sp) default).bytes) :=
          hwf _ (getD_mem sp _ hilt)
        have hlen1 : (sp.eraseIdx (lastArgmax SSpill.offheapMemSize sp)).length + 1
            = sp.length := List.length_eraseIdx_add_one hilt
        have herase := offheapSum_eraseIdx sp _ hilt
        have hperm1 := spillsRows_eraseIdx_perm sp _ hilt
        cases horacle : oracle k with
        | fatal =>
            simp only [horacle, promote] at heq
            cases heq
        | ok =>
            simp only [horacle, promote] at heq
            obtain ⟨w1, w2, w3, w4, w5⟩ := ih _ _ (k + 1) (by simp)
              (by
                intro s hs
                rw [List.mem_append] at hs
                rcases hs with hs | hs
                · exact hwf s (mem_eraseIdx_mem _ _ _ hs)
                · rw [List.mem_singleton] at hs
                  subst hs
                  exact hpopwf)
              freed2 sp2 heq
            refine ⟨w1, ?_, ?_, w4, ?_⟩
            · refine w2.trans ?_
              rw [spillsRows_append, spillsRows_singleton]
              exact hperm1
            · rw [w3, List.length_append]
              simp only [List.length_cons, List.length_nil]
              omega
            · rw [offheapSum_append] at w5
              have hl2 : offheapSum
                  [(⟨Tier.l2, (sp.getD (lastArgmax SSpill.offheapMemSize sp)
                    default).bytes⟩ : SSpill)]
                  = (sp.getD (lastArgmax SSpill.offheapMemSize sp)
                      default).bytes.frozen.length := by
                rw [offheapSum]
                simp [SSpill.offheapMemSize]
              rw [hl2] at w5
              omega
        | exhausted =>
            simp only [horacle, promote] at heq
            obtain ⟨w1, w2, w3, w4, w5⟩ := ih _ _ (k + 1) (by simp)
              (by
                intro s hs
                rw [List.mem_append] at hs
                rcases hs with hs | hs
                · exact hwf s (mem_eraseIdx_mem _ _ _ hs)
                · rw [List.mem_singleton] at hs
                  subst hs
                  exact hpopwf)
              freed2 sp2 heq
            refine ⟨w1, ?_, ?_, w4, ?_⟩
            · refine w2.trans ?_
              rw [spillsRows_append, spillsRows_singleton]
              exact hperm1
            · rw [w3, List.length_append]
              simp only [List.length_cons, List.length_nil]
              omega
            · rw [offheapSum_append] at w5
              have hl3 : offheapSum
                  [(⟨Tier.l3, (sp.getD (lastArgmax SSpill.offheapMemSize sp)
                    default).bytes⟩ : SSpill)] = 0 := by
                rw [offheapSum]
                simp [SSpill.offheapMemSize]
              rw [hl3] at w5
              omega
      · rw [if_neg hcond] at heq
        cases heq
        refine ⟨hwf, List.Perm.refl _, rfl, by omega, by omega⟩

/-- Termination of the promotion loop: whenever the accounted memory is
covered by `freed` plus the spills' offheap total, fuel
`cu / 2 - freed + 1` suffices, for every oracle behaviour. -/
theorem spillLoop_terminates (cu : Nat) (oracle : Nat → TL2) :
    ∀ (m : Nat) (freed : Int) (sp : List SSpill) (k : Nat),
      (cu : Int) ≤ freed + (offheapSum sp : Int) →
      (cu : Int) / 2 - freed ≤ m →
      spillLoop cu oracle (m + 1) freed sp k ≠ none := by
  intro m
  induction m with
  | zero =>
      intro freed sp k hinv hm
      rw [spillLoop_succ, if_neg (by omega)]
      simp
  | succ m ih =>
      intro freed sp k hinv hm
      rw [spillLoop_succ]
      by_cases hcond : freed < (cu : Int) / 2
      · rw [if_pos hcond]
        have hpos : 0 < offheapSum sp := by omega
        obtain ⟨j, hj, hjpos⟩ : ∃ j, j < sp.length
            ∧ 0 < (sp.getD j default).offheapMemSize := by
          by_contra hno
          push_neg at hno
          have hz : offheapSum sp = 0 := by
            rw [offheapSum]
            apply List.sum_eq_zero
            intro x hx
            rw [List.mem_map] at hx
            obtain ⟨s, hs, rfl⟩ := hx
            obtain ⟨jj, hjj, rfl⟩ := List.mem_iff_getElem.mp hs
            have hb := hno jj hjj
            rw [List.getD_eq_getElem _ _ hjj] at hb
            omega
          omega
        have hmax : 0 < (sp.getD (lastArgmax SSpill.offheapMemSize sp)
            default).offheapMemSize :=
          lt_of_lt_of_le hjpos (lastArgmax_max _ sp j hj)
        have hilt : lastArgmax SSpill.offheapMemSize sp < sp.length :=
          lastArgmax_lt _ _ (by intro h0; rw [h0] at hj; simp at hj)
        have herase := offheapSum_eraseIdx sp _ hilt
        cases horacle : oracle k with
        | fatal =>
            simp [horacle, promote]
        | ok =>
            simp only [horacle, promote]
            apply ih
            · rw [offheapSum_append]
              have hl2 : offheapSum
                  [(⟨Tier.l2, (sp.getD (lastArgmax SSpill.offheapMemSize sp)
                    default).bytes⟩ : SSpill)]
                  = (sp.getD (lastArgmax SSpill.offheapMemSize sp)
                      default).bytes.frozen.length := by
                rw [offheapSum]
                simp [SSpill.offheapMemSize]
              rw [hl2]
              omega
            · omega
        | exhausted =>
            simp only [horacle, promote]
            apply ih
            · rw [offheapSum_append]
              have hl3 : offheapSum
                  [(⟨Tier.l3, (sp.getD (lastArgmax SSpill.offheapMemSize sp)
                    default).bytes⟩ : SSpill)] = 0 := by
                rw [offheapSum]
                simp [SSpill.offheapMemSize]
              rw [hl3]
              omega
            · omega
      · rw [if_neg hcond]
        simp

/-- Let-free unfolding of `spillCall`. -/
theorem spillCall_eq (N bs : Nat) (oracle : Nat → TL2) (fuel : Nat)
    (st : RPState) :
    spillCall N bs oracle fuel st
      = match spillLoop st.memUsed oracle fuel
          ((st.bufferedMemSize : Int)
            - ((⟨Tier.l1, spillFreeze N bs st.bufferedBatches.flatten⟩ :
                SSpill).offheapMemSize : Int))
          (st.spills ++ [⟨Tier.l1, spillFreeze N bs st.bufferedBatches.flatten⟩])
          0 with
        | none => none
        | some none => some none
        | some (some (freed, sp)) =>
            some (some (freed.toNat,
              { bufferedBatches := [], bufferedMemSize := 0, spills := sp,
                memUsed := st.memUsed - freed.toNat })) := rfl

/-- Every reachable state satisfies the state invariant. -/
theorem reach_stinv (N bs : Nat) (hN : 1 ≤ N) (hbs : 1 ≤ bs) :
    ∀ st rs, Reach N bs st rs → StInv N st rs := by
  intro st rs h
  induction h with
  | init =>
      refine ⟨?_, ?_, ?_, ?_, ?_⟩
      · intro s hs
        simp [RPState.init] at hs
      · show (allRows RPState.init).Perm []
        rw [allRows, RPState.init, spillsRows]
        exact List.Perm.refl _
      · intro _
        rfl
      · intro r hr
        simp [RPState.init] at hr
      · show (0 : Nat) ≤ 0 + offheapSum []
        omega
  | insert st rs rows sz st' h hh hsz hstep ih =>
      obtain ⟨iwf, iperm, ib0, ihash, imem⟩ := ih
      rw [insertBatch, tryGrow] at hstep
      have hstep' : some ({ st with
          memUsed := st.memUsed + 2 * sz,
          bufferedMemSize := st.bufferedMemSize + 2 * sz,
          bufferedBatches := st.bufferedBatches ++ [rows] } : RPState)
          = some st' := hstep
      have hst' : st' = { st with
          memUsed := st.memUsed + 2 * sz,
          bufferedMemSize := st.bufferedMemSize + 2 * sz,
          bufferedBatches := st.bufferedBatches ++ [rows] } :=
        (Option.some.inj hstep').symm
      subst hst'
      refine ⟨iwf, ?_, ?_, ?_, ?_⟩
      · show ((st.bufferedBatches ++ [rows]).flatten
          ++ spillsRows st.spills).Perm (rs ++ rows)
        rw [List.flatten_append, show ([rows] : List (List Row)).flatten
          = rows ++ [] from rfl, List.append_nil, List.append_assoc]
        refine ((List.Perm.append_left _ List.perm_append_comm).trans ?_)
        rw [← List.append_assoc]
        exact iperm.append_right rows
      · intro h0
        have h0' : st.bufferedMemSize + 2 * sz = 0 := h0
        omega
      · intro r hr
        have hr' : r ∈ (st.bufferedBatches ++ [rows]).flatten := hr
        rw [List.flatten_append, List.mem_append] at hr'
        rcases hr' with h1 | h1
        · exact ihash r h1
        · apply hh
          rw [show ([rows] : List (List Row)).flatten = rows ++ [] from rfl,
            List.append_nil] at h1
          exact h1
      · show st.memUsed + 2 * sz
          ≤ st.bufferedMemSize + 2 * sz + offheapSum st.spills
        omega
  | spill st rs oracle fuel freed st' h hstep ih =>
      obtain ⟨iwf, iperm, ib0, ihash, imem⟩ := ih
      rw [spillCall_eq] at hstep
      cases hl : spillLoop st.memUsed oracle fuel
          ((st.bufferedMemSize : Int)
            - ((⟨Tier.l1, spillFreeze N bs st.bufferedBatches.flatten⟩ :
                SSpill).offheapMemSize : Int))
          (st.spills ++ [⟨Tier.l1, spillFreeze N bs st.bufferedBatches.flatten⟩])
          0 with
      | none =>
          rw [hl] at hstep
          cases hstep
      | some o =>
          rw [hl] at hstep
          cases o with
          | none => cases hstep
          | some p =>
              obtain ⟨f2, sp2⟩ := p
              have hst' : st'
                  = { bufferedBatches := [], bufferedMemSize := 0,
                      spills := sp2, memUsed := st.memUsed - f2.toNat } := by
                have h2 := Option.some.inj (Option.some.inj hstep)
                exact (congrArg Prod.snd h2).symm
              have hwf0 : ∀ s ∈ st.spills
                  ++ [(⟨Tier.l1, spillFreeze N bs st.bufferedBatches.flatten⟩ :
                    SSpill)], SpillWF N s.bytes := by
                intro s hs
                rw [List.mem_append] at hs
                rcases hs with hs | hs
                · exact iwf s hs
                · rw [List.mem_singleton] at hs
                  subst hs
                  exact spillFreeze_wf N bs _ hN hbs ihash
              obtain ⟨w1, w2, w3, w4, w5⟩ := spillLoop_props N st.memUsed oracle
                fuel _ _ 0 (by simp) hwf0 f2 sp2 hl
              subst hst'
              refine ⟨w1, ?_, fun _ => rfl, ?_, ?_⟩
              · show (([] : List (List Row)).flatten ++ spillsRows sp2).Perm rs
                rw [show ([] : List (List Row)).flatten = [] from rfl,
                  List.nil_append]
                refine (w2.trans ?_).trans iperm
                rw [spillsRows_append, spillsRows_singleton, allRows]
                refine (List.Perm.append_left _
                  (spillRows_freeze_perm N bs _ hN hbs ihash)).trans ?_
                exact List.perm_append_comm
              · intro r hr
                simp at hr
              · show st.memUsed - f2.toNat ≤ 0 + offheapSum sp2
                rw [offheapSum_append] at w5
                have hoff1 : offheapSum
                    [(⟨Tier.l1, spillFreeze N bs st.bufferedBatches.flatten⟩ :
                      SSpill)]
                    = (spillFreeze N bs st.bufferedBatches.flatten).frozen.length := by
                  rw [offheapSum]
                  simp [SSpill.offheapMemSize]
                rw [hoff1] at w5
                have hoffl1 : ((⟨Tier.l1,
                    spillFreeze N bs st.bufferedBatches.flatten⟩ :
                      SSpill).offheapMemSize)
                    = (spillFreeze N bs st.bufferedBatches.flatten).frozen.length :=
                  rfl
                rw [hoffl1] at w5
                omega

/-! ### The claims -/

/-- C1: for every sequence of `insert_batch` calls with total row list
`rs` (with external `spill()` calls at arbitrary points) followed by a
successful `shuffle_write`, the output data file decoded as framed
sub-batches contains exactly `rs.length` rows — no row is duplicated or
dropped. -/
theorem C1_row_conservation (N bs fuel : Nat) (st : RPState) (rs : List Row)
    (hN : 1 ≤ N) (hbs : 1 ≤ bs)
    (hreach : Reach N bs st rs)
    (hfuel : N * (st.spills.length + 1) < fuel)
    (data : List Sym) (offs : List Nat) (st' : RPState)
    (hrun : shuffleWrite N bs fuel st = some (data, offs, st')) :
    (decodeFrames data).map (fun FS => FS.flatten.length) = some rs.length := by
  obtain ⟨iwf, iperm, ib0, ihash, imem⟩ := reach_stinv N bs hN hbs st rs hreach
  obtain ⟨d0, o0, hsw, ⟨FS, hdec, hperm⟩, hrest⟩ :=
    shuffleWrite_spec N bs fuel st hN hbs iwf ihash ib0 hfuel
  rw [hrun] at hsw
  simp only [Option.some.injEq, Prod.mk.injEq] at hsw
  obtain ⟨hd, ho, hs⟩ := hsw
  subst hd
  rw [hdec]
  show some FS.flatten.length = some rs.length
  rw [(hperm.trans iperm).length_eq]

theorem C1_witness :
    (decodeFrames [Sym.mark 1, Sym.cell ⟨0, 0⟩]).map (fun FS => FS.flatten.length)
      = some ([(⟨0, 0⟩ : Row)]).length :=
  C1_row_conservation 1 1 2 ⟨[[⟨0, 0⟩]], 2, [], 2⟩ [⟨0, 0⟩] (by decide) (by decide)
    (Reach.insert RPState.init [] [⟨0, 0⟩] 1 ⟨[[⟨0, 0⟩]], 2, [], 2⟩ Reach.init
      (by decide) (by decide) rfl)
    (by decide) [Sym.mark 1, Sym.cell ⟨0, 0⟩] [0, 2] RPState.init (by decide)

/-- C2: in every successful `shuffle_write` output, every row of the
decoded data lying in the byte range `[index[p], index[p+1])` hashes to
partition `p`: the merge keyed on cursor partition ids, combined with the
per-spill sort, groups the output contiguously by partition. -/
theorem C2_partition_grouping (N bs fuel : Nat) (st : RPState) (rs : List Row)
    (hN : 1 ≤ N) (hbs : 1 ≤ bs)
    (hreach : Reach N bs st rs)
    (hfuel : N * (st.spills.length + 1) < fuel)
    (data : List Sym) (offs : List Nat) (st' : RPState)
    (hrun : shuffleWrite N bs fuel st = some (data, offs, st'))
    (p : Nat) (hp : p < N) (FS : List (List Row))
    (hdec : decodeFrames (partitionSlice data offs p) = some FS) :
    ∀ r ∈ FS.flatten, r.hash % N = p := by
  obtain ⟨iwf, iperm, ib0, ihash, imem⟩ := reach_stinv N bs hN hbs st rs hreach
  obtain ⟨d0, o0, hsw, hglob, hlen, h0, hmono, hN0, hslices⟩ :=
    shuffleWrite_spec N bs fuel st hN hbs iwf ihash ib0 hfuel
  rw [hrun] at hsw
  simp only [Option.some.injEq, Prod.mk.injEq] at hsw
  obtain ⟨hd, ho, hs⟩ := hsw
  subst hd
  subst ho
  obtain ⟨FS0, hdec0, hperm0⟩ := hslices p hp
  rw [hdec0] at hdec
  have hFS : FS = FS0 := (Option.some.inj hdec).symm
  subst hFS
  intro r hr
  have hr2 := hperm0.mem_iff.mp hr
  rw [List.mem_filter] at hr2
  simpa using hr2.2

theorem C2_witness : (⟨0, 0⟩ : Row).hash % 1 = 0 :=
  C2_partition_grouping 1 1 2 ⟨[[⟨0, 0⟩]], 2, [], 2⟩ [⟨0, 0⟩] (by decide)
    (by decide)
    (Reach.insert RPState.init [] [⟨0, 0⟩] 1 ⟨[[⟨0, 0⟩]], 2, [], 2⟩ Reach.init
      (by decide) (by decide) rfl)
    (by decide) [Sym.mark 1, Sym.cell ⟨0, 0⟩] [0, 2] RPState.init (by decide)
    0 (by decide) [[⟨0, 0⟩]] (by decide) ⟨0, 0⟩ (by decide)

/-- C3: after every successful `shuffle_write` the index file holds
exactly `N + 1` little-endian 64-bit entries, starting at `0`,
non-decreasing, with the last entry equal to the data file length. -/
theorem C3_index_file (N bs fuel : Nat) (st : RPState) (rs : List Row)
    (hN : 1 ≤ N) (hbs : 1 ≤ bs)
    (hreach : Reach N bs st rs)
    (hfuel : N * (st.spills.length + 1) < fuel)
    (data : List Sym) (offs : List Nat) (st' : RPState)
    (hrun : shuffleWrite N bs fuel st = some (data, offs, st')) :
    offs.length = N + 1 ∧
    (indexFileOf offs).length = 8 * (N + 1) ∧
    offs.getD 0 0 = 0 ∧
    (∀ q, q < N → offs.getD q 0 ≤ offs.getD (q + 1) 0) ∧
    offs.getD N 0 = data.length := by
  obtain ⟨iwf, iperm, ib0, ihash, imem⟩ := reach_stinv N bs hN hbs st rs hreach
  obtain ⟨d0, o0, hsw, hglob, hlen, h0, hmono, hN0, hslices⟩ :=
    shuffleWrite_spec N bs fuel st hN hbs iwf ihash ib0 hfuel
  rw [hrun] at hsw
  simp only [Option.some.injEq, Prod.mk.injEq] at hsw
  obtain ⟨hd, ho, hs⟩ := hsw
  subst hd
  subst ho
  refine ⟨hlen, ?_, h0, hmono, hN0⟩
  rw [indexFileOf_length, hlen]

theorem C3_witness :
    ([0, 2] : List Nat).length = 1 + 1 ∧
    (indexFileOf [0, 2]).length = 8 * (1 + 1) ∧
    ([0, 2] : List Nat).getD 0 0 = 0 ∧
    ([0, 2] : List Nat).getD 0 0 ≤ ([0, 2] : List Nat).getD (0 + 1) 0 ∧
    ([0, 2] : List Nat).getD 1 0
      = ([Sym.mark 1, Sym.cell ⟨0, 0⟩] : List Sym).length := by
  have h := C3_index_file 1 1 2 ⟨[[⟨0, 0⟩]], 2, [], 2⟩ [⟨0, 0⟩] (by decide)
    (by decide)
    (Reach.insert RPState.init [] [⟨0, 0⟩] 1 ⟨[[⟨0, 0⟩]], 2, [], 2⟩ Reach.init
      (by decide) (by decide) rfl)
    (by decide) [Sym.mark 1, Sym.cell ⟨0, 0⟩] [0, 2] RPState.init (by decide)
  exact ⟨h.1, h.2.1, h.2.2.1, h.2.2.2.1 0 (by decide), h.2.2.2.2⟩

/-- C4 counterexample: two runs inserting the same rows `⟨0,0⟩, ⟨0,1⟩`
(`N = 1`, `batch_size = 16`), one without and one with an external
`spill()` between the insertions, are both reachable yet produce
byte-for-byte different data files (and different index files): the spill
schedule changes the framing. -/
theorem C4_counterexample :
    Reach 1 16 ⟨[[⟨0, 0⟩], [⟨0, 1⟩]], 4, [], 4⟩ [⟨0, 0⟩, ⟨0, 1⟩] ∧
    Reach 1 16
      ⟨[[⟨0, 1⟩]], 2, [⟨Tier.l2, ⟨[Sym.mark 1, Sym.cell ⟨0, 0⟩], [0, 2]⟩⟩], 2⟩
      [⟨0, 0⟩, ⟨0, 1⟩] ∧
    shuffleWrite 1 16 9 ⟨[[⟨0, 0⟩], [⟨0, 1⟩]], 4, [], 4⟩
      = some ([Sym.mark 2, Sym.cell ⟨0, 0⟩, Sym.cell ⟨0, 1⟩], [0, 3],
          RPState.init) ∧
    shuffleWrite 1 16 9
      ⟨[[⟨0, 1⟩]], 2, [⟨Tier.l2, ⟨[Sym.mark 1, Sym.cell ⟨0, 0⟩], [0, 2]⟩⟩], 2⟩
      = some ([Sym.mark 1, Sym.cell ⟨0, 0⟩, Sym.mark 1, Sym.cell ⟨0, 1⟩],
          [0, 4], RPState.init) ∧
    ([Sym.mark 2, Sym.cell ⟨0, 0⟩, Sym.cell ⟨0, 1⟩] : List Sym)
      ≠ [Sym.mark 1, Sym.cell ⟨0, 0⟩, Sym.mark 1, Sym.cell ⟨0, 1⟩] := by
  refine ⟨?_, ?_, by decide, by decide, by decide⟩
  · exact Reach.insert ⟨[[⟨0, 0⟩]], 2, [], 2⟩ [⟨0, 0⟩] [⟨0, 1⟩] 1
      ⟨[[⟨0, 0⟩], [⟨0, 1⟩]], 4, [], 4⟩
      (Reach.insert RPState.init [] [⟨0, 0⟩] 1 ⟨[[⟨0, 0⟩]], 2, [], 2⟩ Reach.init
        (by decide) (by decide) rfl)
      (by decide) (by decide) rfl
  · exact Reach.insert
      ⟨[], 0, [⟨Tier.l2, ⟨[Sym.mark 1, Sym.cell ⟨0, 0⟩], [0, 2]⟩⟩], 0⟩
      [⟨0, 0⟩] [⟨0, 1⟩] 1
      ⟨[[⟨0, 1⟩]], 2, [⟨Tier.l2, ⟨[Sym.mark 1, Sym.cell ⟨0, 0⟩], [0, 2]⟩⟩], 2⟩
      (Reach.spill ⟨[[⟨0, 0⟩]], 2, [], 2⟩ [⟨0, 0⟩] (fun _ => TL2.ok) 9 2
        ⟨[], 0, [⟨Tier.l2, ⟨[Sym.mark 1, Sym.cell ⟨0, 0⟩], [0, 2]⟩⟩], 0⟩
        (Reach.insert RPState.init [] [⟨0, 0⟩] 1 ⟨[[⟨0, 0⟩]], 2, [], 2⟩
          Reach.init (by decide) (by decide) rfl)
        (by decide))
      (by decide) (by decide) rfl

/-- C4 amended: spill transparency holds at the level of decoded
per-partition row multisets — for every reachable state holding inserted
rows `rs`, independently of when and how often external `spill()` ran,
partition `p`'s byte range of the output decodes to exactly the rows of
`rs` in hash class `p`. -/
theorem C4_amended (N bs fuel : Nat) (st : RPState) (rs : List Row)
    (hN : 1 ≤ N) (hbs : 1 ≤ bs)
    (hreach : Reach N bs st rs)
    (hfuel : N * (st.spills.length + 1) < fuel)
    (data : List Sym) (offs : List Nat) (st' : RPState)
    (hrun : shuffleWrite N bs fuel st = some (data, offs, st'))
    (p : Nat) (hp : p < N) :
    (decodeFrames (partitionSlice data offs p)).map
        (fun FS => (FS.flatten : Multiset Row))
      = some ((rs.filter (fun r => decide (r.hash % N = p)) : List Row) :
          Multiset Row) := by
  obtain ⟨iwf, iperm, ib0, ihash, imem⟩ := reach_stinv N bs hN hbs st rs hreach
  obtain ⟨d0, o0, hsw, hglob, hlen, h0, hmono, hN0, hslices⟩ :=
    shuffleWrite_spec N bs fuel st hN hbs iwf ihash ib0 hfuel
  rw [hrun] at hsw
  simp only [Option.some.injEq, Prod.mk.injEq] at hsw
  obtain ⟨hd, ho, hs⟩ := hsw
  subst hd
  subst ho
  obtain ⟨FS0, hdec0, hperm0⟩ := hslices p hp
  rw [hdec0]
  show some ((FS0.flatten : List Row) : Multiset Row) = _
  congr 1
  rw [Multiset.coe_eq_coe]
  exact hperm0.trans (iperm.filter _)

theorem C4_amended_witness :
    (decodeFrames (partitionSlice [Sym.mark 1, Sym.cell ⟨0, 0⟩] [0, 2] 0)).map
        (fun FS => (FS.flatten : Multiset Row))
      = some (((([(⟨0, 0⟩ : Row)]).filter
          (fun r => decide (r.hash % 1 = 0)) : List Row)) : Multiset Row) :=
  C4_amended 1 1 2 ⟨[[⟨0, 0⟩]], 2, [], 2⟩ [⟨0, 0⟩] (by decide) (by decide)
    (Reach.insert RPState.init [] [⟨0, 0⟩] 1 ⟨[[⟨0, 0⟩]], 2, [], 2⟩ Reach.init
      (by decide) (by decide) rfl)
    (by decide) [Sym.mark 1, Sym.cell ⟨0, 0⟩] [0, 2] RPState.init (by decide)
    0 (by decide)

/-- C5: every spill produced by the freeze pipeline has `N + 1` offsets,
non-decreasing, ending at the frozen stream's length, and the difference
`offsets[p+1] - offsets[p]` is the byte size of partition `p`'s framed
sub-batches in that spill (0 for an empty partition). -/
theorem C5_spill_offsets (N bs : Nat) (rows : List Row) (hN : 1 ≤ N)
    (hbs : 1 ≤ bs) (hh : ∀ r ∈ rows, r.hash < 2 ^ 32) :
    (spillFreeze N bs rows).offsets.length = N + 1 ∧
    (∀ q, q < N → (spillFreeze N bs rows).offsets.getD q 0
      ≤ (spillFreeze N bs rows).offsets.getD (q + 1) 0) ∧
    (spillFreeze N bs rows).offsets.getD N 0
      = (spillFreeze N bs rows).frozen.length ∧
    (∀ p, p < N → (spillFreeze N bs rows).offsets.getD (p + 1) 0
        - (spillFreeze N bs rows).offsets.getD p 0
      = (partSeg N bs rows p).length) := by
  have hof : (spillFreeze N bs rows).offsets
      = (List.range (N + 1)).map (prefLen (partSeg N bs rows)) := by
    rw [spillFreeze_spec N bs rows hN hbs hh]
  have hfr : (spillFreeze N bs rows).frozen
      = ((List.range N).map (partSeg N bs rows)).flatten := by
    rw [spillFreeze_spec N bs rows hN hbs hh]
  refine ⟨?_, ?_, ?_, ?_⟩
  · rw [hof]
    simp
  · intro q hq
    rw [hof, getD_map_range _ _ _ _ (by omega), getD_map_range _ _ _ _ (by omega)]
    exact prefLen_mono _ q
  · rw [hof, hfr, getD_map_range _ _ _ _ (by omega)]
    rfl
  · intro p hp
    rw [hof, getD_map_range _ _ _ _ (by omega), getD_map_range _ _ _ _ (by omega),
      prefLen_succ]
    omega

theorem C5_witness :
    (spillFreeze 1 1 [⟨0, 0⟩, ⟨0, 1⟩]).offsets.length = 1 + 1 ∧
    (spillFreeze 1 1 [⟨0, 0⟩, ⟨0, 1⟩]).offsets.getD 0 0
      ≤ (spillFreeze 1 1 [⟨0, 0⟩, ⟨0, 1⟩]).offsets.getD (0 + 1) 0 ∧
    (spillFreeze 1 1 [⟨0, 0⟩, ⟨0, 1⟩]).offsets.getD 1 0
      = (spillFreeze 1 1 [⟨0, 0⟩, ⟨0, 1⟩]).frozen.length ∧
    (spillFreeze 1 1 [⟨0, 0⟩, ⟨0, 1⟩]).offsets.getD (0 + 1) 0
        - (spillFreeze 1 1 [⟨0, 0⟩, ⟨0, 1⟩]).offsets.getD 0 0
      = (partSeg 1 1 [⟨0, 0⟩, ⟨0, 1⟩] 0).length := by
  have h := C5_spill_offsets 1 1 [⟨0, 0⟩, ⟨0, 1⟩] (by decide) (by decide)
    (by decide)
  exact ⟨h.1, h.2.1 0 (by decide), h.2.2.1, h.2.2.2 0 (by decide)⟩

/-- C6: in every spill produced by the freeze pipeline, each emitted
framed sub-batch holds between 1 and `batch_size` rows, all of one
partition; `R` rows all assigned to one partition are emitted as
`⌈R / batch_size⌉` sub-batches. -/
theorem C6_subbatches (N bs : Nat) (rows : List Row) (hN : 1 ≤ N)
    (hbs : 1 ≤ bs) (hh : ∀ r ∈ rows, r.hash < 2 ^ 32) :
    decodeFrames (spillFreeze N bs rows).frozen
      = some (((List.range N).map (partFrames N bs rows)).flatten) ∧
    (∀ f ∈ ((List.range N).map (partFrames N bs rows)).flatten,
      1 ≤ f.length ∧ f.length ≤ bs) ∧
    (∀ p, p < N → ∀ f ∈ partFrames N bs rows p, ∀ r ∈ f, r.hash % N = p) ∧
    (∀ p, p < N → (∀ r ∈ rows, r.hash % N = p) →
      (((List.range N).map (partFrames N bs rows)).flatten).length
        = (rows.length + bs - 1) / bs) := by
  have hfr : (spillFreeze N bs rows).frozen
      = ((List.range N).map (partSeg N bs rows)).flatten := by
    rw [spillFreeze_spec N bs rows hN hbs hh]
  have henc : (spillFreeze N bs rows).frozen
      = encodeFrames (((List.range N).map (partFrames N bs rows)).flatten) := by
    rw [hfr, ← encodeFrames_flatten, List.map_map]
    rfl
  refine ⟨?_, ?_, ?_, ?_⟩
  · rw [henc, decodeFrames_encodeFrames]
  · intro f hf
    rw [List.mem_flatten] at hf
    obtain ⟨l, hl, hfl⟩ := hf
    rw [List.mem_map] at hl
    obtain ⟨p, hpmem, rfl⟩ := hl
    obtain ⟨hne, hle⟩ := chunks_mem bs hbs (partRows N rows p) f hfl
    exact ⟨by
      have := List.length_pos.mpr hne
      omega, hle⟩
  · intro p hp f hf r hr
    apply partRows_hash N rows p
    rw [← chunks_flatten bs hbs (partRows N rows p)]
    exact List.mem_flatten.mpr ⟨f, hf, hr⟩
  · intro p hp hall
    rw [List.length_flatten, List.map_map]
    have hzero : ∀ q, q < N → q ≠ p → partRows N rows q = [] := by
      intro q hq hqp
      rw [partRows]
      have hfil : (sortPIs N rows).filter (fun x => x.partition_id = q) = [] := by
        apply List.filter_eq_nil_iff.mpr
        intro x hx
        obtain ⟨hidx, hhash, hpid⟩ := sortPIs_wf N rows x hx
        have hmem : rows.getD x.index default ∈ rows := getD_mem rows x.index hidx
        have hcl := hall _ hmem
        simp only [decide_eq_true_eq]
        rw [hpid, hhash]
        omega
      rw [hfil]
      rfl
    have hfull : partRows N rows p
        = (sortPIs N rows).map (fun x => rows.getD x.index default) := by
      rw [partRows]
      congr 1
      apply List.filter_eq_self.mpr
      intro x hx
      obtain ⟨hidx, hhash, hpid⟩ := sortPIs_wf N rows x hx
      have hmem : rows.getD x.index default ∈ rows := getD_mem rows x.index hidx
      have hcl := hall _ hmem
      simp only [decide_eq_true_eq]
      rw [hpid, hhash]
      exact hcl
    have hplen : (partRows N rows p).length = rows.length := by
      rw [hfull, List.length_map, (sortPIs_perm N rows).length_eq,
        buildPIs_length]
    have hmapc : (List.range N).map
        (List.length ∘ fun p => partFrames N bs rows p)
        = (List.range N).map
            (fun q => if p = q then (rows.length + bs - 1) / bs else 0) := by
      apply List.map_congr_left
      intro q hq
      rw [List.mem_range] at hq
      show (partFrames N bs rows q).length = _
      by_cases hqp : p = q
      · subst hqp
        rw [if_pos rfl, partFrames, chunks_count bs hbs, hplen]
      · rw [if_neg hqp, partFrames, hzero q hq (fun h => hqp h.symm), chunks_nil]
        rfl
    rw [hmapc, sum_map_ite, if_pos (by omega)]

theorem C6_witness :
    decodeFrames (spillFreeze 1 1 [⟨0, 0⟩, ⟨0, 1⟩]).frozen
      = some (((List.range 1).map (partFrames 1 1 [⟨0, 0⟩, ⟨0, 1⟩])).flatten) ∧
    (1 ≤ ([(⟨0, 0⟩ : Row)]).length ∧ ([(⟨0, 0⟩ : Row)]).length ≤ 1) ∧
    (((List.range 1).map (partFrames 1 1 [⟨0, 0⟩, ⟨0, 1⟩])).flatten).length
      = (([⟨0, 0⟩, ⟨0, 1⟩] : List Row).length + 1 - 1) / 1 := by
  have h := C6_subbatches 1 1 [⟨0, 0⟩, ⟨0, 1⟩] (by decide) (by decide) (by decide)
  exact ⟨h.1, h.2.1 [⟨0, 0⟩] (by decide), h.2.2.2 0 (by decide) (by decide)⟩

/-- The promotion loop pops one spill and pushes one promoted spill each
iteration, so a normal exit keeps the spill count. -/
theorem spillLoop_length (cu : Nat) (oracle : Nat → TL2) :
    ∀ (fuel : Nat) (freed : Int) (sp : List SSpill) (k : Nat), sp ≠ [] →
      ∀ (freed2 : Int) (sp2 : List SSpill),
      spillLoop cu oracle fuel freed sp k = some (some (freed2, sp2)) →
      sp2.length = sp.length := by
  intro fuel
  induction fuel with
  | zero =>
      intro freed sp k hne freed2 sp2 heq
      rw [spillLoop] at heq
      cases heq
  | succ fu ih =>
      intro freed sp k hne freed2 sp2 heq
      rw [spillLoop_succ] at heq
      by_cases hcond : freed < (cu : Int) / 2
      · rw [if_pos hcond] at heq
        have hilt : lastArgmax SSpill.offheapMemSize sp < sp.length :=
          lastArgmax_lt _ _ hne
        have hlen1 : (sp.eraseIdx (lastArgmax SSpill.offheapMemSize sp)).length + 1
            = sp.length := List.length_eraseIdx_add_one hilt
        cases horacle : oracle k with
        | fatal =>
            simp only [horacle, promote] at heq
            cases heq
        | ok =>
            simp only [horacle, promote] at heq
            have h2 := ih _ _ (k + 1) (by simp) freed2 sp2 heq
            rw [h2, List.length_append]
            simp only [List.length_cons, List.length_nil]
            omega
        | exhausted =>
            simp only [horacle, promote] at heq
            have h2 := ih _ _ (k + 1) (by simp) freed2 sp2 heq
            rw [h2, List.length_append]
            simp only [List.length_cons, List.length_nil]
            omega
      · rw [if_neg hcond] at heq
        cases heq
        rfl

/-- C7 counterexample: invoking the external `spill()` on a state with an
empty buffer still freezes and pushes a (fully empty) spill — the push at
source line 246 is unconditional, so the spill list grows even though the
buffer had no content. -/
theorem C7_counterexample :
    spillCall 1 1 (fun _ => TL2.ok) 1 RPState.init
      = some (some (0, ⟨[], 0, [⟨Tier.l1, ⟨[], [0, 0]⟩⟩], 0⟩)) ∧
    RPState.init.spills.length = 0 ∧
    ([(⟨Tier.l1, (⟨[], [0, 0]⟩ : SpillBytes)⟩ : SSpill)]).length = 1 := by
  refine ⟨by decide, by decide, by decide⟩

/-- C7 amended: every invocation of `spill()` that returns normally
freezes the buffer (even when empty) and pushes exactly one new spill:
the spill list always grows by one. -/
theorem C7_amended (N bs : Nat) (oracle : Nat → TL2) (fuel : Nat)
    (st : RPState) (freed : Nat) (st' : RPState)
    (h : spillCall N bs oracle fuel st = some (some (freed, st'))) :
    st'.spills.length = st.spills.length + 1 := by
  rw [spillCall_eq] at h
  cases hl : spillLoop st.memUsed oracle fuel
      ((st.bufferedMemSize : Int)
        - ((⟨Tier.l1, spillFreeze N bs st.bufferedBatches.flatten⟩ :
            SSpill).offheapMemSize : Int))
      (st.spills ++ [⟨Tier.l1, spillFreeze N bs st.bufferedBatches.flatten⟩])
      0 with
  | none =>
      rw [hl] at h
      cases h
  | some o =>
      rw [hl] at h
      cases o with
      | none => cases h
      | some p =>
          obtain ⟨f2, sp2⟩ := p
          have h2 := Option.some.inj (Option.some.inj h)
          have hst : ({ bufferedBatches := [], bufferedMemSize := 0,
                        spills := sp2, memUsed := st.memUsed - f2.toNat } :
                RPState)
              = st' := congrArg Prod.snd h2
          have hsp : st'.spills = sp2 := by
            rw [← hst]
          rw [hsp, spillLoop_length st.memUsed oracle fuel _ _ 0 (by simp)
            f2 sp2 hl, List.length_append]
          simp only [List.length_cons, List.length_nil]

theorem C7_amended_witness :
    ((⟨[], 0, [⟨Tier.l1, ⟨[], [0, 0]⟩⟩], 0⟩ : RPState)).spills.length
      = RPState.init.spills.length + 1 :=
  C7_amended 1 1 (fun _ => TL2.ok) 1 RPState.init 0
    ⟨[], 0, [⟨Tier.l1, ⟨[], [0, 0]⟩⟩], 0⟩ (by decide)

/-- C8: every invocation of the external `spill()` on a reachable state
terminates for every behaviour of the L2 allocator (including always
failing): with fuel `mem_used / 2 + |frozen| + 1` the promotion loop has
already stopped, so it performs only finitely many tier promotions. -/
theorem C8_spill_terminates (N bs : Nat) (st : RPState) (rs : List Row)
    (hN : 1 ≤ N) (hbs : 1 ≤ bs) (hreach : Reach N bs st rs)
    (oracle : Nat → TL2) :
    spillCall N bs oracle
      (st.memUsed / 2
        + (spillFreeze N bs st.bufferedBatches.flatten).frozen.length + 1) st
      ≠ none := by
  obtain ⟨iwf, iperm, ib0, ihash, imem⟩ := reach_stinv N bs hN hbs st rs hreach
  rw [spillCall_eq]
  have hterm := spillLoop_terminates st.memUsed oracle
    (st.memUsed / 2 + (spillFreeze N bs st.bufferedBatches.flatten).frozen.length)
    ((st.bufferedMemSize : Int)
      - ((⟨Tier.l1, spillFreeze N bs st.bufferedBatches.flatten⟩ :
          SSpill).offheapMemSize : Int))
    (st.spills ++ [⟨Tier.l1, spillFreeze N bs st.bufferedBatches.flatten⟩])
    0 ?inv ?bound
  case inv =>
    rw [offheapSum_append]
    have hl1 : offheapSum
        [(⟨Tier.l1, spillFreeze N bs st.bufferedBatches.flatten⟩ : SSpill)]
        = (spillFreeze N bs st.bufferedBatches.flatten).frozen.length := by
      rw [offheapSum]
      simp [SSpill.offheapMemSize]
    have hoffl1 : ((⟨Tier.l1, spillFreeze N bs st.bufferedBatches.flatten⟩ :
        SSpill).offheapMemSize)
        = (spillFreeze N bs st.bufferedBatches.flatten).frozen.length := rfl
    rw [hl1, hoffl1]
    omega
  case bound =>
    have hoffl1 : ((⟨Tier.l1, spillFreeze N bs st.bufferedBatches.flatten⟩ :
        SSpill).offheapMemSize)
        = (spillFreeze N bs st.bufferedBatches.flatten).frozen.length := rfl
    rw [hoffl1]
    omega
  cases hl : spillLoop st.memUsed oracle
      (st.memUsed / 2
        + (spillFreeze N bs st.bufferedBatches.flatten).frozen.length + 1)
      ((st.bufferedMemSize : Int)
        - ((⟨Tier.l1, spillFreeze N bs st.bufferedBatches.flatten⟩ :
            SSpill).offheapMemSize : Int))
      (st.spills ++ [⟨Tier.l1, spillFreeze N bs st.bufferedBatches.flatten⟩])
      0 with
  | none => exact absurd hl hterm
  | some o =>
      cases o with
      | none => simp
      | some p => simp

theorem C8_witness :
    spillCall 1 1 (fun _ => TL2.fatal)
      (RPState.init.memUsed / 2
        + (spillFreeze 1 1 RPState.init.bufferedBatches.flatten).frozen.length
        + 1) RPState.init
      ≠ none :=
  C8_spill_terminates 1 1 RPState.init [] (by decide) (by decide) Reach.init
    (fun _ => TL2.fatal)

/-- Resizing the singleton offset vector `[0]` to `N + 1` entries padded
with `0` yields the all-zero vector. -/
theorem resize_zero_offsets (N : Nat) :
    resize [0] (N + 1) 0 = List.replicate (N + 1) 0 := by
  rw [resize, if_pos (by simp)]
  simp [List.replicate_succ]

/-- C9 counterexample: after a successful `shuffle_write` (which leaves
the state empty), a second `shuffle_write` neither aborts nor returns an
error — it returns `Ok` again, re-creating the same output files with an
empty data file and an all-zero index in place of the previous non-empty
output. -/
theorem C9_counterexample :
    Reach 1 1 ⟨[[⟨0, 0⟩]], 2, [], 2⟩ [⟨0, 0⟩] ∧
    shuffleWrite 1 1 2 ⟨[[⟨0, 0⟩]], 2, [], 2⟩
      = some ([Sym.mark 1, Sym.cell ⟨0, 0⟩], [0, 2], RPState.init) ∧
    shuffleWrite 1 1 2 RPState.init = some ([], [0, 0], RPState.init) ∧
    ([Sym.mark 1, Sym.cell ⟨0, 0⟩] : List Sym) ≠ [] := by
  refine ⟨?_, by decide, by decide, by decide⟩
  exact Reach.insert RPState.init [] [⟨0, 0⟩] 1 ⟨[[⟨0, 0⟩]], 2, [], 2⟩ Reach.init
    (by decide) (by decide) rfl

/-- C9 amended: calling `shuffle_write` again after a successful
`shuffle_write` (the post-call state is empty) returns `Ok` and
re-creates the output files, writing an empty data file and an all-zero
index file over the previous contents — silent truncation, not an error
or abort. -/
theorem C9_amended (N bs fuel : Nat) :
    shuffleWrite N bs fuel RPState.init
      = some ([], List.replicate (N + 1) 0, RPState.init) := by
  have h0 : shuffleWrite N bs fuel RPState.init
      = some ([], resize [0] (N + 1) 0, RPState.init) := rfl
  rw [h0, resize_zero_offsets]

/-- C10: a failing `try_grow` inside `insert_batch` propagates the error
with no observable mutation — the batch is not appended and neither
`buffered_mem_size` nor `mem_used` grows; every mutation happens only on
the success path, in which case all three fields change exactly as
written. -/
theorem C10_insert_error (rows : List Row) (sz : Nat) (st : RPState) :
    insertBatch GrowResult.err rows sz st = none ∧
    (∀ g st', insertBatch g rows sz st = some st' →
      g = GrowResult.ok ∧
      st' = { st with
              memUsed := st.memUsed + 2 * sz,
              bufferedMemSize := st.bufferedMemSize + 2 * sz,
              bufferedBatches := st.bufferedBatches ++ [rows] }) := by
  constructor
  · rfl
  · intro g st' h
    cases g with
    | ok => exact ⟨rfl, (Option.some.inj h).symm⟩
    | err => cases h

theorem C10_witness :
    insertBatch GrowResult.err [⟨0, 0⟩] 1 RPState.init = none ∧
    (GrowResult.ok = GrowResult.ok ∧
      (⟨[[⟨0, 0⟩]], 2, [], 2⟩ : RPState)
        = { RPState.init with
            memUsed := RPState.init.memUsed + 2 * 1,
            bufferedMemSize := RPState.init.bufferedMemSize + 2 * 1,
            bufferedBatches := RPState.init.bufferedBatches ++ [[⟨0, 0⟩]] }) :=
  ⟨(C10_insert_error [⟨0, 0⟩] 1 RPState.init).1,
    (C10_insert_error [⟨0, 0⟩] 1 RPState.init).2 GrowResult.ok
      ⟨[[⟨0, 0⟩]], 2, [], 2⟩ rfl⟩

end BlazeShuffle
